import Mathlib

/-!
TheCrowler: detection-signature index and command expression engine

A shallow embedding of `pkg/ruleset/detectionrule.go` and
`pkg/exprterpreter/exprterpreter.go`.

Conventions of the embedding:

* a Go `string` is a list of runes (`Str`); string literals are written
  `"...".toList`;
* a Go slice that the code only reads is the `List` of its elements; the five
  collections of a rule that the index builders store in their result and append to are
  slice headers (`Slice`) pointing into backing arrays that lie in a memory (`Heap`);
* a Go `map[string]V` is an association list with at most one binding per key
  (`GoMap V`), read with `GoMap.get?` and written with `GoMap.set`;
* the `(value, error)` result of the parser, which never returns both, is an `Except`;
  the result of the evaluator, which can return a value together with an error and
  can panic, is an `Outcome`;
* the 64-bit type `int` is `Int`, with an explicit wrap-around (`wrapInt64`) where
  the code computes with it.
-/

namespace TheCrowler

/-! ## Strings -/

/-- A Go string, as its sequence of runes. -/
abbrev Str := List Char

/-- The runes `unicode.IsSpace` accepts: the ASCII blanks, NEL, NBSP and the
Unicode space separators. -/
def isSpace (c : Char) : Bool :=
  let n := c.toNat
  n == 0x09 || n == 0x0A || n == 0x0B || n == 0x0C || n == 0x0D || n == 0x20 ||
  n == 0x85 || n == 0xA0 || n == 0x1680 || (0x2000 ≤ n && n ≤ 0x200A) ||
  n == 0x2028 || n == 0x2029 || n == 0x202F || n == 0x205F || n == 0x3000

/-- The function `strings.TrimSpace`: drops the leading and the trailing white space. -/
def TrimSpace (s : Str) : Str :=
  ((s.dropWhile isSpace).reverse.dropWhile isSpace).reverse

/-- The function `strings.ToLower`, on the ASCII letters (Go also lowers the
non-ASCII letters; no proof below uses more of it than that it is a function). -/
def ToLower (s : Str) : Str :=
  s.map Char.toLower

/-! ## Maps -/

/-- A Go `map[string]V`: an association list, one binding per key. -/
abbrev GoMap (V : Type) := List (Str × V)

/-- The lookup `v, ok := m[k]`. -/
def GoMap.get? {V : Type} : GoMap V → Str → Option V
  | [], _ => none
  | (k', v) :: t, k => if k' = k then some v else GoMap.get? t k

/-- The assignment `m[k] = v`: replaces the binding of `k`, or adds one. -/
def GoMap.set {V : Type} : GoMap V → Str → V → GoMap V
  | [], k, v => [(k, v)]
  | (k', v') :: t, k, v => if k' = k then (k, v) :: t else (k', v') :: GoMap.set t k v

/-- The keys of a map, in first-insertion order. -/
def GoMap.keys {V : Type} (m : GoMap V) : List Str :=
  m.map Prod.fst

/-! ## Slices in memory -/

/-- A Go slice header: the window `[offset, offset + len)` of the backing array numbered
`array`, with room for `cap` elements from `offset` on. -/
structure Slice where
  array : Nat
  offset : Nat
  len : Nat
  cap : Nat
  deriving DecidableEq

/-- The nil slice. -/
def Slice.nil : Slice :=
  { array := 0, offset := 0, len := 0, cap := 0 }

/-- The backing arrays of the slices of one element type: `cell a i` is element `i` of the
array numbered `a`, the arrays numbered below `next` are the allocated ones, and
`newCap old needed` is the capacity the runtime picks for an array that `append` allocates
for `needed` elements when the old capacity is `old`. -/
structure Heap (α : Type) where
  cell : Nat → Nat → α
  next : Nat
  newCap : Nat → Nat → Nat

/-- The elements of a slice. -/
def Heap.read {α : Type} (mem : Heap α) (s : Slice) : List α :=
  (List.range s.len).map (fun i => mem.cell s.array (s.offset + i))

/-- The built-in `append(s, xs...)`, `xs` being the elements read from the source before
anything is written: when the capacity of `s` fits the additional values they are written
into the backing array of `s`, right after its elements, and the result is `s` with the new
length; otherwise a new array is allocated that holds the elements of `s` followed by `xs`
(zero values behind them), of a capacity that is at least their number. -/
def Heap.append {α : Type} [Inhabited α] (mem : Heap α) (s : Slice) (xs : List α) :
    Slice × Heap α :=
  if s.len + xs.length ≤ s.cap then
    ({ s with len := s.len + xs.length },
     { mem with
         cell := fun a i =>
           if a = s.array ∧ s.offset + s.len ≤ i ∧ i < s.offset + s.len + xs.length then
             xs.getD (i - (s.offset + s.len)) default
           else mem.cell a i })
  else
    let data := mem.read s ++ xs
    ({ array := mem.next, offset := 0, len := data.length,
       cap := max data.length (mem.newCap s.cap data.length) },
     { mem with
         cell := fun a i => if a = mem.next then data.getD i default else mem.cell a i,
         next := mem.next + 1 })

/-- A `map[string][]T` together with the memory its slices point into. -/
structure SliceMap (α : Type) where
  slices : GoMap Slice
  mem : Heap α

/-- The keys of the map. -/
def SliceMap.keys {α : Type} (ix : SliceMap α) : List Str :=
  ix.slices.keys

/-- The value `m[k]` as a caller reads it: the elements of the slice bound to `k`. -/
def SliceMap.get? {α : Type} (ix : SliceMap α) (k : Str) : Option (List α) :=
  (ix.slices.get? k).map ix.mem.read

/-- The statement `m[k] = s`. -/
def SliceMap.store {α : Type} (ix : SliceMap α) (k : Str) (s : Slice) : SliceMap α :=
  { ix with slices := ix.slices.set k s }

/-- The statement `m[k] = append(m[k], src...)`, `existing` being the slice `m[k]`. -/
def SliceMap.appendTo {α : Type} [Inhabited α] (ix : SliceMap α) (k : Str)
    (existing src : Slice) : SliceMap α :=
  let appended := ix.mem.append existing (ix.mem.read src)
  { slices := ix.slices.set k appended.1, mem := appended.2 }

/-! ## Data model of the detection rules

The type declarations of package `ruleset` are not part of the examined
sources; the records below carry the fields that `detectionrule.go` reads. -/

/-- A `float32` payload (a confidence). It is only ever carried, never computed with. -/
abbrev Float32 := ℚ

/-- Modelled from the spec: `HTTPHeaderField{Key, Value, Confidence}`. -/
structure HTTPHeaderField where
  Key : Str
  Value : List Str
  Confidence : Float32
  deriving DecidableEq

/-- Modelled from the spec: `MetaTag{Name, Content, Confidence}`. -/
structure MetaTag where
  Name : Str
  Content : Str
  Confidence : Float32
  deriving DecidableEq, Inhabited

/-- Modelled from the spec: `PageContentSignature{Key, Signature, Text, Confidence}`. -/
structure PageContentSignature where
  Key : Str
  Signature : List Str
  Text : List Str
  Confidence : Float32
  deriving DecidableEq, Inhabited

/-- Modelled from the spec: `URLMicroSignature{Signature, Confidence}`. -/
structure URLMicroSignature where
  Signature : Str
  Confidence : Float32
  deriving DecidableEq, Inhabited

/-- Modelled from the spec: `SSLSignature`, an opaque fingerprint with a confidence. -/
structure SSLSignature where
  Fingerprint : Str
  Confidence : Float32
  deriving DecidableEq, Inhabited

/-- Modelled from the spec: `PluginCall`, an external plugin invocation descriptor. -/
structure PluginCall where
  Descriptor : Str
  deriving DecidableEq, Inhabited

/-- Modelled from the spec: the detection rule, with the fields `detectionrule.go` reads.
The five collections that the index builders store are slice headers. -/
structure DetectionRule where
  RuleName : Str
  ObjectName : Str
  Implies : List Str
  PluginCalls : Slice
  HTTPHeaderFields : List HTTPHeaderField
  MetaTags : Slice
  PageContentPatterns : Slice
  URLMicroSignatures : Slice
  SSLSignatures : Slice
  deriving DecidableEq

/-! ## Accessors of one rule -/

/-- The method `(*DetectionRule).GetObjectName`. -/
def DetectionRule.GetObjectName (d : DetectionRule) : Str :=
  TrimSpace d.ObjectName

/-- The method `(*DetectionRule).GetAllURLMicroSignatures`: a fresh slice, each signature trimmed. -/
def DetectionRule.GetAllURLMicroSignatures (d : DetectionRule) (mem : Heap URLMicroSignature) :
    List URLMicroSignature :=
  (mem.read d.URLMicroSignatures).foldl
    (fun trimmedSignatures signature =>
      trimmedSignatures ++ [{ Signature := TrimSpace signature.Signature,
                              Confidence := signature.Confidence }])
    []

/-- The method `(*HTTPHeaderField).GetKey`. -/
def HTTPHeaderField.GetKey (h : HTTPHeaderField) : Str :=
  TrimSpace h.Key

/-! ## Index builders -/

/-- The function `GetAllURLMicroSignaturesMap`, run in the memory `mem`: the map it
returns, with the memory as the call leaves it. -/
def GetAllURLMicroSignaturesMap (mem : Heap URLMicroSignature) (d : List DetectionRule) :
    SliceMap URLMicroSignature :=
  d.foldl
    (fun signatures rule =>
      match signatures.slices.get? (ToLower rule.ObjectName) with
      | some existing =>
          signatures.appendTo (ToLower rule.ObjectName) existing rule.URLMicroSignatures
      | none => signatures.store (ToLower rule.ObjectName) rule.URLMicroSignatures)
    { slices := [], mem := mem }

/-- The function `GetAllPageContentPatternsMap`. -/
def GetAllPageContentPatternsMap (mem : Heap PageContentSignature) (d : List DetectionRule) :
    SliceMap PageContentSignature :=
  d.foldl
    (fun patterns rule =>
      let key := ToLower rule.ObjectName
      match patterns.slices.get? key with
      | some existing => patterns.appendTo key existing rule.PageContentPatterns
      | none => patterns.store (ToLower rule.ObjectName) rule.PageContentPatterns)
    { slices := [], mem := mem }

/-- The function `GetAllSSLSignaturesMap`. -/
def GetAllSSLSignaturesMap (mem : Heap SSLSignature) (d : List DetectionRule) :
    SliceMap SSLSignature :=
  d.foldl
    (fun signatures rule =>
      match signatures.slices.get? (ToLower rule.ObjectName) with
      | some existing =>
          signatures.appendTo (ToLower rule.ObjectName) existing rule.SSLSignatures
      | none => signatures.store (ToLower rule.ObjectName) rule.SSLSignatures)
    { slices := [], mem := mem }

/-- The function `GetAllMetaTagsMap`. -/
def GetAllMetaTagsMap (mem : Heap MetaTag) (d : List DetectionRule) : SliceMap MetaTag :=
  d.foldl
    (fun tags rule =>
      match tags.slices.get? (ToLower rule.ObjectName) with
      | some existing => tags.appendTo (ToLower rule.ObjectName) existing rule.MetaTags
      | none => tags.store (ToLower rule.ObjectName) rule.MetaTags)
    { slices := [], mem := mem }

/-- The function `GetAllPluginCallsMap`. -/
def GetAllPluginCallsMap (mem : Heap PluginCall) (d : List DetectionRule) : SliceMap PluginCall :=
  d.foldl
    (fun pluginCalls rule =>
      match pluginCalls.slices.get? (ToLower rule.ObjectName) with
      | some existing =>
          pluginCalls.appendTo (ToLower rule.ObjectName) existing rule.PluginCalls
      | none => pluginCalls.store (ToLower rule.ObjectName) rule.PluginCalls)
    { slices := [], mem := mem }

/-- One step of the two HTTP-header builders, for a header that passed the filter:
`headers[lower ObjectName][lower GetKey] = header`, the inner map being created
when the object has none. -/
def headerStep (headers : GoMap (GoMap HTTPHeaderField)) (rule : DetectionRule)
    (header : HTTPHeaderField) : GoMap (GoMap HTTPHeaderField) :=
  let item : GoMap HTTPHeaderField := GoMap.set [] (ToLower header.GetKey) header
  match headers.get? (ToLower rule.ObjectName) with
  | some inner =>
      headers.set (ToLower rule.ObjectName) (inner.set (ToLower header.GetKey) header)
  | none => headers.set (ToLower rule.ObjectName) item

/-- The function `GetAllHTTPHeaderFieldsMap`. -/
def GetAllHTTPHeaderFieldsMap (d : List DetectionRule) : GoMap (GoMap HTTPHeaderField) :=
  d.foldl
    (fun headers rule =>
      rule.HTTPHeaderFields.foldl
        (fun headers header =>
          if header.GetKey = "*".toList then headerStep headers rule header else headers)
        headers)
    []

/-- The function `GetHTTPHeaderFieldsMapByKey`. -/
def GetHTTPHeaderFieldsMapByKey (d : List DetectionRule) (key : Str) :
    GoMap (GoMap HTTPHeaderField) :=
  let key := ToLower (TrimSpace key)
  d.foldl
    (fun headers rule =>
      rule.HTTPHeaderFields.foldl
        (fun headers header =>
          if ToLower (TrimSpace header.GetKey) ≠ key then headers
          else headerStep headers rule header)
        headers)
    []

/-! ## What the index is specified to hold -/

/-- The entries of one kind (selected by `f`) of the rules whose lower-cased
`ObjectName` is `k`, in rule order and then within-rule order. -/
def entriesOf {α : Type} (f : DetectionRule → List α) (d : List DetectionRule) (k : Str) :
    List α :=
  ((d.filter (fun rule => ToLower rule.ObjectName = k)).map f).flatten

/-- Whether some rule of the collection has `k` as lower-cased `ObjectName`. -/
def hasObject (d : List DetectionRule) (k : Str) : Bool :=
  d.any (fun rule => ToLower rule.ObjectName = k)

/-- A rule that has only an `ObjectName` and URL micro-signatures, the slice `sigs`. -/
def urlRule (objectName : Str) (sigs : Slice) : DetectionRule :=
  { RuleName := [], ObjectName := objectName, Implies := [], PluginCalls := Slice.nil,
    HTTPHeaderFields := [], MetaTags := Slice.nil, PageContentPatterns := Slice.nil,
    URLMicroSignatures := sigs, SSLSignatures := Slice.nil }

/-- A rule that has only an `ObjectName` and HTTP header fields. -/
def headerRule (objectName : Str) (fields : List HTTPHeaderField) : DetectionRule :=
  { RuleName := [], ObjectName := objectName, Implies := [], PluginCalls := Slice.nil,
    HTTPHeaderFields := fields, MetaTags := Slice.nil, PageContentPatterns := Slice.nil,
    URLMicroSignatures := Slice.nil, SSLSignatures := Slice.nil }

/-- A memory that holds the given arrays, numbered from 0 (the cells behind the elements
of an array hold the zero value); a newly allocated array gets twice the old capacity when
that is enough. -/
def Heap.ofArrays {α : Type} [Inhabited α] (arrays : List (List α)) : Heap α :=
  { cell := fun a i => (arrays.getD a []).getD i default,
    next := arrays.length,
    newCap := fun old needed => max needed (2 * old) }

/-- The slice over the first `len` elements of array `a`, of capacity `cap`:
what `make([]T, len, cap)` or a slice literal gives. -/
def Slice.whole (a len cap : Nat) : Slice :=
  { array := a, offset := 0, len := len, cap := cap }

/-- The memory of the spec's example: one array with the signature ` /admin `, one with
the signature `/login`. -/
def serverMemory : Heap URLMicroSignature :=
  Heap.ofArrays [[{ Signature := " /admin ".toList, Confidence := 0.9 }],
                 [{ Signature := "/login".toList, Confidence := 0.5 }]]

/-- The rule collection of the spec's example: `Server` with the signature ` /admin `
and `server` with the signature `/login`, each a slice literal (length and capacity 1). -/
def serverRules : List DetectionRule :=
  [urlRule "Server".toList (Slice.whole 0 1 1), urlRule "server".toList (Slice.whole 1 1 1)]

/-- The rules of the spec's example with room left behind the signature of `Server`
(capacity 4), so that the signature of `server` is appended in place. -/
def roomyServerRules : List DetectionRule :=
  [urlRule "Server".toList (Slice.whole 0 1 4), urlRule "server".toList (Slice.whole 1 1 1)]

/-- The memory of `paddedServerRules`: the signatures `/admin` and `/login`. -/
def paddedServerMemory : Heap URLMicroSignature :=
  Heap.ofArrays [[{ Signature := "/admin".toList, Confidence := 0.9 }],
                 [{ Signature := "/login".toList, Confidence := 0.5 }]]

/-- Two rules whose `ObjectName` differ in letter case and in surrounding white space. -/
def paddedServerRules : List DetectionRule :=
  [urlRule " Server ".toList (Slice.whole 0 1 1), urlRule "server".toList (Slice.whole 1 1 1)]

/-- A memory with three arrays: `/base`, `/s1` and `/s2`. -/
def sharedMemory : Heap URLMicroSignature :=
  Heap.ofArrays [[{ Signature := "/base".toList, Confidence := 0.5 }],
                 [{ Signature := "/s1".toList, Confidence := 0.5 }],
                 [{ Signature := "/s2".toList, Confidence := 0.5 }]]

/-- Two rules `a` and `b` that hold the same slice `base := make([]URLMicroSignature, 1, 4)`
with the one signature `/base`. -/
def sharedBaseRules : List DetectionRule :=
  [urlRule "a".toList (Slice.whole 0 1 4), urlRule "b".toList (Slice.whole 0 1 4)]

/-- The same two rules with the slice literal `[]URLMicroSignature{{"/base"}}`, which has
no spare capacity (length and capacity 1). -/
def fullBaseRules : List DetectionRule :=
  [urlRule "a".toList (Slice.whole 0 1 1), urlRule "b".toList (Slice.whole 0 1 1)]

/-- A second rule for `a`, with the signature `/s1`, and one for `b`, with `/s2`. -/
def laterRules : List DetectionRule :=
  [urlRule "a".toList (Slice.whole 1 1 1), urlRule "b".toList (Slice.whole 2 1 1)]

/-- The signatures an index binds to a key, as plain strings (none when the key is unbound). -/
def signaturesAt (ix : SliceMap URLMicroSignature) (k : Str) : Option (List Str) :=
  (ix.get? k).map (fun l => l.map (fun e => e.Signature))

/-- The signatures of the rules named `k` (lower-cased), in rule order, as plain strings. -/
def signaturesOf (mem : Heap URLMicroSignature) (d : List DetectionRule) (k : Str) : List Str :=
  (entriesOf (fun r => mem.read r.URLMicroSignatures) d k).map (fun e => e.Signature)

/-- The spare capacity of `s`, the cells behind its elements up to its capacity, does not
overlap the capacity window of `t`: an `append` in place to `s` writes no cell of `t`. -/
def Slice.spareMisses (s t : Slice) : Prop :=
  s.cap ≤ s.len ∨ t.cap = 0 ∨ s.array ≠ t.array ∨ s.offset + s.cap ≤ t.offset
    ∨ t.offset + t.cap ≤ s.offset + s.len

/-- Two slices that share no spare capacity: neither has room behind its elements that
overlaps the other. Slices allocated separately are so, and so are slices without spare
capacity, even when they share elements. -/
def Slice.spareApart (s t : Slice) : Prop :=
  s.spareMisses t ∧ t.spareMisses s

instance (s t : Slice) : Decidable (s.spareApart t) := by
  unfold Slice.spareApart Slice.spareMisses
  infer_instance

/-- A slice as the language hands it out: the length within the capacity, and the backing
array an allocated one (unless there is no capacity at all, as for the nil slice). -/
def Slice.valid (next : Nat) (s : Slice) : Prop :=
  s.len ≤ s.cap ∧ (s.cap = 0 ∨ s.array < next)

instance (next : Nat) (s : Slice) : Decidable (s.valid next) := by
  unfold Slice.valid
  infer_instance

/-- No spare capacity is shared: each slice is valid and no two of them share spare
capacity. -/
def SpareApart (next : Nat) (ss : List Slice) : Prop :=
  (∀ s ∈ ss, s.valid next) ∧ ss.Pairwise Slice.spareApart

instance (next : Nat) (ss : List Slice) : Decidable (SpareApart next ss) := by
  unfold SpareApart
  infer_instance

/-- One iteration of the loop shared by the five single-level builders, `f` selecting the
collection: `m[k] = append(m[k], f(rule)...)` when `k`, the lower-cased `ObjectName`, is
bound, and `m[k] = f(rule)` when it is not. -/
def indexStep {α : Type} [Inhabited α] (f : DetectionRule → Slice) (ix : SliceMap α)
    (rule : DetectionRule) : SliceMap α :=
  match ix.slices.get? (ToLower rule.ObjectName) with
  | some existing => ix.appendTo (ToLower rule.ObjectName) existing (f rule)
  | none => ix.store (ToLower rule.ObjectName) (f rule)

/-- The normalisation `GetAllURLMicroSignatures` applies to one entry. -/
def trimSignature (e : URLMicroSignature) : URLMicroSignature :=
  { Signature := TrimSpace e.Signature, Confidence := e.Confidence }

/-- The field a two-level header index holds for an object and a header key. -/
def fieldAt (m : GoMap (GoMap HTTPHeaderField)) (obj hk : Str) : Option HTTPHeaderField :=
  (m.get? obj).bind (fun inner => inner.get? hk)

/-- The loop nest shared by the two HTTP-header builders, `pass` being the filter
a header has to satisfy to be indexed. -/
def headersFold (pass : HTTPHeaderField → Bool) (d : List DetectionRule)
    (m : GoMap (GoMap HTTPHeaderField)) : GoMap (GoMap HTTPHeaderField) :=
  d.foldl
    (fun headers rule =>
      rule.HTTPHeaderFields.foldl
        (fun headers header => if pass header then headerStep headers rule header else headers)
        headers)
    m

/-- One object whose only header field has the wildcard key written with blanks around it. -/
def paddedWildcardRules : List DetectionRule :=
  [headerRule "nginx".toList
    [{ Key := " * ".toList, Value := ["nginx".toList], Confidence := 0.8 }]]

/-- One object with a header field keyed ` server ` and one keyed `X-Powered-By`. -/
def apacheRules : List DetectionRule :=
  [headerRule "Apache".toList
    [{ Key := " server ".toList, Value := ["apache".toList], Confidence := 0.7 },
     { Key := "X-Powered-By".toList, Value := ["php".toList], Confidence := 0.6 }]]

/-- The merge the five single-level builders are specified to perform, on the elements:
append the rule's entries to the binding of its lower-cased `ObjectName`, or create the
binding. -/
def mergeStep {α : Type} (f : DetectionRule → List α) (m : GoMap (List α))
    (rule : DetectionRule) : GoMap (List α) :=
  match m.get? (ToLower rule.ObjectName) with
  | some existing => m.set (ToLower rule.ObjectName) (existing ++ f rule)
  | none => m.set (ToLower rule.ObjectName) (f rule)

/-! ## The command expression engine

The declarations of package `exprterpreter` that `exprterpreter.go` uses but does not
contain (the node type, the token constants, the command table and the recursion bound)
are parameters of the functions below; `commandTokenMap` and
`maxInterpreterRecursionDepth` give them the values used in the examples. -/

/-- Modelled from the spec: the command node `EncodedCmd{Token, Args, ArgValue}`. -/
inductive EncodedCmd where
  | mk (Token : Int) (Args : List EncodedCmd) (ArgValue : Str)

/-- The field `Token` of a node. -/
def EncodedCmd.Token : EncodedCmd → Int
  | .mk token _ _ => token

/-- The field `Args` of a node. -/
def EncodedCmd.Args : EncodedCmd → List EncodedCmd
  | .mk _ args _ => args

/-- The field `ArgValue` of a node. -/
def EncodedCmd.ArgValue : EncodedCmd → Str
  | .mk _ _ argValue => argValue

/-- The assignment `node.ArgValue = v`. -/
def EncodedCmd.setArgValue : EncodedCmd → Str → EncodedCmd
  | .mk token args _, v => .mk token args v

/-- The errors `exprterpreter.go` builds with `fmt.Errorf`, one constructor per message. -/
inductive ExprError where
  | exceededMaxRecursionDepth
  | unmatchedQuotesOrParentheses
  | randomArgCount (got : Nat)
  | invalidMinArgument (arg : Str)
  | invalidMaxArgument (arg : Str)
  | minNotLessThanMax
  | randomSource
  | timeArgCount (got : Nat)
  | invalidTimeFormat (format : Str)
  | unknownCommandToken (token : Int)
  deriving DecidableEq

/-- Modelled from the spec: the token of the built-in command `random`. -/
def TokenRandom : Int := 1

/-- Modelled from the spec: the token of the built-in command `time`. -/
def TokenTime : Int := 2

/-- Modelled from the spec: the token of the built-in command `url`. -/
def TokenURL : Int := 3

/-- Modelled from the spec: the built-in command table, with the three commands the spec
names (`random`, `time`, `url`). -/
def commandTokenMap : GoMap Int :=
  [("random".toList, TokenRandom), ("time".toList, TokenTime), ("url".toList, TokenURL)]

/-- Modelled from the spec: the fixed maximum nesting depth, a constant in the low tens. -/
def maxInterpreterRecursionDepth : Int := 10

/-- The function `strings.Index(s, c)` for a one-rune separator that occurs in `s`:
the number of runes before its first occurrence. -/
def Index (s : Str) (c : Char) : Nat :=
  (s.takeWhile (fun x => x != c)).length

/-- The slice expression `s[lo:hi]`. -/
def slice (s : Str) (lo hi : Nat) : Str :=
  (s.take hi).drop lo

/-- The function `getCommandToken`: the text before the first `(` looked up in the command
table (token 0 when it is absent). -/
def getCommandToken (tbl : GoMap Int) (command : Str) : Int × Str × Bool :=
  let commandName := command.takeWhile (fun x => x != '(')
  match tbl.get? commandName with
  | some token => (token, commandName, true)
  | none => (0, commandName, false)

/-- The function `isCommand`. -/
def isCommand (tbl : GoMap Int) (s : Str) : Bool :=
  (getCommandToken tbl s).2.2

/-- The function `handleQuotes`. -/
def handleQuotes (char : Char) (inQuotes : Bool) : Bool :=
  if char = '"' then !inQuotes else inQuotes

/-- The function `handleParentheses`. -/
def handleParentheses (char : Char) (inQuotes : Bool) (parenthesisLevel : Int) : Int :=
  if char = '(' ∧ inQuotes = false then parenthesisLevel + 1
  else if char = ')' ∧ inQuotes = false then
    if parenthesisLevel > 0 then parenthesisLevel - 1 else parenthesisLevel
  else parenthesisLevel

/-- The local variables of the loop of `parseParams`. -/
structure ScanState where
  params : List Str
  currentParam : Str
  inQuotes : Bool
  parenthesisLevel : Int
  deriving DecidableEq

/-- One iteration of the loop of `parseParams`. -/
def scanStep (st : ScanState) (char : Char) : ScanState :=
  let inQuotes := handleQuotes char st.inQuotes
  let parenthesisLevel := handleParentheses char inQuotes st.parenthesisLevel
  if char = ',' ∧ inQuotes = false ∧ parenthesisLevel = 0 then
    { params := st.params ++ [TrimSpace st.currentParam], currentParam := [],
      inQuotes := inQuotes, parenthesisLevel := parenthesisLevel }
  else
    { params := st.params, currentParam := st.currentParam ++ [char],
      inQuotes := inQuotes, parenthesisLevel := parenthesisLevel }

/-- The loop of `parseParams` run over a whole string from the initial state. -/
def scan (paramString : Str) : ScanState :=
  paramString.foldl scanStep
    { params := [], currentParam := [], inQuotes := false, parenthesisLevel := 0 }

/-- The function `parseParams`. -/
def parseParams (paramString : Str) : Except ExprError (List Str) :=
  let st := scan paramString
  if st.inQuotes = true ∨ st.parenthesisLevel ≠ 0 then
    .error .unmatchedQuotesOrParentheses
  else
    .ok (st.params ++ [TrimSpace st.currentParam])

/-- The parameter text of a call-shaped command: `command[Index(command, "(")+1 : len(command)-1]`. -/
def paramStringOf (command : Str) : Str :=
  slice command (Index command '(' + 1) (command.length - 1)

/-- The loop of `ParseCmd` over the parameters, `parse` being the recursive call
`ParseCmd(·, depth+1)`; the first failing nested parse ends the loop. -/
def parseArgs (tbl : GoMap Int) (parse : Str → Except ExprError EncodedCmd) :
    List Str → List EncodedCmd → Except ExprError (List EncodedCmd)
  | [], encodedArgs => .ok encodedArgs
  | param :: rest, encodedArgs =>
    let trimmedParam := TrimSpace param
    if isCommand tbl trimmedParam then
      match parse trimmedParam with
      | .error err => .error err
      | .ok nestedCmd =>
        parseArgs tbl parse rest (encodedArgs ++ [nestedCmd.setArgValue trimmedParam])
    else
      parseArgs tbl parse rest (encodedArgs ++ [EncodedCmd.mk (-1) [] trimmedParam])

/-- The body of `ParseCmd`, by recursion on the number of depth levels left,
`maxDepth + 1 - depth`: none is left exactly when `depth > maxDepth`. -/
def ParseCmdAux (tbl : GoMap Int) (maxDepth : Int) : Nat → Str → Int → Except ExprError EncodedCmd
  | 0, _, _ => .error .exceededMaxRecursionDepth
  | levels + 1, command, depth =>
    if depth > maxDepth then .error .exceededMaxRecursionDepth
    else
      let command := TrimSpace command
      let (token, _, isACommand) := getCommandToken tbl command
      if isACommand = true ∧ '(' ∈ command ∧ command.getLast? = some ')' then
        let paramString := paramStringOf command
        match parseParams paramString with
        | .error err => .error err
        | .ok params =>
          match parseArgs tbl (fun p => ParseCmdAux tbl maxDepth levels p (depth + 1)) params [] with
          | .error err => .error err
          | .ok encodedArgs => .ok (EncodedCmd.mk token encodedArgs [])
      else
        .ok (EncodedCmd.mk (-1) [] command)

/-- The function `ParseCmd`, for the command table `tbl` and the recursion bound `maxDepth`. -/
def ParseCmd (tbl : GoMap Int) (maxDepth : Int) (command : Str) (depth : Int) :
    Except ExprError EncodedCmd :=
  ParseCmdAux tbl maxDepth (maxDepth + 1 - depth).toNat command depth

/-! ## What the parameter scan is specified to return -/

/-- Whether the scan is inside a quoted span, and the parenthesis nesting depth, after the
runes of `s`. -/
def quoteDepthAfter (s : Str) : Bool × Int :=
  s.foldl
    (fun st c => (handleQuotes c st.1, handleParentheses c (handleQuotes c st.1) st.2))
    (false, 0)

/-- Whether position `i` of `s` holds a comma that lies outside the quoted spans and at
nesting depth 0. -/
def isTopLevelComma (s : Str) (i : Nat) : Bool :=
  s[i]? == some ',' && !(quoteDepthAfter (s.take i)).1 && (quoteDepthAfter (s.take i)).2 == 0

/-- The positions of the top-level commas of `s`, in increasing order. -/
def topLevelCommas (s : Str) : List Nat :=
  (List.range s.length).filter (isTopLevelComma s)

/-- The pieces of `s` from position `start` on, cut at the positions `cuts` (the rune at
a cut position belongs to no piece). -/
def cutAt (s : Str) : Nat → List Nat → List Str
  | start, [] => [s.drop start]
  | start, i :: cuts => (s.take i).drop start :: cutAt s (i + 1) cuts

/-- The segments of `s` between its top-level commas. -/
def topLevelSegments (s : Str) : List Str :=
  cutAt s 0 (topLevelCommas s)

/-- The pieces of `cutAt` that a cut closes: all but the last one. -/
def closedPieces (s : Str) : Nat → List Nat → List Str
  | _, [] => []
  | start, i :: cuts => (s.take i).drop start :: closedPieces s (i + 1) cuts

/-- The position at which the last piece of `cutAt` starts. -/
def lastStart : Nat → List Nat → Nat
  | start, [] => start
  | _, i :: cuts => lastStart (i + 1) cuts

/-- The local state of the scan as the spec words it: whether the next rune is escaped (an
unescaped backslash stands right before it), whether the scan is inside a double-quoted
span, and the parenthesis nesting depth. -/
structure SpecScanState where
  escaped : Bool
  inQuotes : Bool
  depth : Int
  deriving DecidableEq

/-- One step of the scan as the spec words it: the quoted-span state is toggled on each
unescaped `"`; the nesting depth is incremented on `(` and decremented on `)`, both only
while not inside quotes. -/
def specScanStep (st : SpecScanState) (c : Char) : SpecScanState :=
  let inQuotes := if c = '"' ∧ st.escaped = false then !st.inQuotes else st.inQuotes
  { escaped := decide (c = '\\' ∧ st.escaped = false),
    inQuotes := inQuotes,
    depth := if c = '(' ∧ inQuotes = false then st.depth + 1
             else if c = ')' ∧ inQuotes = false then st.depth - 1
             else st.depth }

/-- The state of the spec's scan after the runes of `s`. -/
def specScan (s : Str) : SpecScanState :=
  s.foldl specScanStep { escaped := false, inQuotes := false, depth := 0 }

/-- Whether position `i` of `s` holds a parameter separator as the spec words it: a comma,
at nesting depth 0 and not inside quotes. -/
def isSpecSeparator (s : Str) (i : Nat) : Bool :=
  s[i]? == some ',' && !(specScan (s.take i)).inQuotes && (specScan (s.take i)).depth == 0

/-- The positions of the spec's parameter separators of `s`, in increasing order. -/
def specSeparators (s : Str) : List Nat :=
  (List.range s.length).filter (isSpecSeparator s)

/-- Whether an odd number of `"` stands before position `i` of `s`: with every `"` opening
or closing a quoted span, escaped or not, position `i` is inside one. -/
def insideQuotes (s : Str) (i : Nat) : Bool :=
  (s.take i).count '"' % 2 == 1

/-- What the rune at position `j` adds to the balance of parentheses: 1 for a `(` and -1
for a `)`, outside the quoted spans. -/
def parenAt (s : Str) (j : Nat) : Int :=
  if insideQuotes s j then 0
  else if s[j]? = some '(' then 1
  else if s[j]? = some ')' then -1
  else 0

/-- The number of `(` less the number of `)`, outside the quoted spans, among the first
`n` runes of `s`. -/
def balance (s : Str) (n : Nat) : Int :=
  ((List.range n).map (parenAt s)).sum

/-- The lowest balance reached up to position `i`, the balance 0 of the start included. -/
def lowestBalance (s : Str) (i : Nat) : Int :=
  ((List.range (i + 1)).map (balance s)).foldl min 0

/-- The number of parentheses open before position `i` of `s`: the `(` outside the quoted
spans that no `)` has closed, a `)` closing the last open `(` and one that finds none open
closing nothing. In closed form, the balance at `i` less the lowest balance up to `i`. -/
def openParens (s : Str) (i : Nat) : Int :=
  balance s i - lowestBalance s i

/-- Whether position `i` of `s` holds a comma before which the number of `"` is even and
no parenthesis is open. -/
def isSeparator (s : Str) (i : Nat) : Bool :=
  s[i]? == some ',' && !insideQuotes s i && openParens s i == 0

/-- The positions of these commas, in increasing order. -/
def separators (s : Str) : List Nat :=
  (List.range s.length).filter (isSeparator s)

/-- The parameter string `\",\"`: a comma between two escaped quotes. -/
def escapedQuotePair : Str := ['\\', '"', ',', '\\', '"']

/-! ## The evaluator

`InterpretCmd` reads the clock (`time.Now`) and the random source (`rand.Int` on
`rand.Reader`). Both are made explicit: a `World` holds what the successive calls will
return, every call consumes one element, and the evaluator returns the world it leaves. -/

/-- One reading of the clock, `time.Now()`, with the renderings the evaluator uses. -/
structure Reading where
  unix : Int
  unixNano : Int
  text : Str
  format : Str → Str

/-- The environment of an evaluation: `draws i` is the raw value behind the `i`-th coming
call of `rand.Int` (`none`: the reader fails), `clock i` the `i`-th coming reading of
`time.Now()`, and `layoutParses l` tells whether `time.Parse(l, "2006-01-02T15:04:05Z07:00")`
returns no error. -/
structure World where
  draws : Nat → Option Nat
  clock : Nat → Reading
  layoutParses : Str → Bool

/-- The call `time.Now()`: the next reading, and the world after it. -/
def World.now (w : World) : Reading × World :=
  (w.clock 0, { w with clock := fun i => w.clock (i + 1) })

/-- The call `rand.Int(rand.Reader, max)` for `max > 0`: a value of `[0, max)`, or the
failure of the reader, and the world after it. -/
def World.randInt (w : World) (max : Int) : Option Int × World :=
  ((w.draws 0).map (fun (raw : Nat) => Int.ofNat raw % max),
   { w with draws := fun i => w.draws (i + 1) })

/-- What a Go function of result type `(string, error)` does: it returns a value together
with an error or `nil`, or it panics. -/
inductive Outcome where
  | returned (value : Str) (err : Option ExprError)
  | panicked

/-- The layout constant `time.RFC3339`. -/
def RFC3339 : Str := "2006-01-02T15:04:05Z07:00".toList

/-- A value of the 64-bit type `int` after an arithmetic operation: the result wraps around. -/
def wrapInt64 (x : Int) : Int :=
  (x + 2 ^ 63) % 2 ^ 64 - 2 ^ 63

/-- The value of a non-empty string of ASCII digits. -/
def digitsValue (ds : Str) : Option Nat :=
  if ds = [] then none
  else ds.foldl
    (fun acc c => acc.bind (fun a => if c.isDigit then some (a * 10 + (c.toNat - 48)) else none))
    (some 0)

/-- The value of a sign and a string of digits as an `int`; `none` when the digits are
missing or malformed, or the value is outside the range of a 64-bit `int`. -/
def signedValue (negative : Bool) (ds : Str) : Option Int :=
  match digitsValue ds with
  | none => none
  | some m =>
    let v : Int := if negative then -(m : Int) else (m : Int)
    if -(2 ^ 63) ≤ v ∧ v ≤ 2 ^ 63 - 1 then some v else none

/-- The function `strconv.Atoi` for a 64-bit `int`: an optional sign, then decimal digits,
the value being in the range of `int`; `none` when it returns an error. -/
def Atoi (s : Str) : Option Int :=
  match s with
  | '-' :: rest => signedValue true rest
  | '+' :: rest => signedValue false rest
  | rest => signedValue false rest

/-- The function `strconv.Itoa` (and `strconv.FormatInt` in base 10). -/
def Itoa (n : Int) : Str :=
  if n < 0 then '-' :: Nat.toDigits 10 n.natAbs else Nat.toDigits 10 n.toNat

mutual
/-- The function `InterpretCmd`. -/
def InterpretCmd : World → EncodedCmd → Outcome × World
  | w, .mk token args argValue =>
    if token = -1 then (.returned argValue none, w)
    else if token = TokenRandom then handleRandomCommand w args
    else if token = TokenTime then handleTimeCommand w args
    else if token = TokenURL then (.returned "*".toList none, w)
    else (.returned [] (some (.unknownCommandToken token)), w)
/-- The function `handleRandomCommand`. -/
def handleRandomCommand : World → List EncodedCmd → Outcome × World
  | w, [arg0, arg1] =>
    match InterpretCmd w arg0 with
    | (.panicked, w1) => (.panicked, w1)
    | (.returned _ (some err), w1) => (.returned [] (some err), w1)
    | (.returned minArg none, w1) =>
      match InterpretCmd w1 arg1 with
      | (.panicked, w2) => (.panicked, w2)
      | (.returned _ (some err), w2) => (.returned [] (some err), w2)
      | (.returned maxArg none, w2) =>
        match Atoi minArg with
        | none => (.returned [] (some (.invalidMinArgument minArg)), w2)
        | some minVal =>
          match Atoi maxArg with
          | none => (.returned [] (some (.invalidMaxArgument maxArg)), w2)
          | some maxVal =>
            if minVal ≥ maxVal then (.returned [] (some .minNotLessThanMax), w2)
            else
              let rangeInt := wrapInt64 (wrapInt64 (maxVal - minVal) + 1)
              if rangeInt ≤ 0 then (.panicked, w2)
              else
                match w2.randInt rangeInt with
                | (none, w3) => (.returned [] (some .randomSource), w3)
                | (some n, w3) => (.returned (Itoa (wrapInt64 (n + minVal))) none, w3)
  | w, args => (.returned [] (some (.randomArgCount args.length)), w)
/-- The function `handleTimeCommand`. -/
def handleTimeCommand : World → List EncodedCmd → Outcome × World
  | w, [] => (.returned w.now.1.text (some (.timeArgCount 0)), w.now.2)
  | w, arg0 :: _ =>
    match InterpretCmd w arg0 with
    | (.panicked, w1) => (.panicked, w1)
    | (.returned _ (some err), w1) => (.returned w1.now.1.text (some err), w1.now.2)
    | (.returned timeFormat none, w1) =>
      let timeToken := ToLower (TrimSpace timeFormat)
      if timeToken = "unix".toList then (.returned (Itoa w1.now.1.unix) none, w1.now.2)
      else if timeToken = "unixnano".toList then
        (.returned (Itoa w1.now.1.unixNano) none, w1.now.2)
      else if timeToken = "rfc3339".toList then
        (.returned (w1.now.1.format RFC3339) none, w1.now.2)
      else if timeToken = "now".toList then (.returned w1.now.1.text none, w1.now.2)
      else if w1.layoutParses timeFormat then
        (.returned (w1.now.1.format timeFormat) none, w1.now.2)
      else (.returned w1.now.1.text (some (.invalidTimeFormat timeFormat)), w1.now.2)
end

/-- A world for the examples: every draw is `raw`, the clock stands at `unix` seconds, and
no layout parses. -/
def constWorld (raw : Nat) (unix : Int) : World :=
  { draws := fun _ => some raw,
    clock := fun _ =>
      { unix := unix, unixNano := unix * 1000000000,
        text := "2009-11-10 23:00:00 +0000 UTC".toList, format := fun l => l },
    layoutParses := fun _ => false }

mutual
/-- All the nodes of a tree: the node itself, then the nodes of its arguments. -/
def EncodedCmd.nodes : EncodedCmd → List EncodedCmd
  | .mk token args argValue => .mk token args argValue :: nodesOfArgs args
/-- The nodes of the trees of a list of arguments. -/
def nodesOfArgs : List EncodedCmd → List EncodedCmd
  | [] => []
  | arg :: rest => arg.nodes ++ nodesOfArgs rest
end

/-- The parameter text `a\",b`: an escaped quote, then a comma. -/
def escapedQuoteParams : Str := ['a', '\\', '"', ',', 'b']

/-- The parameter text `a\x,b`: the same with an ordinary rune in place of the quote. -/
def escapedPlainParams : Str := ['a', '\\', 'x', ',', 'b']

/-- The error a result carries, if any. -/
def Outcome.err : Outcome → Option ExprError
  | .returned _ e => e
  | .panicked => none

/-- Whether a result is the failure "unknown command token". -/
def Outcome.unknownToken (o : Outcome) : Bool :=
  match o.err with
  | some (.unknownCommandToken _) => true
  | _ => false

/-- The tokens `InterpretCmd` dispatches on: -1 and the three built-in tokens. -/
def dispatched (token : Int) : Prop :=
  token = -1 ∨ token = TokenRandom ∨ token = TokenTime ∨ token = TokenURL

/-- The test of `ParseCmd` on its trimmed input: a known leading identifier, a `(`
somewhere, and a `)` at the end. -/
def hasCallShape (tbl : GoMap Int) (command : Str) : Prop :=
  isCommand tbl command = true ∧ '(' ∈ command ∧ command.getLast? = some ')'

/-- The calls of `ParseCmd` that parsing `command` at `depth` leads to when no recursion
bound stops it: the call itself, and the calls made for the parameters of a call-shaped
command that are commands, at the next depth. -/
inductive Invokes (tbl : GoMap Int) : Str → Int → Str → Int → Prop where
  | self (command : Str) (depth : Int) : Invokes tbl command depth command depth
  | nested (command : Str) (depth : Int) (params : List Str) (param inner : Str)
      (innerDepth : Int) :
      hasCallShape tbl (TrimSpace command) →
      parseParams (paramStringOf (TrimSpace command)) = .ok params →
      param ∈ params →
      isCommand tbl (TrimSpace param) = true →
      Invokes tbl (TrimSpace param) (depth + 1) inner innerDepth →
      Invokes tbl command depth inner innerDepth

/-- A well-formed input: every call-shaped command that parsing it leads to has balanced
quotes and parentheses in its parameter text. -/
def WellFormedCalls (tbl : GoMap Int) (command : Str) (depth : Int) : Prop :=
  ∀ inner innerDepth, Invokes tbl command depth inner innerDepth →
    hasCallShape tbl (TrimSpace inner) →
    ∃ params, parseParams (paramStringOf (TrimSpace inner)) = .ok params

/-- The text of `n` nested calls of `url` around the literal `1`: `url(url(...(1)...))`. -/
def nestedCalls : Nat → Str
  | 0 => "1".toList
  | n + 1 => "url(".toList ++ nestedCalls n ++ ")".toList

/-- The nested commands of an input as the spec words them: a command is a text that
passes the identifier and parenthesis test, and a parameter of a command that passes the
same test is a nested command, parsed at the next depth.
`NestedCommand tbl command depth inner innerDepth`: parsing `command` at `depth`, the
command `inner` is parsed at `innerDepth`. -/
inductive NestedCommand (tbl : GoMap Int) : Str → Int → Str → Int → Prop where
  | self (command : Str) (depth : Int) :
      hasCallShape tbl (TrimSpace command) →
      NestedCommand tbl command depth command depth
  | nested (command : Str) (depth : Int) (params : List Str) (param inner : Str)
      (innerDepth : Int) :
      hasCallShape tbl (TrimSpace command) →
      parseParams (paramStringOf (TrimSpace command)) = .ok params →
      param ∈ params →
      hasCallShape tbl (TrimSpace param) →
      NestedCommand tbl (TrimSpace param) (depth + 1) inner innerDepth →
      NestedCommand tbl command depth inner innerDepth

/-- A well-formed input as the spec words it: every nested command has balanced quotes
and parentheses in its parameter text. -/
def WellFormedCommands (tbl : GoMap Int) (command : Str) (depth : Int) : Prop :=
  ∀ inner innerDepth, NestedCommand tbl command depth inner innerDepth →
    ∃ params, parseParams (paramStringOf (TrimSpace inner)) = .ok params

/-- No argument is a bare command name: every text that `ParseCmd` is called for below the
input itself passes the identifier and parenthesis test. -/
def NoBareCommandName (tbl : GoMap Int) (command : Str) (depth : Int) : Prop :=
  ∀ inner innerDepth, Invokes tbl command depth inner innerDepth → innerDepth ≠ depth →
    hasCallShape tbl (TrimSpace inner)

/-- The command `random(url,1)`, whose first argument is the bare command name `url`. -/
def bareNameCall : Str := "random(url,1)".toList

/-! ## Further accessors -/

/-- Modelled from the spec: `cmn.PrepareSlice(&slice, flags)` of package `common`, which is
not part of the examined sources. With flag 1 ("only trim spaces") every string is trimmed,
with flag 0 the strings are returned verbatim; no other flag is used. -/
def PrepareSlice (slice : List Str) (flags : Nat) : List Str :=
  if flags % 2 = 1 then slice.map TrimSpace else slice

/-- The method `(*DetectionRule).GetAllPageContentPatterns`. -/
def DetectionRule.GetAllPageContentPatterns (d : DetectionRule)
    (mem : Heap PageContentSignature) : List PageContentSignature :=
  (mem.read d.PageContentPatterns).foldl
    (fun trimmedPatterns pattern =>
      trimmedPatterns ++ [{ Key := TrimSpace pattern.Key,
                            Signature := PrepareSlice pattern.Signature 1,
                            Text := PrepareSlice pattern.Text 0,
                            Confidence := pattern.Confidence }])
    []

/-- The index expression `s[index]` on a slice: `none` when it panics (index out of range). -/
def indexAt (s : List Str) (index : Int) : Option Str :=
  if 0 ≤ index then s[index.toNat]? else none

/-- The method `(*HTTPHeaderField).GetValue`; `none` when it panics. -/
def HTTPHeaderField.GetValue (h : HTTPHeaderField) (index : Int) : Option Str :=
  if index ≥ (h.Value.length : Int) then some []
  else (indexAt h.Value index).map TrimSpace

/-- The normalisation `GetAllPageContentPatterns` is specified to apply to one entry. -/
def trimPattern (p : PageContentSignature) : PageContentSignature :=
  { Key := TrimSpace p.Key, Signature := p.Signature.map TrimSpace, Text := p.Text,
    Confidence := p.Confidence }

/-- A rule that has only page-content patterns, the slice `patterns`. -/
def patternRule (patterns : Slice) : DetectionRule :=
  { RuleName := [], ObjectName := [], Implies := [], PluginCalls := Slice.nil,
    HTTPHeaderFields := [], MetaTags := Slice.nil, PageContentPatterns := patterns,
    URLMicroSignatures := Slice.nil, SSLSignatures := Slice.nil }

/-- A header field with the two values ` nginx ` and `1.2`. -/
def nginxField : HTTPHeaderField :=
  { Key := "Server".toList, Value := [" nginx ".toList, "1.2".toList], Confidence := 0.8 }

/-- The total number of entries a single-level index holds: the lengths of its slices. -/
def totalEntries {α : Type} (ix : SliceMap α) : Nat :=
  (ix.slices.map (fun kv => kv.2.len)).sum

/-- What a sequence of assignments `inner[k] = field` leaves in the inner map of an object:
nothing new when no field was assigned, else the map with `k` bound to the last one. -/
def overwritten (k : Str) (current : Option (GoMap HTTPHeaderField))
    (last : Option HTTPHeaderField) : Option (GoMap HTTPHeaderField) :=
  match last with
  | some field => some ((current.getD []).set k field)
  | none => current

/-- The header fields passing the filter `pass` of the rules whose lower-cased `ObjectName`
is `obj`, in rule order and then within-rule order. -/
def matchingFields (pass : HTTPHeaderField → Bool) (d : List DetectionRule) (obj : Str) :
    List HTTPHeaderField :=
  entriesOf (fun rule => rule.HTTPHeaderFields.filter pass) d obj

/-- Two rules for the object `nginx`, holding three wildcard fields and one other field. -/
def wildcardRules : List DetectionRule :=
  [headerRule "Nginx".toList
     [{ Key := "*".toList, Value := ["first".toList], Confidence := 0.1 },
      { Key := "Server".toList, Value := ["other".toList], Confidence := 0.2 },
      { Key := " * ".toList, Value := ["second".toList], Confidence := 0.3 }],
   headerRule "nginx".toList
     [{ Key := "*".toList, Value := ["third".toList], Confidence := 0.4 }]]

/-- Whether a result is the failure of the zero-argument branch of `handleTimeCommand`
("time command expects 1 argument"). -/
def Outcome.timeArgCountError (o : Outcome) : Bool :=
  match o.err with
  | some (.timeArgCount _) => true
  | _ => false

mutual
/-- The nesting height of the command nodes of a tree: a node with a `Token` other than -1
counts for one level above its arguments. -/
def EncodedCmd.height : EncodedCmd → Nat
  | .mk token args _ => (if token = -1 then 0 else 1) + heightOfArgs args
/-- The largest height among the trees of a list of arguments. -/
def heightOfArgs : List EncodedCmd → Nat
  | [] => 0
  | arg :: rest => max arg.height (heightOfArgs rest)
end

/-! ## The convenience evaluators

The type `float64` and its library functions are parameters: `ParseFloat s` is the result
of `strconv.ParseFloat(s, 64)` (`none` when it returns an error), `one` the constant 1, and
`toInt` the conversion `int(f)`. -/

/-- The operations on `float64` that `GetFloat` and `GetInt` use. -/
structure Float64Ops (F : Type) where
  ParseFloat : Str → Option F
  one : F
  toInt : F → Int

/-- The function `IsNumber`. -/
def IsNumber {F : Type} (fl : Float64Ops F) (str : Str) : Bool :=
  (fl.ParseFloat str).isSome

/-- The function `GetFloat`; its value is `none` when the evaluation panics. The errors of
`ParseCmd` and of `InterpretCmd` are discarded: after a failed parse the node is the zero
value `EncodedCmd{}`. -/
def GetFloat {F : Type} (fl : Float64Ops F) (tbl : GoMap Int) (maxDepth : Int) (w : World)
    (iExpr : Str) : Option F × World :=
  if IsNumber fl iExpr then
    (some (match fl.ParseFloat iExpr with
      | some rval => rval
      | none => fl.one), w)
  else
    let cmd :=
      match ParseCmd tbl maxDepth iExpr 0 with
      | .ok cmd => cmd
      | .error _ => EncodedCmd.mk 0 [] []
    match InterpretCmd w cmd with
    | (.panicked, w1) => (none, w1)
    | (.returned rvalStr _, w1) =>
      (some (match fl.ParseFloat rvalStr with
        | some rval => rval
        | none => fl.one), w1)

/-- The function `GetInt`. -/
def GetInt {F : Type} (fl : Float64Ops F) (tbl : GoMap Int) (maxDepth : Int) (w : World)
    (iExpr : Str) : Option Int × World :=
  ((GetFloat fl tbl maxDepth w iExpr).1.map fl.toInt, (GetFloat fl tbl maxDepth w iExpr).2)

/-- A sample of the `float64` operations for the examples, on the integers only: a string
parses when it is a decimal integer. -/
def integerFloats : Float64Ops Int :=
  { ParseFloat := Atoi, one := 1, toInt := fun f => f }

/-- The expression `random(0,9223372036854775807)`. -/
def wideRandom : Str := "random(0,9223372036854775807)".toList

/-! ## Lemmas on maps -/

theorem GoMap.get?_set_self {V : Type} (m : GoMap V) (k : Str) (v : V) :
    (m.set k v).get? k = some v := by
  induction m with
  | nil => simp [GoMap.set, GoMap.get?]
  | cons p t ih =>
    obtain ⟨k', v'⟩ := p
    by_cases h : k' = k
    · simp [GoMap.set, GoMap.get?, h]
    · simp [GoMap.set, GoMap.get?, h, ih]

theorem GoMap.get?_set_ne {V : Type} (m : GoMap V) (k k' : Str) (v : V) (hne : k ≠ k') :
    (m.set k v).get? k' = m.get? k' := by
  induction m with
  | nil => simp [GoMap.set, GoMap.get?, hne]
  | cons p t ih =>
    obtain ⟨k0, v0⟩ := p
    by_cases h : k0 = k
    · subst h
      simp [GoMap.set, GoMap.get?, hne]
    · by_cases h2 : k0 = k'
      · subst h2
        simp [GoMap.set, GoMap.get?, h]
      · simp [GoMap.set, GoMap.get?, h, h2, ih]

/-! ## Slices in memory: reading and appending -/

theorem Heap.length_read {α : Type} (mem : Heap α) (s : Slice) :
    (mem.read s).length = s.len := by
  simp [Heap.read]

theorem Heap.read_congr {α : Type} (mem mem' : Heap α) (s : Slice)
    (h : ∀ i, i < s.len → mem'.cell s.array (s.offset + i) = mem.cell s.array (s.offset + i)) :
    mem'.read s = mem.read s := by
  unfold Heap.read
  apply List.map_congr_left
  intro i hi
  exact h i (List.mem_range.mp hi)

theorem Heap.append_len {α : Type} [Inhabited α] (mem : Heap α) (s : Slice) (xs : List α) :
    (mem.append s xs).1.len = s.len + xs.length := by
  unfold Heap.append
  split
  · rfl
  · simp [Heap.length_read]

theorem Heap.append_next {α : Type} [Inhabited α] (mem : Heap α) (s : Slice) (xs : List α) :
    mem.next ≤ (mem.append s xs).2.next := by
  unfold Heap.append
  split
  · exact Nat.le_refl _
  · exact Nat.le_succ _

/-- The slice `append` returns holds the elements of `s` followed by `xs`. -/
theorem Heap.read_append_self {α : Type} [Inhabited α] (mem : Heap α) (s : Slice)
    (xs : List α) :
    (mem.append s xs).2.read (mem.append s xs).1 = mem.read s ++ xs := by
  unfold Heap.append
  split
  · apply List.ext_getElem
    · simp [Heap.read]
    · intro i h1 h2
      simp only [Heap.read, List.getElem_map, List.getElem_range]
      simp only [Heap.read, List.length_map, List.length_range] at h1
      by_cases hi : i < s.len
      · rw [List.getElem_append_left (by simpa [Heap.read] using hi)]
        simp only [List.getElem_map, List.getElem_range]
        rw [if_neg (by omega)]
      · rw [List.getElem_append_right (by simpa [Heap.read] using hi)]
        rw [if_pos ⟨trivial, by omega, by omega⟩]
        simp only [Heap.read, List.length_map, List.length_range]
        have hlt : i - s.len < xs.length := by omega
        rw [List.getD_eq_getElem _ _ (by omega)]
        congr 1
        omega
  · apply List.ext_getElem
    · simp [Heap.read]
    · intro i h1 h2
      simp only [Heap.read, List.getElem_map, List.getElem_range, Nat.zero_add, if_true]
      rw [List.getD_eq_getElem _ _ (by simpa [Heap.read] using h2)]

/-- What `append` returns lies in the window of `s`, or in a newly allocated array. -/
theorem Heap.append_window {α : Type} [Inhabited α] (mem : Heap α) (s : Slice) (xs : List α) :
    ((mem.append s xs).1.array = s.array ∧ (mem.append s xs).1.offset = s.offset
        ∧ (mem.append s xs).1.cap = s.cap ∧ (mem.append s xs).1.len ≤ s.cap
        ∧ (mem.append s xs).2.next = mem.next)
    ∨ ((mem.append s xs).1.array = mem.next ∧ (mem.append s xs).1.offset = 0
        ∧ (mem.append s xs).1.len ≤ (mem.append s xs).1.cap
        ∧ (mem.append s xs).2.next = mem.next + 1) := by
  unfold Heap.append
  split
  · left
    exact ⟨rfl, rfl, rfl, by assumption, rfl⟩
  · right
    exact ⟨rfl, rfl, Nat.le_max_left _ _, rfl⟩

/-- A valid slice that shares no spare capacity with `s` holds the same elements after an
`append` to `s`. -/
theorem Heap.read_append_apart {α : Type} [Inhabited α] (mem : Heap α) (s t : Slice)
    (xs : List α) (ht : t.valid mem.next) (hst : s.spareApart t) :
    (mem.append s xs).2.read t = mem.read t := by
  apply Heap.read_congr
  intro i hi
  obtain ⟨hlen, halloc⟩ := ht
  unfold Heap.append
  split
  · rename_i hfit
    show (if t.array = s.array ∧ s.offset + s.len ≤ t.offset + i
          ∧ t.offset + i < s.offset + s.len + xs.length then _ else _) = _
    rw [if_neg]
    rintro ⟨ha, h1, h2⟩
    rcases hst.1 with h | h | h | h | h
    · omega
    · omega
    · exact h ha.symm
    · omega
    · omega
  · show (if t.array = mem.next then _ else _) = _
    rw [if_neg]
    intro ha
    rcases halloc with h | h
    · omega
    · omega

theorem Slice.spareApart_symm (s t : Slice) (h : s.spareApart t) : t.spareApart s :=
  ⟨h.2, h.1⟩

/-- What `append` returns is valid, and shares no spare capacity with a valid slice that
shares none with `s`. -/
theorem Heap.append_valid {α : Type} [Inhabited α] (mem : Heap α) (s : Slice) (xs : List α)
    (hs : s.valid mem.next) :
    (mem.append s xs).1.valid (mem.append s xs).2.next := by
  rcases Heap.append_window mem s xs with ⟨ha, _, hc, hl, hn⟩ | ⟨ha, _, hl, hn⟩
  · refine ⟨by omega, ?_⟩
    rcases hs.2 with h | h
    · left; omega
    · right; omega
  · exact ⟨hl, Or.inr (by omega)⟩

theorem Heap.append_apart {α : Type} [Inhabited α] (mem : Heap α) (s t : Slice) (xs : List α)
    (ht : t.valid mem.next) (hst : s.spareApart t) :
    (mem.append s xs).1.spareApart t := by
  have hlen := Heap.append_len mem s xs
  rcases Heap.append_window mem s xs with ⟨ha, ho, hc, hl, _⟩ | ⟨ha, _, _, _⟩
  · obtain ⟨h1, h2⟩ := hst
    unfold Slice.spareApart Slice.spareMisses at *
    rw [ha, ho, hc]
    constructor
    · rcases h1 with h | h | h | h | h
      · exact Or.inl (by omega)
      · exact Or.inr (Or.inl h)
      · exact Or.inr (Or.inr (Or.inl h))
      · exact Or.inr (Or.inr (Or.inr (Or.inl h)))
      · exact Or.inr (Or.inr (Or.inr (Or.inr (by omega))))
    · exact h2
  · unfold Slice.spareApart Slice.spareMisses
    rcases ht.2 with h | h
    · exact ⟨Or.inr (Or.inl h), Or.inl (by have := ht.1; omega)⟩
    · exact ⟨Or.inr (Or.inr (Or.inl (by omega))), Or.inr (Or.inr (Or.inl (by omega)))⟩

theorem Slice.valid_mono (s : Slice) (n n' : Nat) (hn : n ≤ n') (h : s.valid n) :
    s.valid n' := by
  refine ⟨h.1, ?_⟩
  rcases h.2 with h | h
  · exact Or.inl h
  · exact Or.inr (by omega)

/-! ## The single-level builders merge by lower-cased object name -/

theorem mergeStep_get?_self {α : Type} (f : DetectionRule → List α) (m : GoMap (List α))
    (rule : DetectionRule) :
    (mergeStep f m rule).get? (ToLower rule.ObjectName)
      = some ((m.get? (ToLower rule.ObjectName)).getD [] ++ f rule) := by
  unfold mergeStep
  cases h : m.get? (ToLower rule.ObjectName) with
  | none => simp [GoMap.get?_set_self]
  | some e => simp [GoMap.get?_set_self]

theorem mergeStep_get?_ne {α : Type} (f : DetectionRule → List α) (m : GoMap (List α))
    (rule : DetectionRule) (k : Str) (hne : ToLower rule.ObjectName ≠ k) :
    (mergeStep f m rule).get? k = m.get? k := by
  unfold mergeStep
  cases h : m.get? (ToLower rule.ObjectName) with
  | none => simp [GoMap.get?_set_ne _ _ _ _ hne]
  | some e => simp [GoMap.get?_set_ne _ _ _ _ hne]

theorem hasObject_cons (rule : DetectionRule) (rest : List DetectionRule) (k : Str) :
    hasObject (rule :: rest) k = (decide (ToLower rule.ObjectName = k) || hasObject rest k) := by
  simp [hasObject]

theorem entriesOf_cons {α : Type} (f : DetectionRule → List α) (rule : DetectionRule)
    (rest : List DetectionRule) (k : Str) :
    entriesOf f (rule :: rest) k
      = if ToLower rule.ObjectName = k then f rule ++ entriesOf f rest k
        else entriesOf f rest k := by
  by_cases h : ToLower rule.ObjectName = k <;> simp [entriesOf, List.filter_cons, h]

theorem entriesOf_eq_nil {α : Type} (f : DetectionRule → List α) (d : List DetectionRule)
    (k : Str) (h : hasObject d k = false) : entriesOf f d k = [] := by
  induction d with
  | nil => simp [entriesOf]
  | cons rule rest ih =>
    rw [hasObject_cons, Bool.or_eq_false_iff] at h
    have h1 : ¬ ToLower rule.ObjectName = k := by simpa using h.1
    rw [entriesOf_cons, if_neg h1]
    exact ih h.2

theorem foldl_mergeStep_get? {α : Type} (f : DetectionRule → List α) (d : List DetectionRule)
    (m : GoMap (List α)) (k : Str) :
    (d.foldl (mergeStep f) m).get? k
      = if hasObject d k then some ((m.get? k).getD [] ++ entriesOf f d k) else m.get? k := by
  induction d generalizing m with
  | nil => simp [hasObject]
  | cons rule rest ih =>
    rw [List.foldl_cons, ih, hasObject_cons, entriesOf_cons]
    by_cases hk : ToLower rule.ObjectName = k
    · subst hk
      rw [mergeStep_get?_self]
      cases hr : hasObject rest (ToLower rule.ObjectName) with
      | true => simp
      | false => simp [entriesOf_eq_nil f rest _ hr]
    · rw [mergeStep_get?_ne f m rule k hk]
      simp [hk]

/-! ## The loop of the single-level builders -/

theorem indexStep_of_none {α : Type} [Inhabited α] (f : DetectionRule → Slice)
    (ix : SliceMap α) (rule : DetectionRule)
    (h : ix.slices.get? (ToLower rule.ObjectName) = none) :
    indexStep f ix rule = ix.store (ToLower rule.ObjectName) (f rule) := by
  unfold indexStep
  rw [h]

theorem indexStep_of_some {α : Type} [Inhabited α] (f : DetectionRule → Slice)
    (ix : SliceMap α) (rule : DetectionRule) (s : Slice)
    (h : ix.slices.get? (ToLower rule.ObjectName) = some s) :
    indexStep f ix rule = ix.appendTo (ToLower rule.ObjectName) s (f rule) := by
  unfold indexStep
  rw [h]

theorem indexStep_slices_ne {α : Type} [Inhabited α] (f : DetectionRule → Slice)
    (ix : SliceMap α) (rule : DetectionRule) (k : Str) (hne : ToLower rule.ObjectName ≠ k) :
    (indexStep f ix rule).slices.get? k = ix.slices.get? k := by
  unfold indexStep
  cases h : ix.slices.get? (ToLower rule.ObjectName) with
  | none => exact GoMap.get?_set_ne _ _ _ _ hne
  | some s => exact GoMap.get?_set_ne _ _ _ _ hne

/-- The lengths of the slices the loop binds are the lengths the merge on the elements
gives, whatever the layout of the slices in memory. -/
theorem indexStep_len {α : Type} [Inhabited α] (f : DetectionRule → Slice)
    (F : DetectionRule → List α) (hF : ∀ r, (F r).length = (f r).len)
    (ix : SliceMap α) (M : GoMap (List α)) (rule : DetectionRule)
    (h : ∀ k, (ix.slices.get? k).map Slice.len = (M.get? k).map List.length) (k : Str) :
    ((indexStep f ix rule).slices.get? k).map Slice.len
      = ((mergeStep F M rule).get? k).map List.length := by
  by_cases hk : ToLower rule.ObjectName = k
  · subst hk
    have hkey := h (ToLower rule.ObjectName)
    rw [mergeStep_get?_self]
    cases hs : ix.slices.get? (ToLower rule.ObjectName) with
    | none =>
      rw [hs] at hkey
      have hM : M.get? (ToLower rule.ObjectName) = none := by
        cases hm : M.get? (ToLower rule.ObjectName) with
        | none => rfl
        | some l => rw [hm] at hkey; cases hkey
      rw [indexStep_of_none f ix rule hs, hM]
      simp [SliceMap.store, GoMap.get?_set_self, hF]
    | some s =>
      rw [hs] at hkey
      cases hm : M.get? (ToLower rule.ObjectName) with
      | none => rw [hm] at hkey; cases hkey
      | some l =>
        rw [hm] at hkey
        have hl : s.len = l.length := by simpa using hkey
        rw [indexStep_of_some f ix rule s hs]
        simp [SliceMap.appendTo, GoMap.get?_set_self, Heap.append_len, Heap.length_read, hF, hl]
  · rw [indexStep_slices_ne f ix rule k hk, mergeStep_get?_ne F M rule k hk]
    exact h k

theorem indexFold_len {α : Type} [Inhabited α] (f : DetectionRule → Slice)
    (F : DetectionRule → List α) (hF : ∀ r, (F r).length = (f r).len)
    (d : List DetectionRule) :
    ∀ (ix : SliceMap α) (M : GoMap (List α)),
      (∀ k, (ix.slices.get? k).map Slice.len = (M.get? k).map List.length) →
      ∀ k, ((d.foldl (indexStep f) ix).slices.get? k).map Slice.len
        = ((d.foldl (mergeStep F) M).get? k).map List.length := by
  induction d with
  | nil => intro ix M h k; exact h k
  | cons rule rest ih =>
    intro ix M h k
    rw [List.foldl_cons, List.foldl_cons]
    exact ih _ _ (indexStep_len f F hF ix M rule h) k

theorem foldl_mergeStep_congr {α : Type} (F G : DetectionRule → List α)
    (d : List DetectionRule) (h : ∀ r ∈ d, F r = G r) (M : GoMap (List α)) :
    d.foldl (mergeStep F) M = d.foldl (mergeStep G) M := by
  induction d generalizing M with
  | nil => rfl
  | cons rule rest ih =>
    rw [List.foldl_cons, List.foldl_cons]
    have e : mergeStep F M rule = mergeStep G M rule := by
      unfold mergeStep
      rw [h rule (List.mem_cons_self _ _)]
    rw [e]
    exact ih (fun r hr => h r (List.mem_cons_of_mem _ hr)) _

theorem SpareApart_cons (n : Nat) (s : Slice) (ss : List Slice) :
    SpareApart n (s :: ss)
      ↔ s.valid n ∧ (∀ t ∈ ss, s.spareApart t) ∧ SpareApart n ss := by
  unfold SpareApart
  rw [List.pairwise_cons]
  constructor
  · rintro ⟨hv, hp, hq⟩
    exact ⟨hv s (List.mem_cons_self _ _), hp, fun t ht => hv t (List.mem_cons_of_mem _ ht), hq⟩
  · rintro ⟨hs, hp, hv, hq⟩
    refine ⟨?_, hp, hq⟩
    intro t ht
    rcases List.mem_cons.mp ht with rfl | ht
    · exact hs
    · exact hv t ht

theorem SpareApart_mono (n n' : Nat) (hn : n ≤ n') (ss : List Slice) (h : SpareApart n ss) :
    SpareApart n' ss :=
  ⟨fun s hs => Slice.valid_mono s n n' hn (h.1 s hs), h.2⟩

/-- The loop invariant of the single-level builders for slices that share no spare
capacity: the elements of the slice bound to a key are the entries the merge on the
elements gives. -/
theorem indexFold_get? {α : Type} [Inhabited α] (f : DetectionRule → Slice)
    (rest : List DetectionRule) :
    ∀ (ix : SliceMap α) (M : GoMap (List α)),
      (∀ k, ix.get? k = M.get? k) →
      (∀ k s, ix.slices.get? k = some s → s.valid ix.mem.next) →
      (∀ k k' s s', k ≠ k' → ix.slices.get? k = some s → ix.slices.get? k' = some s' →
        s.spareApart s') →
      (∀ k s, ix.slices.get? k = some s → ∀ r ∈ rest, s.spareApart (f r)) →
      SpareApart ix.mem.next (rest.map f) →
      ∀ k, (rest.foldl (indexStep f) ix).get? k
        = (rest.foldl (mergeStep (fun r => ix.mem.read (f r))) M).get? k := by
  induction rest with
  | nil => intro ix M h _ _ _ _ k; exact h k
  | cons rule rest ih =>
    intro ix M hget hvalid hpair hrest hlaid k
    rw [List.foldl_cons, List.foldl_cons]
    rw [List.map_cons, SpareApart_cons] at hlaid
    obtain ⟨hrv, hra, hlaid'⟩ := hlaid
    have hra' : ∀ r ∈ rest, (f rule).spareApart (f r) :=
      fun r hr => hra (f r) (List.mem_map_of_mem f hr)
    have hrestv : ∀ r ∈ rest, (f r).valid ix.mem.next :=
      fun r hr => hlaid'.1 (f r) (List.mem_map_of_mem f hr)
    cases hs : ix.slices.get? (ToLower rule.ObjectName) with
    | none =>
      rw [indexStep_of_none f ix rule hs]
      have hMnone : M.get? (ToLower rule.ObjectName) = none := by
        rw [← hget]; simp [SliceMap.get?, hs]
      refine ih (ix.store (ToLower rule.ObjectName) (f rule)) _ ?_ ?_ ?_ ?_ hlaid' k
      · intro k'
        by_cases hk : ToLower rule.ObjectName = k'
        · subst hk
          rw [mergeStep_get?_self, hMnone]
          simp [SliceMap.get?, SliceMap.store, GoMap.get?_set_self]
        · rw [mergeStep_get?_ne _ M rule k' hk, ← hget]
          simp [SliceMap.get?, SliceMap.store, GoMap.get?_set_ne _ _ _ _ hk]
      · intro k' s hk's
        by_cases hk : ToLower rule.ObjectName = k'
        · subst hk
          have : s = f rule := by
            simpa [SliceMap.store, GoMap.get?_set_self] using hk's.symm
          subst this
          exact hrv
        · exact hvalid k' s (by
            simpa [SliceMap.store, GoMap.get?_set_ne _ _ _ _ hk] using hk's)
      · intro k1 k2 s1 s2 hne h1 h2
        by_cases hk1 : ToLower rule.ObjectName = k1
        · subst hk1
          have e1 : s1 = f rule := by
            simpa [SliceMap.store, GoMap.get?_set_self] using h1.symm
          subst e1
          have h2' : ix.slices.get? k2 = some s2 := by
            simpa [SliceMap.store, GoMap.get?_set_ne _ _ _ _ hne] using h2
          exact Slice.spareApart_symm _ _ (hrest k2 s2 h2' rule (List.mem_cons_self _ _))
        · have h1' : ix.slices.get? k1 = some s1 := by
            simpa [SliceMap.store, GoMap.get?_set_ne _ _ _ _ hk1] using h1
          by_cases hk2 : ToLower rule.ObjectName = k2
          · subst hk2
            have e2 : s2 = f rule := by
              simpa [SliceMap.store, GoMap.get?_set_self] using h2.symm
            subst e2
            exact hrest k1 s1 h1' rule (List.mem_cons_self _ _)
          · have h2' : ix.slices.get? k2 = some s2 := by
              simpa [SliceMap.store, GoMap.get?_set_ne _ _ _ _ hk2] using h2
            exact hpair k1 k2 s1 s2 hne h1' h2'
      · intro k' s hk's r hr
        by_cases hk : ToLower rule.ObjectName = k'
        · subst hk
          have : s = f rule := by
            simpa [SliceMap.store, GoMap.get?_set_self] using hk's.symm
          subst this
          exact hra' r hr
        · exact hrest k' s (by
            simpa [SliceMap.store, GoMap.get?_set_ne _ _ _ _ hk] using hk's) r
            (List.mem_cons_of_mem _ hr)
    | some s =>
      rw [indexStep_of_some f ix rule s hs]
      have hsv : s.valid ix.mem.next := hvalid _ s hs
      have hMsome : M.get? (ToLower rule.ObjectName) = some (ix.mem.read s) := by
        rw [← hget]; simp [SliceMap.get?, hs]
      have hnext := Heap.append_next ix.mem s (ix.mem.read (f rule))
      have hframe : ∀ r ∈ rest,
          (ix.mem.append s (ix.mem.read (f rule))).2.read (f r) = ix.mem.read (f r) :=
        fun r hr => Heap.read_append_apart ix.mem s (f r) _ (hrestv r hr)
          (hrest _ s hs r (List.mem_cons_of_mem _ hr))
      have hcongr := foldl_mergeStep_congr
        (fun r => (ix.mem.append s (ix.mem.read (f rule))).2.read (f r))
        (fun r => ix.mem.read (f r)) rest hframe
        (mergeStep (fun r => ix.mem.read (f r)) M rule)
      rw [← hcongr]
      refine ih (ix.appendTo (ToLower rule.ObjectName) s (f rule)) _ ?_ ?_ ?_ ?_
        (SpareApart_mono _ _ hnext _ hlaid') k
      · intro k'
        by_cases hk : ToLower rule.ObjectName = k'
        · subst hk
          rw [mergeStep_get?_self, hMsome]
          simp [SliceMap.get?, SliceMap.appendTo, GoMap.get?_set_self, Heap.read_append_self]
        · rw [mergeStep_get?_ne _ M rule k' hk, ← hget]
          simp only [SliceMap.get?, SliceMap.appendTo, GoMap.get?_set_ne _ _ _ _ hk]
          cases ht : ix.slices.get? k' with
          | none => rfl
          | some t =>
            simp only [Option.map_some']
            rw [Heap.read_append_apart ix.mem s t _ (hvalid k' t ht)
              (hpair _ k' s t hk hs ht)]
      · intro k' t hk't
        by_cases hk : ToLower rule.ObjectName = k'
        · subst hk
          have : t = (ix.mem.append s (ix.mem.read (f rule))).1 := by
            simpa [SliceMap.appendTo, GoMap.get?_set_self] using hk't.symm
          subst this
          exact Heap.append_valid ix.mem s _ hsv
        · have ht : ix.slices.get? k' = some t := by
            simpa [SliceMap.appendTo, GoMap.get?_set_ne _ _ _ _ hk] using hk't
          exact Slice.valid_mono t _ _ hnext (hvalid k' t ht)
      · intro k1 k2 s1 s2 hne h1 h2
        by_cases hk1 : ToLower rule.ObjectName = k1
        · subst hk1
          have e1 : s1 = (ix.mem.append s (ix.mem.read (f rule))).1 := by
            simpa [SliceMap.appendTo, GoMap.get?_set_self] using h1.symm
          subst e1
          have h2' : ix.slices.get? k2 = some s2 := by
            simpa [SliceMap.appendTo, GoMap.get?_set_ne _ _ _ _ hne] using h2
          exact Heap.append_apart ix.mem s s2 _ (hvalid k2 s2 h2') (hpair _ k2 s s2 hne hs h2')
        · have h1' : ix.slices.get? k1 = some s1 := by
            simpa [SliceMap.appendTo, GoMap.get?_set_ne _ _ _ _ hk1] using h1
          by_cases hk2 : ToLower rule.ObjectName = k2
          · subst hk2
            have e2 : s2 = (ix.mem.append s (ix.mem.read (f rule))).1 := by
              simpa [SliceMap.appendTo, GoMap.get?_set_self] using h2.symm
            subst e2
            exact Slice.spareApart_symm _ _ (Heap.append_apart ix.mem s s1 _ (hvalid k1 s1 h1')
              (hpair _ k1 s s1 hk1 hs h1'))
          · have h2' : ix.slices.get? k2 = some s2 := by
              simpa [SliceMap.appendTo, GoMap.get?_set_ne _ _ _ _ hk2] using h2
            exact hpair k1 k2 s1 s2 hne h1' h2'
      · intro k' t hk't r hr
        by_cases hk : ToLower rule.ObjectName = k'
        · subst hk
          have : t = (ix.mem.append s (ix.mem.read (f rule))).1 := by
            simpa [SliceMap.appendTo, GoMap.get?_set_self] using hk't.symm
          subst this
          exact Heap.append_apart ix.mem s (f r) _ (hrestv r hr)
            (hrest _ s hs r (List.mem_cons_of_mem _ hr))
        · exact hrest k' t (by
            simpa [SliceMap.appendTo, GoMap.get?_set_ne _ _ _ _ hk] using hk't) r
            (List.mem_cons_of_mem _ hr)

theorem GetAllURLMicroSignaturesMap_eq (mem : Heap URLMicroSignature) (d : List DetectionRule) :
    GetAllURLMicroSignaturesMap mem d
      = d.foldl (indexStep (fun r => r.URLMicroSignatures)) { slices := [], mem := mem } := by
  rfl

theorem GetAllPageContentPatternsMap_eq (mem : Heap PageContentSignature)
    (d : List DetectionRule) :
    GetAllPageContentPatternsMap mem d
      = d.foldl (indexStep (fun r => r.PageContentPatterns)) { slices := [], mem := mem } := by
  rfl

theorem GetAllSSLSignaturesMap_eq (mem : Heap SSLSignature) (d : List DetectionRule) :
    GetAllSSLSignaturesMap mem d
      = d.foldl (indexStep (fun r => r.SSLSignatures)) { slices := [], mem := mem } := by
  rfl

theorem GetAllMetaTagsMap_eq (mem : Heap MetaTag) (d : List DetectionRule) :
    GetAllMetaTagsMap mem d
      = d.foldl (indexStep (fun r => r.MetaTags)) { slices := [], mem := mem } := by
  rfl

theorem GetAllPluginCallsMap_eq (mem : Heap PluginCall) (d : List DetectionRule) :
    GetAllPluginCallsMap mem d
      = d.foldl (indexStep (fun r => r.PluginCalls)) { slices := [], mem := mem } := by
  rfl

theorem foldl_mergeStep_nil_get? {α : Type} (f : DetectionRule → List α)
    (d : List DetectionRule) (k : Str) :
    (d.foldl (mergeStep f) []).get? k
      = if hasObject d k then some (entriesOf f d k) else none := by
  rw [foldl_mergeStep_get?]
  simp [GoMap.get?]

/-- For slices that share no spare capacity, the loop started on the empty map binds `k` to
the entries of the rules named `k`, in rule order, and binds nothing else. -/
theorem indexFold_apart {α : Type} [Inhabited α] (f : DetectionRule → Slice) (mem : Heap α)
    (d : List DetectionRule) (k : Str) (h : SpareApart mem.next (d.map f)) :
    (d.foldl (indexStep f) { slices := [], mem := mem }).get? k
      = if hasObject d k then some (entriesOf (fun r => mem.read (f r)) d k) else none := by
  rw [← foldl_mergeStep_nil_get?]
  refine indexFold_get? f d { slices := [], mem := mem } [] ?_ ?_ ?_ ?_ h k
  · intro k'; rfl
  · intro k' s hs; simp [GoMap.get?] at hs
  · intro k1 k2 s1 s2 _ h1; simp [GoMap.get?] at h1
  · intro k' s hs; simp [GoMap.get?] at hs

/-- Whatever the layout, the loop started on the empty map binds `k` exactly when a rule is
named `k`, to a slice as long as the entries of the rules named `k` together. -/
theorem indexFold_slices_len {α : Type} [Inhabited α] (f : DetectionRule → Slice)
    (mem : Heap α) (d : List DetectionRule) (k : Str) :
    ((d.foldl (indexStep f) { slices := [], mem := mem }).slices.get? k).map Slice.len
      = if hasObject d k then some (entriesOf (fun r => mem.read (f r)) d k).length
        else none := by
  rw [indexFold_len f (fun r => mem.read (f r)) (fun r => Heap.length_read mem (f r)) d
    { slices := [], mem := mem } [] (fun _ => rfl) k, foldl_mergeStep_nil_get?]
  cases hasObject d k <;> rfl

/-- Two rules: the second one's entries are read before the append writes, so the slice
bound to their common key holds the entries of the first followed by those of the
second, whatever the layout. -/
theorem indexFold_two {α : Type} [Inhabited α] (f : DetectionRule → Slice) (mem : Heap α)
    (r₁ r₂ : DetectionRule) (k : Str) (h₁ : ToLower r₁.ObjectName = k)
    (h₂ : ToLower r₂.ObjectName = k) :
    ([r₁, r₂].foldl (indexStep f) { slices := [], mem := mem }).get? k
        = some (mem.read (f r₁) ++ mem.read (f r₂))
    ∧ ([r₁, r₂].foldl (indexStep f) { slices := [], mem := mem }).keys = [k] := by
  have e1 : indexStep f { slices := [], mem := mem } r₁
      = { slices := [(k, f r₁)], mem := mem } := by
    rw [indexStep_of_none f _ r₁ (by rfl), h₁]
    rfl
  have e2 : ({ slices := [(k, f r₁)], mem := mem } : SliceMap α).slices.get?
      (ToLower r₂.ObjectName) = some (f r₁) := by
    rw [h₂]
    simp [GoMap.get?]
  simp only [List.foldl_cons, List.foldl_nil]
  rw [e1, indexStep_of_some f _ r₂ (f r₁) e2, h₂]
  constructor
  · simp [SliceMap.get?, SliceMap.appendTo, GoMap.set, GoMap.get?, Heap.read_append_self]
  · simp [SliceMap.keys, SliceMap.appendTo, GoMap.set, GoMap.keys]

/-- C1 (the code at the failing input, and where it does merge): for rules whose slices of
a kind share no spare capacity (each slice within its capacity, none with room behind its
elements that overlaps another one), each of the five single-level index builders binds a
key `k` exactly when some rule has `k` as lower-cased `ObjectName`, and then to the
concatenation, in rule order and within-rule order, of that kind's entries of all such
rules; two rules named `Server` and `server` are merged under the one key `server`,
whatever the layout. For two rules `a` and `b` that hold the same slice `/base` of
capacity 4, followed by a rule `a` with `/s1` and a rule `b` with `/s2`, the index binds
`a` to `/base`, `/s2`: both appends write the cell behind `/base`, the signature `/s1` is
dropped and `/s2` is stored twice. -/
theorem shared_backing_array_breaks_merge :
    (∀ (mem : Heap URLMicroSignature) (d : List DetectionRule) (k : Str),
        SpareApart mem.next (d.map (fun r => r.URLMicroSignatures)) →
        (GetAllURLMicroSignaturesMap mem d).get? k
          = if hasObject d k then
              some (entriesOf (fun r => mem.read r.URLMicroSignatures) d k)
            else none)
    ∧ (∀ (mem : Heap PageContentSignature) (d : List DetectionRule) (k : Str),
        SpareApart mem.next (d.map (fun r => r.PageContentPatterns)) →
        (GetAllPageContentPatternsMap mem d).get? k
          = if hasObject d k then
              some (entriesOf (fun r => mem.read r.PageContentPatterns) d k)
            else none)
    ∧ (∀ (mem : Heap SSLSignature) (d : List DetectionRule) (k : Str),
        SpareApart mem.next (d.map (fun r => r.SSLSignatures)) →
        (GetAllSSLSignaturesMap mem d).get? k
          = if hasObject d k then some (entriesOf (fun r => mem.read r.SSLSignatures) d k)
            else none)
    ∧ (∀ (mem : Heap MetaTag) (d : List DetectionRule) (k : Str),
        SpareApart mem.next (d.map (fun r => r.MetaTags)) →
        (GetAllMetaTagsMap mem d).get? k
          = if hasObject d k then some (entriesOf (fun r => mem.read r.MetaTags) d k)
            else none)
    ∧ (∀ (mem : Heap PluginCall) (d : List DetectionRule) (k : Str),
        SpareApart mem.next (d.map (fun r => r.PluginCalls)) →
        (GetAllPluginCallsMap mem d).get? k
          = if hasObject d k then some (entriesOf (fun r => mem.read r.PluginCalls) d k)
            else none)
    ∧ (∀ (mem : Heap URLMicroSignature) (r₁ r₂ : DetectionRule),
        r₁.ObjectName = "Server".toList → r₂.ObjectName = "server".toList →
        (GetAllURLMicroSignaturesMap mem [r₁, r₂]).get? "server".toList
            = some (mem.read r₁.URLMicroSignatures ++ mem.read r₂.URLMicroSignatures)
          ∧ (GetAllURLMicroSignaturesMap mem [r₁, r₂]).keys = ["server".toList])
    ∧ signaturesAt (GetAllURLMicroSignaturesMap sharedMemory (sharedBaseRules ++ laterRules))
          "a".toList = some ["/base".toList, "/s2".toList]
    ∧ signaturesAt (GetAllURLMicroSignaturesMap sharedMemory (sharedBaseRules ++ laterRules))
          "b".toList = some ["/base".toList, "/s2".toList]
    ∧ signaturesOf sharedMemory (sharedBaseRules ++ laterRules) "a".toList
          = ["/base".toList, "/s1".toList]
    ∧ signaturesOf sharedMemory (sharedBaseRules ++ laterRules) "b".toList
          = ["/base".toList, "/s2".toList] := by
  refine ⟨?_, ?_, ?_, ?_, ?_, ?_, by decide, by decide, by decide, by decide⟩
  · intro mem d k h
    rw [GetAllURLMicroSignaturesMap_eq]
    exact indexFold_apart _ mem d k h
  · intro mem d k h
    rw [GetAllPageContentPatternsMap_eq]
    exact indexFold_apart _ mem d k h
  · intro mem d k h
    rw [GetAllSSLSignaturesMap_eq]
    exact indexFold_apart _ mem d k h
  · intro mem d k h
    rw [GetAllMetaTagsMap_eq]
    exact indexFold_apart _ mem d k h
  · intro mem d k h
    rw [GetAllPluginCallsMap_eq]
    exact indexFold_apart _ mem d k h
  · intro mem r₁ r₂ h₁ h₂
    have l₁ : ToLower r₁.ObjectName = "server".toList := by rw [h₁]; decide
    have l₂ : ToLower r₂.ObjectName = "server".toList := by rw [h₂]; decide
    rw [GetAllURLMicroSignaturesMap_eq]
    exact indexFold_two _ mem r₁ r₂ _ l₁ l₂

/-- C1 where no spare capacity is shared: the rules of the spec's example, the signature
of `Server` with room behind it, so that the signature of `server` is appended in place;
and the four rules of the failing input with the shared slice `/base` of capacity 1 in
place of 4, so that the appends allocate. Both indices hold the entries of the rules named
by the key, in rule order. -/
theorem merge_without_shared_spare :
    SpareApart serverMemory.next (roomyServerRules.map (fun r => r.URLMicroSignatures))
    ∧ (GetAllURLMicroSignaturesMap serverMemory roomyServerRules).get? "server".toList
        = (if hasObject roomyServerRules "server".toList then
            some (entriesOf (fun r => serverMemory.read r.URLMicroSignatures)
              roomyServerRules "server".toList)
          else none)
    ∧ signaturesAt (GetAllURLMicroSignaturesMap serverMemory roomyServerRules) "server".toList
        = some [" /admin ".toList, "/login".toList]
    ∧ SpareApart sharedMemory.next
        ((fullBaseRules ++ laterRules).map (fun r => r.URLMicroSignatures))
    ∧ (GetAllURLMicroSignaturesMap sharedMemory (fullBaseRules ++ laterRules)).get? "a".toList
        = (if hasObject (fullBaseRules ++ laterRules) "a".toList then
            some (entriesOf (fun r => sharedMemory.read r.URLMicroSignatures)
              (fullBaseRules ++ laterRules) "a".toList)
          else none)
    ∧ signaturesAt (GetAllURLMicroSignaturesMap sharedMemory (fullBaseRules ++ laterRules))
          "a".toList
        = some ["/base".toList, "/s1".toList] :=
  ⟨by decide,
    shared_backing_array_breaks_merge.1 serverMemory roomyServerRules "server".toList
      (by decide),
    by decide, by decide,
    shared_backing_array_breaks_merge.1 sharedMemory (fullBaseRules ++ laterRules) "a".toList
      (by decide),
    by decide⟩

/-! ## The index stores the entries as the rules hold them -/

theorem foldl_append_singleton {α β : Type} (g : α → β) (l : List α) (acc : List β) :
    l.foldl (fun out a => out ++ [g a]) acc = acc ++ l.map g := by
  induction l generalizing acc with
  | nil => simp
  | cons a t ih => simp [ih]

theorem GetAllURLMicroSignatures_eq_map (r : DetectionRule) (mem : Heap URLMicroSignature) :
    r.GetAllURLMicroSignatures mem = (mem.read r.URLMicroSignatures).map trimSignature := by
  unfold DetectionRule.GetAllURLMicroSignatures
  rw [foldl_append_singleton (fun e : URLMicroSignature =>
    ({ Signature := TrimSpace e.Signature, Confidence := e.Confidence } : URLMicroSignature))]
  simp [trimSignature]

theorem entriesOf_map {α β : Type} (f : DetectionRule → List α) (g : α → β)
    (d : List DetectionRule) (k : Str) :
    (entriesOf f d k).map g = entriesOf (fun r => (f r).map g) d k := by
  induction d with
  | nil => simp [entriesOf]
  | cons rule rest ih =>
    rw [entriesOf_cons, entriesOf_cons]
    by_cases h : ToLower rule.ObjectName = k
    · simp [h, ih]
    · simp [h, ih]

/-- C2 (as stated, refuted): for the rules `Server` with ` /admin ` and `server` with
`/login`, the URL-micro-signature index binds `server` to the signatures ` /admin `
(blanks kept) and `/login`, not to the trimmed pair `/admin`, `/login`. -/
theorem url_index_keeps_untrimmed_signature :
    signaturesAt (GetAllURLMicroSignaturesMap serverMemory serverRules) "server".toList
        = some [" /admin ".toList, "/login".toList]
    ∧ signaturesAt (GetAllURLMicroSignaturesMap serverMemory serverRules) "server".toList
        ≠ some ["/admin".toList, "/login".toList] := by
  decide

/-- After an `append`, a valid slice holds elements it held before or appended ones. -/
theorem Heap.mem_read_append {α : Type} [Inhabited α] (mem : Heap α) (s t : Slice)
    (xs : List α) (ht : t.valid mem.next) (x : α)
    (hx : x ∈ (mem.append s xs).2.read t) : x ∈ mem.read t ∨ x ∈ xs := by
  unfold Heap.read at hx
  obtain ⟨i, hi, hcell⟩ := List.mem_map.mp hx
  have hi' : i < t.len := List.mem_range.mp hi
  have hold : mem.cell t.array (t.offset + i) ∈ mem.read t :=
    List.mem_map.mpr ⟨i, hi, rfl⟩
  unfold Heap.append at hcell
  split at hcell
  · simp only [] at hcell
    split at hcell
    · rename_i hc
      right
      rw [← hcell, List.getD_eq_getElem _ _ (by omega)]
      exact List.getElem_mem _
    · left
      rw [← hcell]
      exact hold
  · simp only [] at hcell
    split at hcell
    · rename_i ha
      rcases ht.2 with h | h
      · have := ht.1
        omega
      · omega
    · left
      rw [← hcell]
      exact hold

/-- Whatever the layout of valid slices, every entry the loop binds is an entry that was
held in memory by a rule still to come or by a slice already bound. -/
theorem indexFold_entries {α : Type} [Inhabited α] (f : DetectionRule → Slice)
    (V : α → Prop) (rest : List DetectionRule) :
    ∀ (ix : SliceMap α),
      (∀ k s, ix.slices.get? k = some s →
        s.valid ix.mem.next ∧ ∀ x ∈ ix.mem.read s, V x) →
      (∀ r ∈ rest, (f r).valid ix.mem.next ∧ ∀ x ∈ ix.mem.read (f r), V x) →
      ∀ k l, (rest.foldl (indexStep f) ix).get? k = some l → ∀ x ∈ l, V x := by
  induction rest with
  | nil =>
    intro ix hb _ k l hk x hx
    rw [List.foldl_nil] at hk
    unfold SliceMap.get? at hk
    cases hs : ix.slices.get? k with
    | none => rw [hs] at hk; cases hk
    | some s =>
      rw [hs] at hk
      have e : ix.mem.read s = l := by simpa using hk
      rw [← e] at hx
      exact (hb k s hs).2 x hx
  | cons rule rest ih =>
    intro ix hb hr
    rw [List.foldl_cons]
    have hrule := hr rule (List.mem_cons_self _ _)
    cases hs : ix.slices.get? (ToLower rule.ObjectName) with
    | none =>
      rw [indexStep_of_none f ix rule hs]
      refine ih _ ?_ (fun r hmem => hr r (List.mem_cons_of_mem _ hmem))
      intro k' s hk's
      by_cases hk : ToLower rule.ObjectName = k'
      · subst hk
        have : s = f rule := by
          simpa [SliceMap.store, GoMap.get?_set_self] using hk's.symm
        subst this
        exact hrule
      · exact hb k' s (by simpa [SliceMap.store, GoMap.get?_set_ne _ _ _ _ hk] using hk's)
    | some s =>
      rw [indexStep_of_some f ix rule s hs]
      have hnext := Heap.append_next ix.mem s (ix.mem.read (f rule))
      have hkeep : ∀ t : Slice, (t.valid ix.mem.next ∧ ∀ x ∈ ix.mem.read t, V x) →
          t.valid (ix.mem.append s (ix.mem.read (f rule))).2.next
          ∧ ∀ x ∈ (ix.mem.append s (ix.mem.read (f rule))).2.read t, V x := by
        intro t ht
        refine ⟨Slice.valid_mono t _ _ hnext ht.1, ?_⟩
        intro x hx
        rcases Heap.mem_read_append ix.mem s t _ ht.1 x hx with h | h
        · exact ht.2 x h
        · exact hrule.2 x h
      refine ih _ ?_ (fun r hmem => hkeep (f r) (hr r (List.mem_cons_of_mem _ hmem)))
      intro k' t hk't
      by_cases hk : ToLower rule.ObjectName = k'
      · subst hk
        have : t = (ix.mem.append s (ix.mem.read (f rule))).1 := by
          simpa [SliceMap.appendTo, GoMap.get?_set_self] using hk't.symm
        subst this
        refine ⟨Heap.append_valid ix.mem s _ (hb _ s hs).1, ?_⟩
        intro x hx
        have hx' : x ∈ ix.mem.read s ++ ix.mem.read (f rule) := by
          rw [← Heap.read_append_self]
          exact hx
        rcases List.mem_append.mp hx' with h | h
        · exact (hb _ s hs).2 x h
        · exact hrule.2 x h
      · have ht : ix.slices.get? k' = some t := by
          simpa [SliceMap.appendTo, GoMap.get?_set_ne _ _ _ _ hk] using hk't
        exact hkeep t (hb k' t ht)

/-- C2 (amended): every entry the URL-micro-signature index stores is an entry that a rule
of the collection holds, verbatim (not trimmed), whatever the layout of the rules' slices;
for rules whose `URLMicroSignatures` slices share no spare capacity, the index binds `k` to the
concatenation of the raw `URLMicroSignatures` of the rules named `k` (lower-cased), and
trimming the stored entries gives the concatenation of what `GetAllURLMicroSignatures`
returns for those rules. -/
theorem url_index_entries_verbatim (mem : Heap URLMicroSignature) (d : List DetectionRule)
    (k : Str) (hvalid : ∀ r ∈ d, r.URLMicroSignatures.valid mem.next) :
    (∀ l, (GetAllURLMicroSignaturesMap mem d).get? k = some l →
        ∀ x ∈ l, ∃ r ∈ d, x ∈ mem.read r.URLMicroSignatures)
    ∧ (SpareApart mem.next (d.map (fun r => r.URLMicroSignatures)) →
        ((GetAllURLMicroSignaturesMap mem d).get? k).getD []
            = entriesOf (fun r => mem.read r.URLMicroSignatures) d k
          ∧ (((GetAllURLMicroSignaturesMap mem d).get? k).getD []).map trimSignature
            = entriesOf (fun r => r.GetAllURLMicroSignatures mem) d k) := by
  constructor
  · intro l hl
    rw [GetAllURLMicroSignaturesMap_eq] at hl
    refine indexFold_entries (fun r => r.URLMicroSignatures)
      (fun x => ∃ r ∈ d, x ∈ mem.read r.URLMicroSignatures) d { slices := [], mem := mem }
      ?_ ?_ k l hl
    · intro k' s hs
      simp [GoMap.get?] at hs
    · intro r hr
      exact ⟨hvalid r hr, fun x hx => ⟨r, hr, hx⟩⟩
  · intro h
    have h1 : ((GetAllURLMicroSignaturesMap mem d).get? k).getD []
        = entriesOf (fun r => mem.read r.URLMicroSignatures) d k := by
      rw [GetAllURLMicroSignaturesMap_eq, indexFold_apart _ mem d k h]
      cases hk : hasObject d k with
      | true => simp
      | false => simp [entriesOf_eq_nil _ d k hk]
    refine ⟨h1, ?_⟩
    rw [h1, entriesOf_map]
    congr 1
    funext r
    exact (GetAllURLMicroSignatures_eq_map r mem).symm

/-- C2 (amended) at the rules of the spec's example: the key `server` is bound to the
entries ` /admin ` (0.9, untrimmed) and `/login` (0.5); trimmed, they are the entries
`GetAllURLMicroSignatures` returns for the two rules. -/
theorem url_index_entries_verbatim_example :
    (∀ r ∈ serverRules, r.URLMicroSignatures.valid serverMemory.next)
    ∧ SpareApart serverMemory.next (serverRules.map (fun r => r.URLMicroSignatures))
    ∧ (((GetAllURLMicroSignaturesMap serverMemory serverRules).get? "server".toList).getD []
          = entriesOf (fun r => serverMemory.read r.URLMicroSignatures) serverRules
              "server".toList
        ∧ (((GetAllURLMicroSignaturesMap serverMemory serverRules).get?
              "server".toList).getD []).map trimSignature
          = entriesOf (fun r => r.GetAllURLMicroSignatures serverMemory) serverRules
              "server".toList)
    ∧ (GetAllURLMicroSignaturesMap serverMemory serverRules).get? "server".toList
        = some [{ Signature := " /admin ".toList, Confidence := 0.9 },
                { Signature := "/login".toList, Confidence := 0.5 }] :=
  ⟨by decide, by decide,
    (url_index_entries_verbatim serverMemory serverRules "server".toList (by decide)).2
      (by decide),
    by rfl⟩

/-! ## Keys of the indices -/

theorem GoMap.mem_keys_iff {V : Type} (m : GoMap V) (k : Str) :
    k ∈ m.keys ↔ (m.get? k).isSome = true := by
  induction m with
  | nil =>
    show k ∈ ([] : List Str) ↔ _
    simp [GoMap.get?]
  | cons p t ih =>
    obtain ⟨k', v⟩ := p
    have ih' : k ∈ List.map Prod.fst t ↔ (GoMap.get? t k).isSome = true := ih
    show k ∈ k' :: List.map Prod.fst t ↔ _
    rw [List.mem_cons, ih']
    by_cases h : k' = k
    · simp [GoMap.get?, h]
    · have h' : ¬ k = k' := fun e => h e.symm
      simp [GoMap.get?, h, h']

theorem mem_of_hasObject (d : List DetectionRule) (k : Str) (h : hasObject d k = true) :
    ∃ rule ∈ d, ToLower rule.ObjectName = k := by
  simpa [hasObject] using h

theorem indexFold_keys {α : Type} [Inhabited α] (f : DetectionRule → Slice) (mem : Heap α)
    (d : List DetectionRule) (k : Str)
    (hk : k ∈ (d.foldl (indexStep f) { slices := [], mem := mem }).keys) :
    ∃ rule ∈ d, ToLower rule.ObjectName = k := by
  unfold SliceMap.keys at hk
  rw [GoMap.mem_keys_iff] at hk
  have hlen := indexFold_slices_len f mem d k
  cases h : hasObject d k with
  | true => exact mem_of_hasObject d k h
  | false =>
    rw [h] at hlen
    cases hs : (d.foldl (indexStep f) { slices := [], mem := mem }).slices.get? k with
    | none => rw [hs] at hk; cases hk
    | some s => rw [hs] at hlen; cases hlen

/-! ## The two HTTP-header builders -/

theorem GetAllHTTPHeaderFieldsMap_eq (d : List DetectionRule) :
    GetAllHTTPHeaderFieldsMap d
      = headersFold (fun h => decide (h.GetKey = "*".toList)) d [] := by
  unfold GetAllHTTPHeaderFieldsMap headersFold
  congr 1
  funext headers rule
  congr 1
  funext headers header
  by_cases h : header.GetKey = "*".toList <;> simp [h]

theorem GetHTTPHeaderFieldsMapByKey_eq (d : List DetectionRule) (key : Str) :
    GetHTTPHeaderFieldsMapByKey d key
      = headersFold (fun h => decide (ToLower (TrimSpace h.GetKey) = ToLower (TrimSpace key)))
          d [] := by
  unfold GetHTTPHeaderFieldsMapByKey headersFold
  show List.foldl _ [] d = _
  congr 1
  funext headers rule
  congr 1
  funext headers header
  by_cases h : ToLower (TrimSpace header.GetKey) = ToLower (TrimSpace key) <;> simp [h]

/-- Induction over the loop nest: a property of the map that holds at the start and that
every indexing step of a header passing the filter preserves holds of the result. -/
theorem headersFold_induction (pass : HTTPHeaderField → Bool) (d : List DetectionRule)
    (I : GoMap (GoMap HTTPHeaderField) → Prop)
    (step : ∀ m rule header, rule ∈ d → header ∈ rule.HTTPHeaderFields → pass header = true →
      I m → I (headerStep m rule header))
    (m : GoMap (GoMap HTTPHeaderField)) (h0 : I m) : I (headersFold pass d m) := by
  induction d generalizing m with
  | nil => exact h0
  | cons rule rest ih =>
    unfold headersFold
    rw [List.foldl_cons]
    apply ih (fun m r h hr hh hp hi => step m r h (List.mem_cons_of_mem _ hr) hh hp hi)
    have inner : ∀ (hs : List HTTPHeaderField) (m : GoMap (GoMap HTTPHeaderField)),
        (∀ h ∈ hs, h ∈ rule.HTTPHeaderFields) → I m →
        I (hs.foldl (fun headers header =>
            if pass header then headerStep headers rule header else headers) m) := by
      intro hs
      induction hs with
      | nil => intro m _ hi; exact hi
      | cons h t iht =>
        intro m hsub hi
        rw [List.foldl_cons]
        apply iht _ (fun x hx => hsub x (List.mem_cons_of_mem _ hx))
        by_cases hp : pass h = true
        · rw [if_pos hp]
          exact step m rule h (List.mem_cons_self _ _) (hsub h (List.mem_cons_self _ _)) hp hi
        · rw [if_neg hp]; exact hi
    exact inner rule.HTTPHeaderFields m (fun _ hx => hx) h0

theorem headerStep_get?_self (m : GoMap (GoMap HTTPHeaderField)) (rule : DetectionRule)
    (header : HTTPHeaderField) :
    ((headerStep m rule header).get? (ToLower rule.ObjectName)).isSome = true := by
  unfold headerStep
  cases h : m.get? (ToLower rule.ObjectName) <;> simp [GoMap.get?_set_self]

theorem headerStep_get?_ne (m : GoMap (GoMap HTTPHeaderField)) (rule : DetectionRule)
    (header : HTTPHeaderField) (obj : Str) (hne : ToLower rule.ObjectName ≠ obj) :
    (headerStep m rule header).get? obj = m.get? obj := by
  unfold headerStep
  cases h : m.get? (ToLower rule.ObjectName) <;> simp [GoMap.get?_set_ne _ _ _ _ hne]

theorem headerStep_fieldAt (m : GoMap (GoMap HTTPHeaderField)) (rule : DetectionRule)
    (header : HTTPHeaderField) (obj hk : Str) (field : HTTPHeaderField)
    (h : fieldAt (headerStep m rule header) obj hk = some field) :
    (obj = ToLower rule.ObjectName ∧ hk = ToLower header.GetKey ∧ field = header)
      ∨ fieldAt m obj hk = some field := by
  by_cases ho : ToLower rule.ObjectName = obj
  · subst ho
    by_cases hh : ToLower header.GetKey = hk
    · subst hh
      left
      unfold fieldAt headerStep at h
      cases hm : m.get? (ToLower rule.ObjectName) with
      | none =>
        simp [hm, GoMap.get?_set_self] at h
        exact ⟨rfl, rfl, h.symm⟩
      | some inner =>
        simp [hm, GoMap.get?_set_self] at h
        exact ⟨rfl, rfl, h.symm⟩
    · right
      unfold fieldAt headerStep at h
      unfold fieldAt
      cases hm : m.get? (ToLower rule.ObjectName) with
      | none =>
        simp [hm, GoMap.get?_set_self, GoMap.set, GoMap.get?] at h
        exact absurd h.1 hh
      | some inner =>
        simp [hm, GoMap.get?_set_self, GoMap.get?_set_ne _ _ _ _ hh] at h
        simp [h]
  · right
    unfold fieldAt at h ⊢
    rw [headerStep_get?_ne m rule header obj ho] at h
    exact h

theorem dropWhile_cons_not {α : Type} (p : α → Bool) (s : List α) (a : α) (t : List α)
    (h : s.dropWhile p = a :: t) : ¬ p a = true := by
  induction s with
  | nil => simp at h
  | cons b r ih =>
    by_cases hb : p b = true
    · rw [List.dropWhile_cons_of_pos hb] at h
      exact ih h
    · rw [List.dropWhile_cons_of_neg hb] at h
      cases h
      exact hb

theorem TrimSpace_idempotent (s : Str) : TrimSpace (TrimSpace s) = TrimSpace s := by
  have e : ∀ t : Str, TrimSpace t = (t.dropWhile isSpace).rdropWhile isSpace := fun _ => rfl
  have hd : (TrimSpace s).dropWhile isSpace = TrimSpace s := by
    rw [e]
    obtain ⟨u, hu⟩ := List.rdropWhile_prefix isSpace (l := s.dropWhile isSpace)
    cases ht : (s.dropWhile isSpace).rdropWhile isSpace with
    | nil => rfl
    | cons a t =>
      rw [ht] at hu
      have hnot := dropWhile_cons_not isSpace s a (t ++ u) (by rw [← hu]; rfl)
      rw [List.dropWhile_cons_of_neg hnot]
  rw [e (TrimSpace s), hd, e s, List.rdropWhile_idempotent]

theorem headersFold_keys (pass : HTTPHeaderField → Bool) (d : List DetectionRule) (k : Str)
    (hk : k ∈ (headersFold pass d []).keys) : ∃ rule ∈ d, ToLower rule.ObjectName = k := by
  rw [GoMap.mem_keys_iff] at hk
  refine headersFold_induction pass d
    (fun m => ∀ k, (m.get? k).isSome = true → ∃ rule ∈ d, ToLower rule.ObjectName = k)
    ?_ [] ?_ k hk
  · intro m rule header hr _ _ hi k hk
    by_cases ho : ToLower rule.ObjectName = k
    · exact ⟨rule, hr, ho⟩
    · rw [headerStep_get?_ne m rule header k ho] at hk
      exact hi k hk
  · intro k hk
    simp [GoMap.get?] at hk

theorem headerStep_present_mono (m : GoMap (GoMap HTTPHeaderField)) (rule : DetectionRule)
    (header : HTTPHeaderField) (obj : Str) (h : (m.get? obj).isSome = true) :
    ((headerStep m rule header).get? obj).isSome = true := by
  by_cases ho : ToLower rule.ObjectName = obj
  · subst ho; exact headerStep_get?_self m rule header
  · rw [headerStep_get?_ne m rule header obj ho]; exact h

theorem headersFold_present_mono (pass : HTTPHeaderField → Bool) (d : List DetectionRule)
    (m : GoMap (GoMap HTTPHeaderField)) (obj : Str) (h : (m.get? obj).isSome = true) :
    ((headersFold pass d m).get? obj).isSome = true :=
  headersFold_induction pass d (fun m => (m.get? obj).isSome = true)
    (fun m rule header _ _ _ hi => headerStep_present_mono m rule header obj hi) m h

theorem innerFold_present (pass : HTTPHeaderField → Bool) (rule : DetectionRule)
    (hs : List HTTPHeaderField) (m : GoMap (GoMap HTTPHeaderField))
    (h : (∃ x ∈ hs, pass x = true) ∨ (m.get? (ToLower rule.ObjectName)).isSome = true) :
    ((hs.foldl (fun headers header =>
        if pass header then headerStep headers rule header else headers) m).get?
      (ToLower rule.ObjectName)).isSome = true := by
  induction hs generalizing m with
  | nil =>
    rcases h with ⟨x, hx, _⟩ | h
    · simp at hx
    · exact h
  | cons a t ih =>
    rw [List.foldl_cons]
    apply ih
    rcases h with ⟨x, hx, hp⟩ | h
    · rcases List.mem_cons.mp hx with rfl | hxt
      · right
        rw [if_pos hp]
        exact headerStep_get?_self m rule x
      · exact Or.inl ⟨x, hxt, hp⟩
    · right
      by_cases hp : pass a = true
      · rw [if_pos hp]; exact headerStep_present_mono m rule a _ h
      · rw [if_neg hp]; exact h

theorem headersFold_present (pass : HTTPHeaderField → Bool) (d : List DetectionRule)
    (m : GoMap (GoMap HTTPHeaderField)) (rule : DetectionRule) (hr : rule ∈ d)
    (hx : ∃ x ∈ rule.HTTPHeaderFields, pass x = true) :
    ((headersFold pass d m).get? (ToLower rule.ObjectName)).isSome = true := by
  induction d generalizing m with
  | nil => simp at hr
  | cons r rest ih =>
    have unfold_cons : headersFold pass (r :: rest) m
        = headersFold pass rest (r.HTTPHeaderFields.foldl (fun headers header =>
            if pass header then headerStep headers r header else headers) m) := rfl
    rw [unfold_cons]
    rcases List.mem_cons.mp hr with rfl | hrest
    · exact headersFold_present_mono pass rest _ _ (innerFold_present pass rule _ m (Or.inl hx))
    · exact ih _ hrest

theorem headersFold_fieldAt (pass : HTTPHeaderField → Bool) (d : List DetectionRule)
    (obj hk : Str) (field : HTTPHeaderField)
    (h : fieldAt (headersFold pass d []) obj hk = some field) :
    pass field = true ∧ hk = ToLower field.GetKey
      ∧ ∃ rule ∈ d, ToLower rule.ObjectName = obj ∧ field ∈ rule.HTTPHeaderFields := by
  refine headersFold_induction pass d
    (fun m => ∀ obj hk field, fieldAt m obj hk = some field →
      pass field = true ∧ hk = ToLower field.GetKey
        ∧ ∃ rule ∈ d, ToLower rule.ObjectName = obj ∧ field ∈ rule.HTTPHeaderFields)
    ?_ [] ?_ obj hk field h
  · intro m rule header hr hh hp hi obj hk field hf
    rcases headerStep_fieldAt m rule header obj hk field hf with ⟨h1, h2, h3⟩ | hold
    · subst h3
      exact ⟨hp, h2, rule, hr, h1.symm, hh⟩
    · exact hi obj hk field hold
  · intro obj hk field hf
    simp [fieldAt, GoMap.get?] at hf

/-- C3 (as stated, refuted): for the object names ` Server ` and `server` the index has
the two keys ` server ` and `server`; the key ` server ` is not the lower-cased and trimmed
`ObjectName` of any rule, and the two rules are not merged. -/
theorem index_key_keeps_surrounding_blanks :
    (GetAllURLMicroSignaturesMap paddedServerMemory paddedServerRules).keys
        = [" server ".toList, "server".toList]
    ∧ ¬ (∀ k ∈ (GetAllURLMicroSignaturesMap paddedServerMemory paddedServerRules).keys,
          ∃ rule ∈ paddedServerRules, k = ToLower (TrimSpace rule.ObjectName))
    ∧ signaturesAt (GetAllURLMicroSignaturesMap paddedServerMemory paddedServerRules)
          "server".toList
        = some ["/login".toList] := by
  decide

/-- C3 (amended): every key of each of the seven indices is the lower-cased `ObjectName`
of some rule, white space kept; two rules whose `ObjectName` differ only in letter case
(`Server`, `server`) share one key, and two whose `ObjectName` differ in surrounding
white space (` Server `, `server`) have different keys. -/
theorem index_keys_are_lowercased_names (d : List DetectionRule)
    (urls : Heap URLMicroSignature) (pages : Heap PageContentSignature)
    (ssl : Heap SSLSignature) (tags : Heap MetaTag) (plugins : Heap PluginCall) :
    (∀ k ∈ (GetAllURLMicroSignaturesMap urls d).keys,
        ∃ rule ∈ d, ToLower rule.ObjectName = k)
    ∧ (∀ k ∈ (GetAllPageContentPatternsMap pages d).keys,
        ∃ rule ∈ d, ToLower rule.ObjectName = k)
    ∧ (∀ k ∈ (GetAllSSLSignaturesMap ssl d).keys, ∃ rule ∈ d, ToLower rule.ObjectName = k)
    ∧ (∀ k ∈ (GetAllMetaTagsMap tags d).keys, ∃ rule ∈ d, ToLower rule.ObjectName = k)
    ∧ (∀ k ∈ (GetAllPluginCallsMap plugins d).keys,
        ∃ rule ∈ d, ToLower rule.ObjectName = k)
    ∧ (∀ k ∈ (GetAllHTTPHeaderFieldsMap d).keys, ∃ rule ∈ d, ToLower rule.ObjectName = k)
    ∧ (∀ key, ∀ k ∈ (GetHTTPHeaderFieldsMapByKey d key).keys,
        ∃ rule ∈ d, ToLower rule.ObjectName = k)
    ∧ ToLower "Server".toList = ToLower "server".toList
    ∧ ToLower " Server ".toList ≠ ToLower "server".toList := by
  refine ⟨?_, ?_, ?_, ?_, ?_, ?_, ?_, by decide, by decide⟩
  · intro k hk
    rw [GetAllURLMicroSignaturesMap_eq] at hk
    exact indexFold_keys _ _ d k hk
  · intro k hk
    rw [GetAllPageContentPatternsMap_eq] at hk
    exact indexFold_keys _ _ d k hk
  · intro k hk
    rw [GetAllSSLSignaturesMap_eq] at hk
    exact indexFold_keys _ _ d k hk
  · intro k hk
    rw [GetAllMetaTagsMap_eq] at hk
    exact indexFold_keys _ _ d k hk
  · intro k hk
    rw [GetAllPluginCallsMap_eq] at hk
    exact indexFold_keys _ _ d k hk
  · intro k hk
    rw [GetAllHTTPHeaderFieldsMap_eq] at hk
    exact headersFold_keys _ d k hk
  · intro key k hk
    rw [GetHTTPHeaderFieldsMapByKey_eq] at hk
    exact headersFold_keys _ d k hk

/-- C4 (as stated, refuted): a header field whose `Key` is ` * ` (blanks around the
wildcard) is stored by `GetAllHTTPHeaderFieldsMap`, so a stored field can have a `Key`
that is not exactly `*`. -/
theorem wildcard_index_stores_padded_key :
    (fieldAt (GetAllHTTPHeaderFieldsMap paddedWildcardRules) "nginx".toList "*".toList).map
        (fun field => field.Key) = some " * ".toList
    ∧ ¬ (∀ obj hk field,
          fieldAt (GetAllHTTPHeaderFieldsMap paddedWildcardRules) obj hk = some field →
            field.Key = "*".toList) := by
  have h : (fieldAt (GetAllHTTPHeaderFieldsMap paddedWildcardRules) "nginx".toList
      "*".toList).map (fun field => field.Key) = some " * ".toList := by decide
  refine ⟨h, fun hall => ?_⟩
  cases hf : fieldAt (GetAllHTTPHeaderFieldsMap paddedWildcardRules) "nginx".toList "*".toList with
  | none => rw [hf] at h; simp at h
  | some field =>
    have hk := hall _ _ field hf
    rw [hf] at h
    simp only [Option.map_some', Option.some.injEq] at h
    rw [hk] at h
    revert h
    decide

/-- C4 (amended): every field stored in an inner map of `GetAllHTTPHeaderFieldsMap` has a
`Key` that is `*` once trimmed (`GetKey`), is filed under the inner key `*`, and is a header
field of a rule with that lower-cased `ObjectName`; and every rule with at least one field
whose trimmed `Key` is `*` has its lower-cased `ObjectName` bound in the result. -/
theorem wildcard_index_holds_trimmed_wildcards (d : List DetectionRule) :
    (∀ obj hk field, fieldAt (GetAllHTTPHeaderFieldsMap d) obj hk = some field →
        TrimSpace field.Key = "*".toList ∧ hk = "*".toList
          ∧ ∃ rule ∈ d, ToLower rule.ObjectName = obj ∧ field ∈ rule.HTTPHeaderFields)
    ∧ (∀ rule ∈ d, (∃ header ∈ rule.HTTPHeaderFields, TrimSpace header.Key = "*".toList) →
        ((GetAllHTTPHeaderFieldsMap d).get? (ToLower rule.ObjectName)).isSome = true) := by
  rw [GetAllHTTPHeaderFieldsMap_eq]
  constructor
  · intro obj hk field hf
    obtain ⟨hp, hkey, hrule⟩ := headersFold_fieldAt _ d obj hk field hf
    have hp' : field.GetKey = "*".toList := by simpa using hp
    refine ⟨hp', ?_, hrule⟩
    rw [hkey, hp']
    decide
  · intro rule hr hx
    obtain ⟨header, hh, hkey⟩ := hx
    exact headersFold_present _ d [] rule hr ⟨header, hh, by simpa [HTTPHeaderField.GetKey] using hkey⟩

/-- C5: a header field is held by the result of `GetHTTPHeaderFieldsMapByKey` only if its
`Key`, trimmed and lower-cased, equals the trimmed and lower-cased supplied key (and it then
is a field of a rule with that lower-cased `ObjectName`); every rule owning at least one
such field has its lower-cased `ObjectName` bound in the result; and with the key `Server`
the field keyed ` server ` is indexed while the field keyed `X-Powered-By` is not. -/
theorem by_key_index_matches_trimmed_lowercased_key (d : List DetectionRule) (key : Str) :
    (∀ obj hk field, fieldAt (GetHTTPHeaderFieldsMapByKey d key) obj hk = some field →
        ToLower (TrimSpace field.Key) = ToLower (TrimSpace key)
          ∧ ∃ rule ∈ d, ToLower rule.ObjectName = obj ∧ field ∈ rule.HTTPHeaderFields)
    ∧ (∀ rule ∈ d,
        (∃ header ∈ rule.HTTPHeaderFields,
            ToLower (TrimSpace header.Key) = ToLower (TrimSpace key)) →
        ((GetHTTPHeaderFieldsMapByKey d key).get? (ToLower rule.ObjectName)).isSome = true)
    ∧ GetHTTPHeaderFieldsMapByKey apacheRules "Server".toList
        = [("apache".toList,
            [("server".toList,
              { Key := " server ".toList, Value := ["apache".toList], Confidence := 0.7 })])] := by
  rw [GetHTTPHeaderFieldsMapByKey_eq]
  refine ⟨?_, ?_, ?_⟩
  · intro obj hk field hf
    obtain ⟨hp, _, hrule⟩ := headersFold_fieldAt _ d obj hk field hf
    have hp' : ToLower (TrimSpace field.GetKey) = ToLower (TrimSpace key) := by simpa using hp
    rw [HTTPHeaderField.GetKey, TrimSpace_idempotent] at hp'
    exact ⟨hp', hrule⟩
  · intro rule hr hx
    obtain ⟨header, hh, hkey⟩ := hx
    refine headersFold_present _ d [] rule hr ⟨header, hh, ?_⟩
    simp only [decide_eq_true_eq]
    rw [HTTPHeaderField.GetKey, TrimSpace_idempotent]
    exact hkey
  · rfl

/-! ## The parameter scan -/

theorem quoteDepthAfter_snoc (p : Str) (c : Char) :
    quoteDepthAfter (p ++ [c])
      = (handleQuotes c (quoteDepthAfter p).1,
         handleParentheses c (handleQuotes c (quoteDepthAfter p).1) (quoteDepthAfter p).2) := by
  simp [quoteDepthAfter, List.foldl_append]

theorem scan_snoc (p : Str) (c : Char) : scan (p ++ [c]) = scanStep (scan p) c := by
  simp [scan, List.foldl_append]

theorem scanStep_state (st : ScanState) (c : Char) :
    (scanStep st c).inQuotes = handleQuotes c st.inQuotes
    ∧ (scanStep st c).parenthesisLevel
        = handleParentheses c (handleQuotes c st.inQuotes) st.parenthesisLevel := by
  unfold scanStep
  simp only []
  split <;> exact ⟨rfl, rfl⟩

theorem scan_state (p : Str) :
    (scan p).inQuotes = (quoteDepthAfter p).1
    ∧ (scan p).parenthesisLevel = (quoteDepthAfter p).2 := by
  induction p using List.reverseRecOn with
  | nil => simp [scan, quoteDepthAfter]
  | append_singleton p c ih =>
    rw [scan_snoc, quoteDepthAfter_snoc]
    obtain ⟨h1, h2⟩ := scanStep_state (scan p) c
    rw [h1, h2, ih.1, ih.2]
    exact ⟨rfl, rfl⟩

theorem cutAt_eq (s : Str) (start : Nat) (cuts : List Nat) :
    cutAt s start cuts = closedPieces s start cuts ++ [s.drop (lastStart start cuts)] := by
  induction cuts generalizing start with
  | nil => rfl
  | cons i cuts ih => simp [cutAt, closedPieces, lastStart, ih]

theorem closedPieces_snoc (s : Str) (start : Nat) (cuts : List Nat) (j : Nat) :
    closedPieces s start (cuts ++ [j])
      = closedPieces s start cuts ++ [(s.take j).drop (lastStart start cuts)] := by
  induction cuts generalizing start with
  | nil => rfl
  | cons i cuts ih => simp [closedPieces, lastStart, ih]

theorem lastStart_snoc (start : Nat) (cuts : List Nat) (j : Nat) :
    lastStart start (cuts ++ [j]) = j + 1 := by
  induction cuts generalizing start with
  | nil => rfl
  | cons i cuts ih => simp [lastStart, ih]

theorem closedPieces_append (p : Str) (c : Char) (start : Nat) (cuts : List Nat)
    (h : ∀ i ∈ cuts, i < p.length) :
    closedPieces (p ++ [c]) start cuts = closedPieces p start cuts := by
  induction cuts generalizing start with
  | nil => rfl
  | cons i cuts ih =>
    have hi : i ≤ p.length := Nat.le_of_lt (h i (List.mem_cons_self _ _))
    simp only [closedPieces]
    rw [List.take_append_of_le_length hi, ih _ (fun x hx => h x (List.mem_cons_of_mem _ hx))]

theorem lastStart_le (n start : Nat) (cuts : List Nat) (hs : start ≤ n)
    (h : ∀ i ∈ cuts, i < n) : lastStart start cuts ≤ n := by
  induction cuts generalizing start with
  | nil => exact hs
  | cons i cuts ih =>
    exact ih (i + 1) (h i (List.mem_cons_self _ _)) (fun x hx => h x (List.mem_cons_of_mem _ hx))

theorem topLevelCommas_lt (s : Str) : ∀ i ∈ topLevelCommas s, i < s.length := by
  intro i hi
  simp only [topLevelCommas, List.mem_filter, List.mem_range] at hi
  exact hi.1

theorem isTopLevelComma_append_lt (p : Str) (c : Char) (i : Nat) (hi : i < p.length) :
    isTopLevelComma (p ++ [c]) i = isTopLevelComma p i := by
  unfold isTopLevelComma
  rw [List.getElem?_append_left hi, List.take_append_of_le_length (Nat.le_of_lt hi)]

theorem isTopLevelComma_append_length (p : Str) (c : Char) :
    isTopLevelComma (p ++ [c]) p.length
      = (c == ',' && !(quoteDepthAfter p).1 && (quoteDepthAfter p).2 == 0) := by
  unfold isTopLevelComma
  simp

theorem topLevelCommas_snoc (p : Str) (c : Char) :
    topLevelCommas (p ++ [c])
      = topLevelCommas p
        ++ (if (c == ',' && !(quoteDepthAfter p).1 && (quoteDepthAfter p).2 == 0) = true
            then [p.length] else []) := by
  unfold topLevelCommas
  rw [List.length_append, List.length_singleton, List.range_succ, List.filter_append]
  congr 1
  · apply List.filter_congr
    intro i hi
    exact isTopLevelComma_append_lt p c i (List.mem_range.mp hi)
  · rw [List.filter_singleton, isTopLevelComma_append_length]
    cases (c == ',' && !(quoteDepthAfter p).1 && (quoteDepthAfter p).2 == 0) <;> rfl

theorem handleQuotes_comma (q : Bool) : handleQuotes ',' q = q := by
  simp [handleQuotes]

theorem handleParentheses_comma (q : Bool) (l : Int) : handleParentheses ',' q l = l := by
  simp [handleParentheses]

theorem scanStep_of_sep (st : ScanState) (h1 : st.inQuotes = false)
    (h2 : st.parenthesisLevel = 0) :
    scanStep st ','
      = { params := st.params ++ [TrimSpace st.currentParam], currentParam := [],
          inQuotes := false, parenthesisLevel := 0 } := by
  unfold scanStep
  simp [handleQuotes_comma, handleParentheses_comma, h1, h2]

theorem scanStep_of_not_sep (st : ScanState) (c : Char)
    (h : ¬ (c = ',' ∧ st.inQuotes = false ∧ st.parenthesisLevel = 0)) :
    (scanStep st c).params = st.params
    ∧ (scanStep st c).currentParam = st.currentParam ++ [c] := by
  unfold scanStep
  by_cases hc : c = ','
  · subst hc
    have hn : ¬ (True ∧ st.inQuotes = false ∧ st.parenthesisLevel = 0) :=
      fun hx => h ⟨rfl, hx.2⟩
    simp only [handleQuotes_comma, handleParentheses_comma]
    rw [if_neg hn]
    exact ⟨rfl, rfl⟩
  · have hn : ¬ (c = ',' ∧ handleQuotes c st.inQuotes = false
        ∧ handleParentheses c (handleQuotes c st.inQuotes) st.parenthesisLevel = 0) :=
      fun hx => hc hx.1
    simp only []
    rw [if_neg hn]
    exact ⟨rfl, rfl⟩

/-- The loop invariant of `parseParams`: after the runes of `p`, `params` holds the trimmed
pieces closed by the top-level commas of `p`, and `currentParam` the text after the last one. -/
theorem scan_pieces (p : Str) :
    (scan p).params = (closedPieces p 0 (topLevelCommas p)).map TrimSpace
    ∧ (scan p).currentParam = p.drop (lastStart 0 (topLevelCommas p)) := by
  induction p using List.reverseRecOn with
  | nil => simp [scan, topLevelCommas, closedPieces, lastStart]
  | append_singleton p c ih =>
    obtain ⟨hq, hl⟩ := scan_state p
    have hle : lastStart 0 (topLevelCommas p) ≤ p.length :=
      lastStart_le p.length 0 _ (Nat.zero_le _) (topLevelCommas_lt p)
    rw [scan_snoc, topLevelCommas_snoc]
    by_cases hsep : c = ',' ∧ (scan p).inQuotes = false ∧ (scan p).parenthesisLevel = 0
    · obtain ⟨hc, h1, h2⟩ := hsep
      subst hc
      have hb : ((',' : Char) == ',' && !(quoteDepthAfter p).1 && (quoteDepthAfter p).2 == 0)
          = true := by
        rw [← hq, ← hl, h1, h2]; rfl
      rw [if_pos hb, scanStep_of_sep _ h1 h2, closedPieces_snoc, lastStart_snoc,
        closedPieces_append p ',' 0 _ (topLevelCommas_lt p), ih.1, ih.2]
      constructor
      · simp [List.take_append_of_le_length (Nat.le_refl p.length)]
      · simp
    · have hb : ¬ ((c == ',' && !(quoteDepthAfter p).1 && (quoteDepthAfter p).2 == 0) = true) := by
        intro hb
        apply hsep
        rw [hq, hl]
        simpa [Bool.and_eq_true, and_assoc] using hb
      obtain ⟨e1, e2⟩ := scanStep_of_not_sep (scan p) c hsep
      rw [if_neg hb, List.append_nil, e1, e2, closedPieces_append p c 0 _ (topLevelCommas_lt p),
        ih.1, ih.2]
      refine ⟨rfl, ?_⟩
      rw [List.drop_append_of_le_length hle]

theorem cutAt_length (s : Str) (start : Nat) (cuts : List Nat) :
    (cutAt s start cuts).length = cuts.length + 1 := by
  induction cuts generalizing start with
  | nil => rfl
  | cons i cuts ih => simp [cutAt, ih]

/-- The function `parseParams` in closed form: it fails exactly when the scan ends inside a
quoted span or at a depth other than 0, and otherwise returns the trimmed top-level segments. -/
theorem parseParams_eq (s : Str) :
    parseParams s
      = if (quoteDepthAfter s).1 = true ∨ (quoteDepthAfter s).2 ≠ 0 then
          .error .unmatchedQuotesOrParentheses
        else .ok ((topLevelSegments s).map TrimSpace) := by
  unfold parseParams
  obtain ⟨hq, hl⟩ := scan_state s
  obtain ⟨hp, hc⟩ := scan_pieces s
  simp only [hq, hl, hp, hc]
  unfold topLevelSegments
  rw [cutAt_eq]
  simp

/-! ## The parser -/

theorem ParseCmdAux_succ (tbl : GoMap Int) (maxDepth : Int) (levels : Nat) (command : Str)
    (depth : Int) :
    ParseCmdAux tbl maxDepth (levels + 1) command depth
      = if depth > maxDepth then .error .exceededMaxRecursionDepth
        else if isCommand tbl (TrimSpace command) = true ∧ '(' ∈ TrimSpace command
            ∧ (TrimSpace command).getLast? = some ')' then
          match parseParams (paramStringOf (TrimSpace command)) with
          | .error err => .error err
          | .ok params =>
            match parseArgs tbl (fun p => ParseCmdAux tbl maxDepth levels p (depth + 1))
                params [] with
            | .error err => .error err
            | .ok encodedArgs =>
              .ok (EncodedCmd.mk (getCommandToken tbl (TrimSpace command)).1 encodedArgs [])
        else .ok (EncodedCmd.mk (-1) [] (TrimSpace command)) := by
  rfl

/-- The recursion equation of `ParseCmd`, as the source states it. -/
theorem ParseCmd_eq (tbl : GoMap Int) (maxDepth : Int) (command : Str) (depth : Int) :
    ParseCmd tbl maxDepth command depth
      = if depth > maxDepth then .error .exceededMaxRecursionDepth
        else if isCommand tbl (TrimSpace command) = true ∧ '(' ∈ TrimSpace command
            ∧ (TrimSpace command).getLast? = some ')' then
          match parseParams (paramStringOf (TrimSpace command)) with
          | .error err => .error err
          | .ok params =>
            match parseArgs tbl (fun p => ParseCmd tbl maxDepth p (depth + 1)) params [] with
            | .error err => .error err
            | .ok encodedArgs =>
              .ok (EncodedCmd.mk (getCommandToken tbl (TrimSpace command)).1 encodedArgs [])
        else .ok (EncodedCmd.mk (-1) [] (TrimSpace command)) := by
  by_cases hd : depth > maxDepth
  · have h0 : (maxDepth + 1 - depth).toNat = 0 := by
      rw [Int.toNat_eq_zero]; omega
    rw [if_pos hd, ParseCmd, h0]
    rfl
  · have h1 : (maxDepth + 1 - depth).toNat = (maxDepth + 1 - (depth + 1)).toNat + 1 := by
      omega
    rw [ParseCmd, h1, ParseCmdAux_succ]
    rfl

theorem ParseCmd_of_not_call (tbl : GoMap Int) (maxDepth : Int) (command : Str)
    (depth : Int) (hd : depth ≤ maxDepth)
    (h : isCommand tbl (TrimSpace command) = false
      ∨ ¬ ('(' ∈ TrimSpace command ∧ (TrimSpace command).getLast? = some ')')) :
    ParseCmd tbl maxDepth command depth = .ok (EncodedCmd.mk (-1) [] (TrimSpace command)) := by
  rw [ParseCmd_eq, if_neg (by omega)]
  have hn : ¬ (isCommand tbl (TrimSpace command) = true ∧ '(' ∈ TrimSpace command
      ∧ (TrimSpace command).getLast? = some ')') := by
    rintro ⟨h1, h2⟩
    rcases h with h | h
    · rw [h] at h1; exact Bool.noConfusion h1
    · exact h h2
  rw [if_neg hn]

/-- C7: when the leading identifier of the (trimmed) input is not a known command, or the
(trimmed) input lacks the call shape (it contains `(` and ends with `)`), `ParseCmd` at a
depth not above the maximum succeeds and returns the literal node: `Token` -1, no `Args`,
`ArgValue` the trimmed input. -/
theorem ParseCmd_plain_text_is_literal (tbl : GoMap Int) (maxDepth : Int) (command : Str)
    (depth : Int) (hd : depth ≤ maxDepth)
    (h : isCommand tbl (TrimSpace command) = false
      ∨ ¬ ('(' ∈ TrimSpace command ∧ (TrimSpace command).getLast? = some ')')) :
    ParseCmd tbl maxDepth command depth = .ok (EncodedCmd.mk (-1) [] (TrimSpace command)) :=
  ParseCmd_of_not_call tbl maxDepth command depth hd h

/-- C7 at the inputs `  hello world ` (no known identifier, no call shape), `foo(1,2)`
(unknown identifier) and `random(1,2` (known identifier, no closing parenthesis). -/
theorem ParseCmd_plain_text_examples :
    ParseCmd commandTokenMap maxInterpreterRecursionDepth "  hello world ".toList 0
        = .ok (EncodedCmd.mk (-1) [] "hello world".toList)
    ∧ ParseCmd commandTokenMap maxInterpreterRecursionDepth "foo(1,2)".toList 3
        = .ok (EncodedCmd.mk (-1) [] "foo(1,2)".toList)
    ∧ ParseCmd commandTokenMap maxInterpreterRecursionDepth "random(1,2".toList
        maxInterpreterRecursionDepth = .ok (EncodedCmd.mk (-1) [] "random(1,2".toList) :=
  ⟨ParseCmd_plain_text_is_literal commandTokenMap maxInterpreterRecursionDepth
      "  hello world ".toList 0 (by decide) (Or.inl (by decide)),
    ParseCmd_plain_text_is_literal commandTokenMap maxInterpreterRecursionDepth
      "foo(1,2)".toList 3 (by decide) (Or.inl (by decide)),
    ParseCmd_plain_text_is_literal commandTokenMap maxInterpreterRecursionDepth
      "random(1,2".toList maxInterpreterRecursionDepth (by decide) (Or.inr (by decide))⟩

/-- C9 (as stated, refuted): on `foo(a,b` and on `random(1,2`, whose opening parenthesis is
never closed, `ParseCmd` does not fail: it returns the input as a literal node. -/
theorem ParseCmd_unclosed_call_is_literal :
    ParseCmd commandTokenMap maxInterpreterRecursionDepth "foo(a,b".toList 0
        = .ok (EncodedCmd.mk (-1) [] "foo(a,b".toList)
    ∧ ParseCmd commandTokenMap maxInterpreterRecursionDepth "random(1,2".toList 0
        = .ok (EncodedCmd.mk (-1) [] "random(1,2".toList)
    ∧ ParseCmd commandTokenMap maxInterpreterRecursionDepth "random(1,2".toList 0
        ≠ .error .unmatchedQuotesOrParentheses := by
  refine ⟨rfl, rfl, ?_⟩
  intro h
  have h2 : ParseCmd commandTokenMap maxInterpreterRecursionDepth "random(1,2".toList 0
      = .ok (EncodedCmd.mk (-1) [] "random(1,2".toList) := rfl
  rw [h2] at h
  cases h

/-- C9 (amended): when the trimmed input has the call shape with a known command name (known
leading identifier, contains `(`, ends with `)`) and the scan of its parameter text ends inside
a quoted span or at a depth other than 0, `ParseCmd` at a depth not above the maximum fails
with the unmatched-quotes-or-parentheses error and returns no node. -/
theorem ParseCmd_unbalanced_call_fails (tbl : GoMap Int) (maxDepth : Int) (command : Str)
    (depth : Int) (hd : depth ≤ maxDepth)
    (hk : isCommand tbl (TrimSpace command) = true)
    (hp : '(' ∈ TrimSpace command)
    (hs : (TrimSpace command).getLast? = some ')')
    (hu : (quoteDepthAfter (paramStringOf (TrimSpace command))).1 = true
      ∨ (quoteDepthAfter (paramStringOf (TrimSpace command))).2 ≠ 0) :
    ParseCmd tbl maxDepth command depth = .error .unmatchedQuotesOrParentheses := by
  rw [ParseCmd_eq, if_neg (by omega), if_pos ⟨hk, hp, hs⟩, parseParams_eq, if_pos hu]

/-- C9 (amended) at `random((1,2)`, whose parameter text `(1,2` ends at depth 1, and at
`random("a)`, whose parameter text `"a` ends inside a quoted span. -/
theorem ParseCmd_unbalanced_call_examples :
    ParseCmd commandTokenMap maxInterpreterRecursionDepth "random((1,2)".toList 0
        = .error .unmatchedQuotesOrParentheses
    ∧ ParseCmd commandTokenMap maxInterpreterRecursionDepth "random(\"a)".toList 0
        = .error .unmatchedQuotesOrParentheses :=
  ⟨ParseCmd_unbalanced_call_fails commandTokenMap maxInterpreterRecursionDepth
      "random((1,2)".toList 0 (by decide) (by decide) (by decide) (by decide)
      (Or.inr (by decide)),
    ParseCmd_unbalanced_call_fails commandTokenMap maxInterpreterRecursionDepth
      "random(\"a)".toList 0 (by decide) (by decide) (by decide) (by decide)
      (Or.inl (by decide))⟩

theorem handleParentheses_nonneg (c : Char) (q : Bool) (l : Int) (h : 0 ≤ l) :
    0 ≤ handleParentheses c q l := by
  unfold handleParentheses
  split
  · omega
  · split
    · split <;> omega
    · exact h

theorem quoteDepthAfter_nonneg (s : Str) : 0 ≤ (quoteDepthAfter s).2 := by
  induction s using List.reverseRecOn with
  | nil => simp [quoteDepthAfter]
  | append_singleton p c ih =>
    rw [quoteDepthAfter_snoc]
    exact handleParentheses_nonneg _ _ _ ih

/-- C10 (as stated, refuted): on `1,2)`, the parameter text of `random(1,2))`, the scan
ends at depth 0 and `parseParams` succeeds with the parameters `1` and `2)`; the unmatched
`)` does not decrement the depth. -/
theorem parseParams_unmatched_close_succeeds :
    parseParams "1,2)".toList = .ok ["1".toList, "2)".toList]
    ∧ (quoteDepthAfter "1,2)".toList).2 = 0
    ∧ handleParentheses ')' false 0 = 0
    ∧ parseParams "1,2)".toList ≠ .error .unmatchedQuotesOrParentheses := by
  refine ⟨rfl, by decide, by decide, ?_⟩
  intro h
  have h2 : parseParams "1,2)".toList = .ok ["1".toList, "2)".toList] := rfl
  rw [h2] at h
  cases h

/-- C10 (amended): in the parameter scan a `)` outside a quoted span decrements the nesting
depth only when the depth is positive and leaves a depth of 0 unchanged, so the depth is never
negative; a parameter string on which `parseParams` succeeds still succeeds, with as many
parameters, when an unmatched `)` is appended, and `1,2)` yields the parameters `1` and `2)`. -/
theorem unmatched_close_keeps_depth_zero (s : Str) :
    0 ≤ (quoteDepthAfter s).2
    ∧ ((quoteDepthAfter s).1 = false →
        (quoteDepthAfter (s ++ [')'])).2
          = if (quoteDepthAfter s).2 > 0 then (quoteDepthAfter s).2 - 1 else 0)
    ∧ (∀ ps, parseParams s = .ok ps →
        ∃ ps', parseParams (s ++ [')']) = .ok ps' ∧ ps'.length = ps.length)
    ∧ parseParams "1,2)".toList = .ok ["1".toList, "2)".toList] := by
  have hnn := quoteDepthAfter_nonneg s
  have hstep : (quoteDepthAfter s).1 = false →
      (quoteDepthAfter (s ++ [')'])).1 = false
      ∧ (quoteDepthAfter (s ++ [')'])).2
          = if (quoteDepthAfter s).2 > 0 then (quoteDepthAfter s).2 - 1 else 0 := by
    intro hq
    rw [quoteDepthAfter_snoc, hq]
    have e1 : handleQuotes ')' false = false := by decide
    rw [e1]
    refine ⟨rfl, ?_⟩
    show handleParentheses ')' false (quoteDepthAfter s).2 = _
    unfold handleParentheses
    by_cases hpos : (quoteDepthAfter s).2 > 0
    · simp [hpos]
    · have hz : (quoteDepthAfter s).2 = 0 := by omega
      simp [hz]
  refine ⟨hnn, fun hq => (hstep hq).2, ?_, rfl⟩
  intro ps hps
  rw [parseParams_eq] at hps
  split at hps
  · cases hps
  · rename_i hgood
    have hq : (quoteDepthAfter s).1 = false := by
      cases hb : (quoteDepthAfter s).1 with
      | false => rfl
      | true => exact absurd (Or.inl hb) hgood
    have hl : (quoteDepthAfter s).2 = 0 := by
      by_contra hne
      exact hgood (Or.inr hne)
    obtain ⟨hq', hl'⟩ := hstep hq
    rw [hl] at hl'
    simp only [gt_iff_lt, lt_self_iff_false, if_false] at hl'
    refine ⟨(topLevelSegments (s ++ [')'])).map TrimSpace, ?_, ?_⟩
    · rw [parseParams_eq, if_neg]
      rintro (h | h)
      · rw [hq'] at h; exact Bool.noConfusion h
      · exact h hl'
    · cases hps
      rw [List.length_map, List.length_map, topLevelSegments, topLevelSegments, cutAt_length,
        cutAt_length, topLevelCommas_snoc]
      have hb : ((')' : Char) == ',' && !(quoteDepthAfter s).1 && (quoteDepthAfter s).2 == 0)
          = false := by
        have : ((')' : Char) == ',') = false := by decide
        rw [this]; rfl
      rw [hb]
      simp

/-! ## A call with two literal arguments -/

theorem TrimSpace_eq_self (s : Str) (h1 : ∀ c, s.head? = some c → isSpace c = false)
    (h2 : ∀ c, s.getLast? = some c → isSpace c = false) : TrimSpace s = s := by
  have e : TrimSpace s = (s.dropWhile isSpace).rdropWhile isSpace := rfl
  have hd : s.dropWhile isSpace = s := by
    cases s with
    | nil => rfl
    | cons c t =>
      have := h1 c rfl
      rw [List.dropWhile_cons_of_neg (by simp [this])]
  rw [e, hd, List.rdropWhile_eq_self_iff]
  intro hl
  have := h2 _ (List.getLast?_eq_getLast s hl)
  simp [this]

theorem mem_of_mem_TrimSpace (s : Str) (c : Char) (h : c ∈ TrimSpace s) : c ∈ s := by
  have e : TrimSpace s = (s.dropWhile isSpace).rdropWhile isSpace := rfl
  rw [e] at h
  exact (List.dropWhile_suffix isSpace).subset
    ((List.rdropWhile_prefix isSpace (l := s.dropWhile isSpace)).subset h)

theorem takeWhile_append_stop {α : Type} (p : α → Bool) (l : List α) (x : α) (r : List α)
    (hl : ∀ a ∈ l, p a = true) (hx : p x = false) : (l ++ x :: r).takeWhile p = l := by
  induction l with
  | nil => simp [List.takeWhile_cons, hx]
  | cons a t ih =>
    have ha := hl a (List.mem_cons_self _ _)
    simp [List.takeWhile_cons, ha, ih (fun b hb => hl b (List.mem_cons_of_mem _ hb))]

theorem scanStep_plain (st : ScanState) (c : Char)
    (h : c ≠ ',' ∧ c ≠ '"' ∧ c ≠ '(' ∧ c ≠ ')') :
    scanStep st c
      = { params := st.params, currentParam := st.currentParam ++ [c],
          inQuotes := st.inQuotes, parenthesisLevel := st.parenthesisLevel } := by
  obtain ⟨h1, h2, h3, h4⟩ := h
  simp [scanStep, handleQuotes, handleParentheses, h1, h2, h3, h4]

theorem foldl_scanStep_plain (t : Str) (st : ScanState)
    (h : ∀ c ∈ t, c ≠ ',' ∧ c ≠ '"' ∧ c ≠ '(' ∧ c ≠ ')') :
    t.foldl scanStep st
      = { params := st.params, currentParam := st.currentParam ++ t,
          inQuotes := st.inQuotes, parenthesisLevel := st.parenthesisLevel } := by
  induction t generalizing st with
  | nil => simp
  | cons c t ih =>
    rw [List.foldl_cons, scanStep_plain st c (h c (List.mem_cons_self _ _)),
      ih _ (fun x hx => h x (List.mem_cons_of_mem _ hx))]
    simp

theorem parseParams_two_plain (a b : Str)
    (ha : ∀ c ∈ a, c ≠ ',' ∧ c ≠ '"' ∧ c ≠ '(' ∧ c ≠ ')')
    (hb : ∀ c ∈ b, c ≠ ',' ∧ c ≠ '"' ∧ c ≠ '(' ∧ c ≠ ')') :
    parseParams (a ++ ',' :: b) = .ok [TrimSpace a, TrimSpace b] := by
  unfold parseParams scan
  rw [List.foldl_append, foldl_scanStep_plain a _ ha, List.foldl_cons,
    scanStep_of_sep _ rfl rfl, foldl_scanStep_plain b _ hb]
  simp

theorem paramStringOf_call (name rest : Str) (hname : ∀ c ∈ name, c ≠ '(') :
    paramStringOf (name ++ '(' :: (rest ++ [')'])) = rest := by
  have hidx : Index (name ++ '(' :: (rest ++ [')'])) '(' = name.length := by
    unfold Index
    rw [takeWhile_append_stop _ name '(' _ (fun a ha => by simpa using hname a ha) (by simp)]
  unfold paramStringOf slice
  rw [hidx]
  have hlen : (name ++ '(' :: (rest ++ [')'])).length - 1 = name.length + 1 + rest.length := by
    simp; omega
  rw [hlen]
  have e : name ++ '(' :: (rest ++ [')']) = (name ++ ['(']) ++ rest ++ [')'] := by simp
  rw [e]
  have hl2 : name.length + 1 + rest.length = ((name ++ ['(']) ++ rest).length := by
    simp only [List.length_append, List.length_singleton]
  rw [hl2, List.take_left']
  · have hl3 : name.length + 1 = (name ++ ['(']).length := by simp
    rw [hl3, List.drop_left']
    rfl
  · rfl

theorem parseArgs_cons_literal (tbl : GoMap Int) (maxDepth depth : Int) (p : Str)
    (rest : List Str) (acc : List EncodedCmd) (hd : depth + 1 ≤ maxDepth) (hp : '(' ∉ p) :
    parseArgs tbl (fun q => ParseCmd tbl maxDepth q (depth + 1)) (p :: rest) acc
      = parseArgs tbl (fun q => ParseCmd tbl maxDepth q (depth + 1)) rest
          (acc ++ [EncodedCmd.mk (-1) [] (TrimSpace p)]) := by
  have hnot : ¬ ('(' ∈ TrimSpace (TrimSpace p) ∧ (TrimSpace (TrimSpace p)).getLast? = some ')') :=
    fun hx => hp (mem_of_mem_TrimSpace _ _ (mem_of_mem_TrimSpace _ _ hx.1))
  have hlit := ParseCmd_of_not_call tbl maxDepth (TrimSpace p) (depth + 1) hd (Or.inr hnot)
  rw [TrimSpace_idempotent] at hlit
  by_cases hc : isCommand tbl (TrimSpace p) = true
  · simp only [parseArgs, hc, if_true, hlit]
    rfl
  · simp only [parseArgs, hc]
    rfl

theorem getCommandToken_call (tbl : GoMap Int) (name rest : Str) (token : Int)
    (hknown : tbl.get? name = some token) (hname : ∀ c ∈ name, c ≠ '(') :
    getCommandToken tbl (name ++ '(' :: rest) = (token, name, true) := by
  unfold getCommandToken
  rw [takeWhile_append_stop _ name '(' _ (fun a ha => by simpa using hname a ha) (by simp)]
  simp only [hknown]

theorem ParseCmd_call_two_plain (tbl : GoMap Int) (maxDepth : Int) (name a b : Str)
    (token : Int) (hmax : 1 ≤ maxDepth) (hknown : tbl.get? name = some token)
    (hname : ∀ c ∈ name, c ≠ '(' ∧ isSpace c = false)
    (ha : ∀ c ∈ a, c ≠ ',' ∧ c ≠ '"' ∧ c ≠ '(' ∧ c ≠ ')')
    (hb : ∀ c ∈ b, c ≠ ',' ∧ c ≠ '"' ∧ c ≠ '(' ∧ c ≠ ')') :
    ParseCmd tbl maxDepth (name ++ '(' :: ((a ++ ',' :: b) ++ [')'])) 0
      = .ok (EncodedCmd.mk token
          [EncodedCmd.mk (-1) [] (TrimSpace a), EncodedCmd.mk (-1) [] (TrimSpace b)] []) := by
  have hT : TrimSpace (name ++ '(' :: ((a ++ ',' :: b) ++ [')']))
      = name ++ '(' :: ((a ++ ',' :: b) ++ [')']) := by
    apply TrimSpace_eq_self
    · intro c hc
      cases name with
      | nil =>
        simp only [List.nil_append, List.head?_cons, Option.some.injEq] at hc
        subst hc; decide
      | cons x t =>
        simp only [List.cons_append, List.head?_cons, Option.some.injEq] at hc
        subst hc
        exact (hname _ (List.mem_cons_self _ _)).2
    · intro c hc
      have e : name ++ '(' :: ((a ++ ',' :: b) ++ [')'])
          = (name ++ '(' :: (a ++ ',' :: b)) ++ [')'] := by simp
      rw [e, List.getLast?_concat] at hc
      cases hc; decide
  have hg := getCommandToken_call tbl name ((a ++ ',' :: b) ++ [')']) token hknown
    (fun c hc => (hname c hc).1)
  have hk : isCommand tbl (name ++ '(' :: ((a ++ ',' :: b) ++ [')'])) = true := by
    rw [isCommand, hg]
  have hp : '(' ∈ name ++ '(' :: ((a ++ ',' :: b) ++ [')']) := by simp
  have hs : (name ++ '(' :: ((a ++ ',' :: b) ++ [')'])).getLast? = some ')' := by
    have e : name ++ '(' :: ((a ++ ',' :: b) ++ [')'])
        = (name ++ '(' :: (a ++ ',' :: b)) ++ [')'] := by simp
    rw [e, List.getLast?_concat]
  have hpa : '(' ∉ TrimSpace a := fun h => (ha _ (mem_of_mem_TrimSpace _ _ h)).2.2.1 rfl
  have hpb : '(' ∉ TrimSpace b := fun h => (hb _ (mem_of_mem_TrimSpace _ _ h)).2.2.1 rfl
  rw [ParseCmd_eq, if_neg (by omega), hT, if_pos ⟨hk, hp, hs⟩,
    paramStringOf_call name (a ++ ',' :: b) (fun c hc => (hname c hc).1),
    parseParams_two_plain a b ha hb]
  simp only []
  rw [parseArgs_cons_literal tbl maxDepth 0 _ _ _ (by omega) hpa,
    parseArgs_cons_literal tbl maxDepth 0 _ _ _ (by omega) hpb,
    TrimSpace_idempotent, TrimSpace_idempotent, hg]
  rfl

/-- C8: for a known command name `name` (an identifier without `(` and without white space)
and two arguments `a`, `b` containing no comma, quote or parenthesis, `ParseCmd` on
`name(a,b)` at depth 0 succeeds and returns the node whose `Token` is the command-table
value of `name` and whose `Args` are exactly the two literal nodes (`Token` -1, no `Args`)
carrying the trimmed texts of `a` and `b`, in that order (the recursion bound being at
least 1). -/
theorem ParseCmd_known_call_two_literals (tbl : GoMap Int) (maxDepth : Int) (name a b : Str)
    (token : Int) (hmax : 1 ≤ maxDepth) (hknown : tbl.get? name = some token)
    (hname : ∀ c ∈ name, c ≠ '(' ∧ isSpace c = false)
    (ha : ∀ c ∈ a, c ≠ ',' ∧ c ≠ '"' ∧ c ≠ '(' ∧ c ≠ ')')
    (hb : ∀ c ∈ b, c ≠ ',' ∧ c ≠ '"' ∧ c ≠ '(' ∧ c ≠ ')') :
    ParseCmd tbl maxDepth (name ++ "(".toList ++ a ++ ",".toList ++ b ++ ")".toList) 0
      = .ok (EncodedCmd.mk token
          [EncodedCmd.mk (-1) [] (TrimSpace a), EncodedCmd.mk (-1) [] (TrimSpace b)] []) := by
  have e : name ++ "(".toList ++ a ++ ",".toList ++ b ++ ")".toList
      = name ++ '(' :: ((a ++ ',' :: b) ++ [')']) := by
    show name ++ ['('] ++ a ++ [','] ++ b ++ [')'] = _
    simp
  rw [e]
  exact ParseCmd_call_two_plain tbl maxDepth name a b token hmax hknown hname ha hb

/-- C8 at `random( 1 ,10)` and at `time(url, now )`, whose first argument is the name of a
command but not a call. -/
theorem ParseCmd_known_call_examples :
    ParseCmd commandTokenMap maxInterpreterRecursionDepth "random( 1 ,10)".toList 0
        = .ok (EncodedCmd.mk TokenRandom
            [EncodedCmd.mk (-1) [] "1".toList, EncodedCmd.mk (-1) [] "10".toList] [])
    ∧ ParseCmd commandTokenMap maxInterpreterRecursionDepth "time(url, now )".toList 0
        = .ok (EncodedCmd.mk TokenTime
            [EncodedCmd.mk (-1) [] "url".toList, EncodedCmd.mk (-1) [] "now".toList] []) :=
  ⟨ParseCmd_known_call_two_literals commandTokenMap maxInterpreterRecursionDepth
      "random".toList " 1 ".toList "10".toList TokenRandom (by decide) (by decide)
      (by decide) (by decide) (by decide),
    ParseCmd_known_call_two_literals commandTokenMap maxInterpreterRecursionDepth
      "time".toList "url".toList " now ".toList TokenTime (by decide) (by decide)
      (by decide) (by decide) (by decide)⟩

/-! ## Quotes in the parameter scan -/

theorem handleQuotes_eq (c : Char) (q : Bool) :
    handleQuotes c q = if c = '"' then !q else q := rfl

theorem decide_odd_succ (n : Nat) :
    decide ((n + 1) % 2 = 1) = !decide (n % 2 = 1) := by
  rcases Nat.mod_two_eq_zero_or_one n with h | h
  · have : (n + 1) % 2 = 1 := by omega
    simp [h, this]
  · have : (n + 1) % 2 = 0 := by omega
    simp [h, this]

theorem quoteDepthAfter_inQuotes (s : Str) :
    (quoteDepthAfter s).1 = decide (s.count '"' % 2 = 1) := by
  induction s using List.reverseRecOn with
  | nil => rfl
  | append_singleton p c ih =>
    rw [quoteDepthAfter_snoc, handleQuotes_eq, ih, List.count_append]
    by_cases hc : c = '"'
    · subst hc
      rw [if_pos rfl, List.count_singleton_self, decide_odd_succ]
    · rw [if_neg hc, List.count_singleton, if_neg (by simpa using hc), Nat.add_zero]

/-- C11 (as stated, refuted): the escaped quote of `a\",b` toggles the quote state, so the
comma after it is inside a quoted span and `parseParams` fails, whereas on `a\x,b`, the same
text with an ordinary rune in place of the quote, the comma splits the two parameters. -/
theorem escaped_quote_toggles_state :
    (quoteDepthAfter ['a', '\\', '"']).1 = true
    ∧ (quoteDepthAfter ['a', '\\', 'x']).1 = false
    ∧ isTopLevelComma escapedQuoteParams 3 = false
    ∧ isTopLevelComma escapedPlainParams 3 = true
    ∧ parseParams escapedQuoteParams = .error .unmatchedQuotesOrParentheses
    ∧ parseParams escapedPlainParams = .ok [['a', '\\', 'x'], ['b']] :=
  ⟨by decide, by decide, by decide, by decide, rfl, rfl⟩

/-- C11 (amended): in the parameter scan the quote state is toggled by every `"`, whether
or not a backslash precedes it: every rune other than `"` (the backslash included) leaves
the state unchanged, the state after a text is "inside" exactly when the text holds an odd
number of `"`, and an escaped quote `\"` appended to a text inverts the state. -/
theorem every_quote_toggles_state (s : Str) :
    (quoteDepthAfter s).1 = decide (s.count '"' % 2 = 1)
    ∧ (scan s).inQuotes = decide (s.count '"' % 2 = 1)
    ∧ (quoteDepthAfter (s ++ ['\\', '"'])).1 = !(quoteDepthAfter s).1
    ∧ (∀ c q, c ≠ '"' → handleQuotes c q = q)
    ∧ (∀ q, handleQuotes '"' q = !q) := by
  refine ⟨quoteDepthAfter_inQuotes s, ?_, ?_, ?_, ?_⟩
  · rw [(scan_state s).1, quoteDepthAfter_inQuotes]
  · have e : s ++ ['\\', '"'] = (s ++ ['\\']) ++ ['"'] := by simp
    rw [e, quoteDepthAfter_snoc, quoteDepthAfter_snoc]
    rfl
  · intro c q hc
    rw [handleQuotes_eq, if_neg hc]
  · intro q
    rfl

/-! ## The parameters `parseParams` returns -/

theorem insideQuotes_take (s : Str) (i j : Nat) (h : j ≤ i) :
    insideQuotes (s.take i) j = insideQuotes s j := by
  unfold insideQuotes
  rw [List.take_take, Nat.min_eq_left h]

theorem parenAt_take (s : Str) (i j : Nat) (h : j < i) :
    parenAt (s.take i) j = parenAt s j := by
  unfold parenAt
  rw [insideQuotes_take s i j (Nat.le_of_lt h), List.getElem?_take_of_lt h]

theorem balance_take (s : Str) (i n : Nat) (h : n ≤ i) :
    balance (s.take i) n = balance s n := by
  unfold balance
  congr 1
  apply List.map_congr_left
  intro j hj
  exact parenAt_take s i j (Nat.lt_of_lt_of_le (List.mem_range.mp hj) h)

theorem lowestBalance_take (s : Str) (i n : Nat) (h : n ≤ i) :
    lowestBalance (s.take i) n = lowestBalance s n := by
  unfold lowestBalance
  congr 1
  apply List.map_congr_left
  intro j hj
  exact balance_take s i j (by have := List.mem_range.mp hj; omega)

theorem openParens_take (s : Str) (i n : Nat) (h : n ≤ i) :
    openParens (s.take i) n = openParens s n := by
  unfold openParens
  rw [balance_take s i n h, lowestBalance_take s i n h]

theorem balance_succ (s : Str) (n : Nat) : balance s (n + 1) = balance s n + parenAt s n := by
  simp [balance, List.range_succ]

theorem lowestBalance_succ (s : Str) (n : Nat) :
    lowestBalance s (n + 1) = min (lowestBalance s n) (balance s (n + 1)) := by
  unfold lowestBalance
  rw [List.range_succ (n + 1), List.map_append, List.foldl_append]
  rfl

theorem lowestBalance_le (s : Str) (n : Nat) :
    lowestBalance s n ≤ balance s n ∧ lowestBalance s n ≤ 0 := by
  induction n with
  | zero => simp [lowestBalance, balance, List.range_succ]
  | succ n ih =>
    rw [lowestBalance_succ]
    exact ⟨min_le_right _ _, le_trans (min_le_left _ _) ih.2⟩

theorem parenAt_snoc (p : Str) (c : Char) :
    parenAt (p ++ [c]) p.length
      = if p.count '"' % 2 = 1 then 0 else if c = '(' then 1 else if c = ')' then -1 else 0 := by
  unfold parenAt insideQuotes
  simp

/-- The depth the scan of `parseParams` keeps is the number of parentheses open. -/
theorem quoteDepthAfter_depth (p : Str) : (quoteDepthAfter p).2 = openParens p p.length := by
  induction p using List.reverseRecOn with
  | nil => simp [quoteDepthAfter, openParens, balance, lowestBalance, List.range_succ]
  | append_singleton p c ih =>
    have hq := quoteDepthAfter_inQuotes p
    have hb : balance (p ++ [c]) p.length = balance p p.length := by
      have := balance_take (p ++ [c]) p.length p.length (Nat.le_refl _)
      rw [List.take_left' rfl] at this
      exact this.symm
    have hl : lowestBalance (p ++ [c]) p.length = lowestBalance p p.length := by
      have := lowestBalance_take (p ++ [c]) p.length p.length (Nat.le_refl _)
      rw [List.take_left' rfl] at this
      exact this.symm
    have hle := lowestBalance_le p p.length
    rw [quoteDepthAfter_snoc, ih, hq]
    unfold openParens at *
    rw [List.length_append, List.length_singleton, lowestBalance_succ, balance_succ, hb, hl,
      parenAt_snoc]
    unfold handleParentheses handleQuotes
    by_cases hodd : p.count '"' % 2 = 1
    · by_cases h1 : c = '"'
      · subst h1
        simp [hodd]
        omega
      · by_cases h2 : c = '('
        · subst h2; simp [hodd]; omega
        · by_cases h3 : c = ')'
          · subst h3; simp [hodd]; omega
          · simp [hodd, h1, h2, h3]; omega
    · by_cases h1 : c = '"'
      · subst h1
        simp [hodd]
        omega
      · by_cases h2 : c = '('
        · subst h2; simp [hodd]; omega
        · by_cases h3 : c = ')'
          · subst h3; simp [hodd]
            split <;> omega
          · simp [hodd, h1, h2, h3]; omega

theorem isTopLevelComma_eq (s : Str) (i : Nat) (hi : i < s.length) :
    isTopLevelComma s i = isSeparator s i := by
  unfold isTopLevelComma isSeparator
  have hlen : (s.take i).length = i := by
    rw [List.length_take]; omega
  have hd : (quoteDepthAfter (s.take i)).2 = openParens s i := by
    rw [quoteDepthAfter_depth, hlen, openParens_take s i i (Nat.le_refl _)]
  have hqq : (quoteDepthAfter (s.take i)).1 = insideQuotes s i := by
    rw [quoteDepthAfter_inQuotes]
    unfold insideQuotes
    by_cases h : (s.take i).count '"' % 2 = 1 <;> simp [h]
  rw [hd, hqq]

theorem topLevelCommas_eq (s : Str) : topLevelCommas s = separators s := by
  unfold topLevelCommas separators
  apply List.filter_congr
  intro i hi
  exact isTopLevelComma_eq s i (List.mem_range.mp hi)


/-- The function `parseParams` in terms of the quotes and parentheses of the string: it
fails exactly when the string holds an odd number of `"` or a parenthesis is left open at
its end, and otherwise returns the trimmed segments between the separators. -/
theorem parseParams_eq_segments (s : Str) :
    parseParams s
      = if insideQuotes s s.length = true ∨ openParens s s.length ≠ 0 then
          .error .unmatchedQuotesOrParentheses
        else .ok ((cutAt s 0 (separators s)).map TrimSpace) := by
  have hq : (quoteDepthAfter s).1 = insideQuotes s s.length := by
    rw [quoteDepthAfter_inQuotes]
    unfold insideQuotes
    rw [List.take_length]
    by_cases h : s.count '"' % 2 = 1 <;> simp [h]
  rw [parseParams_eq, topLevelSegments, topLevelCommas_eq, quoteDepthAfter_depth, hq]

theorem specScan_snoc (p : Str) (c : Char) :
    specScan (p ++ [c]) = specScanStep (specScan p) c := by
  simp [specScan, List.foldl_append]

/-- On a string without backslash the spec's scan keeps the parity of the `"` and the
balance of the parentheses outside the quoted spans. -/
theorem specScan_of_no_backslash (p : Str) (h : '\\' ∉ p) :
    specScan p
      = { escaped := false, inQuotes := decide (p.count '"' % 2 = 1),
          depth := balance p p.length } := by
  induction p using List.reverseRecOn with
  | nil => rfl
  | append_singleton p c ih =>
    have hp : '\\' ∉ p := fun hm => h (List.mem_append_left _ hm)
    have hc : c ≠ '\\' := fun e => h (by rw [e]; simp)
    have hb : balance (p ++ [c]) p.length = balance p p.length := by
      have := balance_take (p ++ [c]) p.length p.length (Nat.le_refl _)
      rw [List.take_left' rfl] at this
      exact this.symm
    rw [specScan_snoc, ih hp, List.length_append, List.length_singleton, balance_succ, hb,
      parenAt_snoc, List.count_append]
    unfold specScanStep
    by_cases hodd : p.count '"' % 2 = 1
    · by_cases h1 : c = '"'
      · subst h1
        have e : (List.count '"' p + 1) % 2 = 0 := by omega
        simp [hodd, e]
      · have e : List.count '"' [c] = 0 := by
          rw [List.count_singleton, if_neg (by simpa using h1)]
        by_cases h2 : c = '('
        · subst h2; simp [hodd, e]
        · by_cases h3 : c = ')'
          · subst h3; simp [hodd, e]
          · simp [hodd, e, h1, h2, h3, hc]
    · by_cases h1 : c = '"'
      · subst h1
        have e : (List.count '"' p + 1) % 2 = 1 := by omega
        simp [hodd, e]
      · have e : List.count '"' [c] = 0 := by
          rw [List.count_singleton, if_neg (by simpa using h1)]
        by_cases h2 : c = '('
        · subst h2; simp [hodd, e]
        · by_cases h3 : c = ')'
          · subst h3; simp [hodd, e]
            omega
          · simp [hodd, e, h1, h2, h3, hc]

theorem lowestBalance_antitone (s : Str) (i j : Nat) (h : i ≤ j) :
    lowestBalance s j ≤ lowestBalance s i := by
  induction j with
  | zero =>
    have : i = 0 := by omega
    subst this
    exact le_refl _
  | succ j ih =>
    by_cases hij : i = j + 1
    · subst hij; exact le_refl _
    · rw [lowestBalance_succ]
      exact le_trans (min_le_left _ _) (ih (by omega))

/-- On a string without backslash in which no `)` outside the quoted spans lacks an open
`(`, the separators are the separators of the spec's scan. -/
theorem specSeparators_eq (s : Str) (hb : '\\' ∉ s) (hl : lowestBalance s s.length = 0) :
    specSeparators s = separators s := by
  unfold specSeparators separators
  apply List.filter_congr
  intro i hi
  have hi' : i < s.length := List.mem_range.mp hi
  have hlen : (s.take i).length = i := by
    rw [List.length_take]; omega
  have htake : '\\' ∉ s.take i := fun hm => hb (List.mem_of_mem_take hm)
  have hlow : lowestBalance s i = 0 := by
    have h1 := lowestBalance_antitone s i s.length (Nat.le_of_lt hi')
    have h2 := (lowestBalance_le s i).2
    omega
  unfold isSpecSeparator isSeparator
  rw [specScan_of_no_backslash _ htake, hlen, balance_take s i i (Nat.le_refl _)]
  unfold openParens insideQuotes
  rw [hlow]
  by_cases hq : (s.take i).count '"' % 2 = 1
  · simp [hq]
  · have hq' : ((s.take i).count '"' % 2 == 1) = false := by simpa using hq
    simp [hq, hq']

/-- C6 (as stated, refuted): on the parameter string `\",\"` the comma stands between two
escaped quotes, so as the spec words the scan (the quoted-span state toggled on each
unescaped `"`) it is outside the quoted spans and at depth 0, a separator that cuts the
string in two; `parseParams` succeeds and returns the whole string as one parameter. On
`a),b` the depth as the spec words it (decremented on `)`) is -1 at the comma, no
separator; `parseParams` succeeds and returns the two parameters `a)` and `b`. -/
theorem parseParams_differs_from_spec_scan :
    parseParams escapedQuotePair = .ok [escapedQuotePair]
    ∧ specSeparators escapedQuotePair = [2]
    ∧ (cutAt escapedQuotePair 0 (specSeparators escapedQuotePair)).map TrimSpace
        = [['\\', '"'], ['\\', '"']]
    ∧ parseParams "a),b".toList = .ok ["a)".toList, "b".toList]
    ∧ specSeparators "a),b".toList = []
    ∧ (cutAt "a),b".toList 0 (specSeparators "a),b".toList)).map TrimSpace = ["a),b".toList] := by
  refine ⟨by rfl, by decide, by decide, by rfl, by decide, by decide⟩

/-- C6 (amended): when `parseParams` succeeds on a parameter string, the list it returns is
exactly the whitespace-trimmed segments, in order, obtained by cutting the string at the
commas before which the number of `"` is even (every `"` opens or closes a quoted span,
escaped or not) and no parenthesis is open (a `(` outside the quoted spans is open until a
later `)` outside them closes it, and a `)` that finds none open is ignored); it has one
more element than there are such commas, and the string holds an even number of `"` and
leaves no parenthesis open. When the string holds no backslash and no `)` outside the
quoted spans that finds no `(` open, these commas are the separators of the scan as the
spec words it. -/
theorem parseParams_returns_top_level_segments (s : Str) (ps : List Str)
    (h : parseParams s = .ok ps) :
    ps = (cutAt s 0 (separators s)).map TrimSpace
    ∧ ps.length = (separators s).length + 1
    ∧ insideQuotes s s.length = false
    ∧ openParens s s.length = 0
    ∧ ('\\' ∉ s → lowestBalance s s.length = 0 → specSeparators s = separators s) := by
  rw [parseParams_eq_segments] at h
  split at h
  · cases h
  · rename_i hb
    cases h
    refine ⟨rfl, ?_, ?_, ?_, specSeparators_eq s⟩
    · rw [List.length_map, cutAt_length]
    · cases hq : insideQuotes s s.length with
      | false => rfl
      | true => exact absurd (Or.inl hq) hb
    · by_contra hne
      exact hb (Or.inr hne)

/-- C6 (amended) at the parameter list of `foo("a,b", "c)d")`: exactly the two parameters
`"a,b"` and `"c)d"`, the only separator being the comma at position 5; and at the
parameter list `url(1,2), 3`: the two parameters `url(1,2)` and `3`, the comma inside the
nested parentheses being no separator. -/
theorem parseParams_quoted_example :
    parseParams "\"a,b\", \"c)d\"".toList = .ok ["\"a,b\"".toList, "\"c)d\"".toList]
    ∧ separators "\"a,b\", \"c)d\"".toList = [5]
    ∧ (["\"a,b\"".toList, "\"c)d\"".toList]
          = (cutAt "\"a,b\", \"c)d\"".toList 0 (separators "\"a,b\", \"c)d\"".toList)).map
              TrimSpace
        ∧ ["\"a,b\"".toList, "\"c)d\"".toList].length
          = (separators "\"a,b\", \"c)d\"".toList).length + 1
        ∧ insideQuotes "\"a,b\", \"c)d\"".toList ("\"a,b\", \"c)d\"".toList).length = false
        ∧ openParens "\"a,b\", \"c)d\"".toList ("\"a,b\", \"c)d\"".toList).length = 0
        ∧ ('\\' ∉ "\"a,b\", \"c)d\"".toList →
            lowestBalance "\"a,b\", \"c)d\"".toList ("\"a,b\", \"c)d\"".toList).length = 0 →
            specSeparators "\"a,b\", \"c)d\"".toList = separators "\"a,b\", \"c)d\"".toList))
    ∧ parseParams "url(1,2), 3".toList = .ok ["url(1,2)".toList, "3".toList]
    ∧ separators "url(1,2), 3".toList = [8]
    ∧ (["url(1,2)".toList, "3".toList]
          = (cutAt "url(1,2), 3".toList 0 (separators "url(1,2), 3".toList)).map TrimSpace
        ∧ ["url(1,2)".toList, "3".toList].length
          = (separators "url(1,2), 3".toList).length + 1
        ∧ insideQuotes "url(1,2), 3".toList ("url(1,2), 3".toList).length = false
        ∧ openParens "url(1,2), 3".toList ("url(1,2), 3".toList).length = 0
        ∧ ('\\' ∉ "url(1,2), 3".toList →
            lowestBalance "url(1,2), 3".toList ("url(1,2), 3".toList).length = 0 →
            specSeparators "url(1,2), 3".toList = separators "url(1,2), 3".toList))
    ∧ specSeparators "\"a,b\", \"c)d\"".toList = [5]
    ∧ specSeparators "url(1,2), 3".toList = [8] :=
  ⟨rfl, by decide,
    parseParams_returns_top_level_segments "\"a,b\", \"c)d\"".toList
      ["\"a,b\"".toList, "\"c)d\"".toList] rfl,
    rfl, by decide,
    parseParams_returns_top_level_segments "url(1,2), 3".toList
      ["url(1,2)".toList, "3".toList] rfl,
    by decide, by decide⟩

/-! ## The shape of a parsed tree -/

theorem setArgValue_ArgValue (n : EncodedCmd) (v : Str) : (n.setArgValue v).ArgValue = v := by
  cases n; rfl

theorem setArgValue_Token (n : EncodedCmd) (v : Str) : (n.setArgValue v).Token = n.Token := by
  cases n; rfl

theorem setArgValue_Args (n : EncodedCmd) (v : Str) : (n.setArgValue v).Args = n.Args := by
  cases n; rfl

/-- What a successful `ParseCmd` returned: the literal node of the plain-text branch, or
the command node built from the parsed parameters. -/
theorem ParseCmd_ok_inv (tbl : GoMap Int) (maxDepth : Int) (command : Str) (depth : Int)
    (node : EncodedCmd) (h : ParseCmd tbl maxDepth command depth = .ok node) :
    depth ≤ maxDepth
    ∧ ((¬ (isCommand tbl (TrimSpace command) = true ∧ '(' ∈ TrimSpace command
            ∧ (TrimSpace command).getLast? = some ')')
          ∧ node = EncodedCmd.mk (-1) [] (TrimSpace command))
      ∨ ((isCommand tbl (TrimSpace command) = true ∧ '(' ∈ TrimSpace command
            ∧ (TrimSpace command).getLast? = some ')')
          ∧ ∃ params encodedArgs,
              parseParams (paramStringOf (TrimSpace command)) = .ok params
              ∧ parseArgs tbl (fun p => ParseCmd tbl maxDepth p (depth + 1)) params []
                  = .ok encodedArgs
              ∧ node
                  = EncodedCmd.mk (getCommandToken tbl (TrimSpace command)).1 encodedArgs [])) := by
  rw [ParseCmd_eq] at h
  by_cases hd : depth > maxDepth
  · rw [if_pos hd] at h; cases h
  · rw [if_neg hd] at h
    refine ⟨by omega, ?_⟩
    by_cases hc : isCommand tbl (TrimSpace command) = true ∧ '(' ∈ TrimSpace command
        ∧ (TrimSpace command).getLast? = some ')'
    · rw [if_pos hc] at h
      right
      refine ⟨hc, ?_⟩
      cases hp : parseParams (paramStringOf (TrimSpace command)) with
      | error e => rw [hp] at h; cases h
      | ok params =>
        rw [hp] at h
        simp only [] at h
        cases ha : parseArgs tbl (fun p => ParseCmd tbl maxDepth p (depth + 1)) params [] with
        | error e => rw [ha] at h; cases h
        | ok encodedArgs =>
          rw [ha] at h
          simp only [] at h
          cases h
          exact ⟨params, encodedArgs, rfl, ha, rfl⟩
    · rw [if_neg hc] at h
      cases h
      exact Or.inl ⟨hc, rfl⟩

/-- What a successful run of the argument loop returns: one node per parameter, after the
nodes it started with, each being either the literal node of the trimmed parameter or the
nested parse of the trimmed parameter with its `ArgValue` overwritten. -/
theorem parseArgs_ok_inv (tbl : GoMap Int) (parse : Str → Except ExprError EncodedCmd)
    (params : List Str) (acc encodedArgs : List EncodedCmd)
    (h : parseArgs tbl parse params acc = .ok encodedArgs) :
    ∃ built : List EncodedCmd, encodedArgs = acc ++ built
      ∧ List.Forall₂
          (fun param node =>
            (isCommand tbl (TrimSpace param) = false
                ∧ node = EncodedCmd.mk (-1) [] (TrimSpace param))
            ∨ (isCommand tbl (TrimSpace param) = true
                ∧ ∃ nested, parse (TrimSpace param) = .ok nested
                    ∧ node = nested.setArgValue (TrimSpace param)))
          params built := by
  induction params generalizing acc with
  | nil =>
    simp only [parseArgs] at h
    cases h
    exact ⟨[], by simp, List.Forall₂.nil⟩
  | cons param rest ih =>
    simp only [parseArgs] at h
    by_cases hc : isCommand tbl (TrimSpace param) = true
    · rw [if_pos hc] at h
      cases hp : parse (TrimSpace param) with
      | error e => rw [hp] at h; cases h
      | ok nested =>
        rw [hp] at h
        simp only [] at h
        obtain ⟨built, hb, hf⟩ := ih _ h
        refine ⟨nested.setArgValue (TrimSpace param) :: built, by simp [hb], ?_⟩
        exact List.Forall₂.cons (Or.inr ⟨hc, nested, hp, rfl⟩) hf
    · rw [if_neg hc] at h
      obtain ⟨built, hb, hf⟩ := ih _ h
      refine ⟨EncodedCmd.mk (-1) [] (TrimSpace param) :: built, by simp [hb], ?_⟩
      have hc' : isCommand tbl (TrimSpace param) = false := by
        cases hx : isCommand tbl (TrimSpace param) with
        | false => rfl
        | true => exact absurd hx hc
      exact List.Forall₂.cons (Or.inl ⟨hc', rfl⟩) hf

theorem forall₂_argValues (rel : Str → EncodedCmd → Prop) (params : List Str)
    (built : List EncodedCmd) (h : List.Forall₂ rel params built)
    (hrel : ∀ p n, rel p n → n.ArgValue = TrimSpace p) :
    built.map EncodedCmd.ArgValue = params.map TrimSpace := by
  induction h with
  | nil => rfl
  | cons hpn _ ih => simp [hrel _ _ hpn, ih]

theorem parseArgs_argValues (tbl : GoMap Int) (parse : Str → Except ExprError EncodedCmd)
    (params : List Str) (encodedArgs : List EncodedCmd)
    (h : parseArgs tbl parse params [] = .ok encodedArgs) :
    encodedArgs.map EncodedCmd.ArgValue = params.map TrimSpace := by
  obtain ⟨built, hb, hf⟩ := parseArgs_ok_inv tbl parse params [] encodedArgs h
  rw [hb, List.nil_append]
  apply forall₂_argValues _ params built hf
  intro p n hpn
  rcases hpn with ⟨_, hn⟩ | ⟨_, nested, _, hn⟩
  · rw [hn]; rfl
  · rw [hn, setArgValue_ArgValue]

theorem map_TrimSpace_idempotent (l : List Str) :
    (l.map TrimSpace).map TrimSpace = l.map TrimSpace := by
  rw [List.map_map]
  apply List.map_congr_left
  intro s _
  exact TrimSpace_idempotent s

theorem ParseCmd_command_node_argValues (tbl : GoMap Int) (maxDepth : Int) (command : Str)
    (depth : Int) (node : EncodedCmd) (h : ParseCmd tbl maxDepth command depth = .ok node)
    (htok : node.Token ≠ -1) :
    node.ArgValue = []
    ∧ node.Args.map EncodedCmd.ArgValue
        = (topLevelSegments (paramStringOf (TrimSpace command))).map TrimSpace := by
  obtain ⟨_, hinv⟩ := ParseCmd_ok_inv tbl maxDepth command depth node h
  rcases hinv with ⟨_, hlit⟩ | ⟨_, params, encodedArgs, hp, ha, hn⟩
  · rw [hlit] at htok
    exact absurd rfl htok
  · rw [hn]
    refine ⟨rfl, ?_⟩
    show encodedArgs.map EncodedCmd.ArgValue = _
    rw [parseArgs_argValues tbl _ params encodedArgs ha]
    rw [parseParams_eq] at hp
    split at hp
    · cases hp
    · cases hp
      exact map_TrimSpace_idempotent _

/-- C13: when `ParseCmd` returns a command node (`Token` other than -1), the node's own
`ArgValue` is the empty string, and the `ArgValue` of its argument nodes are, in order, the
whitespace-trimmed raw texts of the parameters (the segments of the parameter text between
its top-level commas), for a literal argument and for a nested command alike. -/
theorem command_node_arg_values (tbl : GoMap Int) (maxDepth : Int) (command : Str)
    (depth : Int) (node : EncodedCmd) (h : ParseCmd tbl maxDepth command depth = .ok node)
    (htok : node.Token ≠ -1) :
    node.ArgValue = []
    ∧ node.Args.map EncodedCmd.ArgValue
        = (topLevelSegments (paramStringOf (TrimSpace command))).map TrimSpace :=
  ParseCmd_command_node_argValues tbl maxDepth command depth node h htok

/-- C13 at `random( time(unix) , 5 )`: the nested command carries its full text
`time(unix)`, the literal carries `5`, and the node itself carries the empty string. -/
theorem command_node_arg_values_example :
    (EncodedCmd.mk TokenRandom
        [EncodedCmd.mk TokenTime [EncodedCmd.mk (-1) [] "unix".toList] "time(unix)".toList,
         EncodedCmd.mk (-1) [] "5".toList] []).ArgValue = []
    ∧ (EncodedCmd.mk TokenRandom
        [EncodedCmd.mk TokenTime [EncodedCmd.mk (-1) [] "unix".toList] "time(unix)".toList,
         EncodedCmd.mk (-1) [] "5".toList] []).Args.map EncodedCmd.ArgValue
        = (topLevelSegments
            (paramStringOf (TrimSpace "random( time(unix) , 5 )".toList))).map TrimSpace :=
  command_node_arg_values commandTokenMap maxInterpreterRecursionDepth
    "random( time(unix) , 5 )".toList 0 _ rfl (by decide)

theorem nodes_mk (token : Int) (args : List EncodedCmd) (v : Str) :
    (EncodedCmd.mk token args v).nodes = EncodedCmd.mk token args v :: nodesOfArgs args := by
  simp [EncodedCmd.nodes]

theorem mem_nodesOfArgs (args : List EncodedCmd) (n : EncodedCmd) :
    n ∈ nodesOfArgs args ↔ ∃ a ∈ args, n ∈ a.nodes := by
  induction args with
  | nil => simp [nodesOfArgs]
  | cons a rest ih => simp [nodesOfArgs, ih]

theorem nodes_eq (t : EncodedCmd) : t.nodes = t :: nodesOfArgs t.Args := by
  cases t with
  | mk token args v => exact nodes_mk token args v

theorem nodes_setArgValue (t : EncodedCmd) (v : Str) :
    (t.setArgValue v).nodes = t.setArgValue v :: nodesOfArgs t.Args := by
  cases t with
  | mk token args v' => exact nodes_mk token args v

theorem forall₂_mem_right {α β : Type} (rel : α → β → Prop) (l₁ : List α) (l₂ : List β)
    (h : List.Forall₂ rel l₁ l₂) (b : β) (hb : b ∈ l₂) : ∃ a ∈ l₁, rel a b := by
  induction h with
  | nil => simp at hb
  | cons hab _ ih =>
    rcases List.mem_cons.mp hb with rfl | hb'
    · exact ⟨_, List.mem_cons_self _ _, hab⟩
    · obtain ⟨a, ha, hr⟩ := ih hb'
      exact ⟨a, List.mem_cons_of_mem _ ha, hr⟩

theorem isCommand_known (tbl : GoMap Int) (s : Str) (h : isCommand tbl s = true) :
    tbl.get? (s.takeWhile (fun x => x != '(')) = some (getCommandToken tbl s).1 := by
  unfold isCommand getCommandToken at h
  unfold getCommandToken
  cases hg : tbl.get? (s.takeWhile (fun x => x != '(')) with
  | none => simp [hg] at h
  | some token => simp [hg]

theorem parseParams_ne_nil (s : Str) (params : List Str) (h : parseParams s = .ok params) :
    params ≠ [] := by
  rw [parseParams_eq] at h
  split at h
  · cases h
  · cases h
    intro hnil
    have := congrArg List.length hnil
    rw [List.length_map, topLevelSegments, cutAt_length] at this
    simp at this

/-- Induction over the nodes of a parsed tree: a property of `Token` and `Args` that holds
of the literal nodes and of every node with a token of the command table and at least one
argument holds of every node of every tree `ParseCmd` returns. -/
theorem ParseCmd_all_nodes (tbl : GoMap Int) (maxDepth : Int)
    (P : Int → List EncodedCmd → Prop) (hlit : P (-1) [])
    (hcmd : ∀ name token args, tbl.get? name = some token → args ≠ [] → P token args)
    (levels : Nat) :
    ∀ (command : Str) (depth : Int) (tree : EncodedCmd),
      (maxDepth + 1 - depth).toNat ≤ levels →
      ParseCmd tbl maxDepth command depth = .ok tree →
      ∀ n ∈ tree.nodes, P n.Token n.Args := by
  induction levels with
  | zero =>
    intro command depth tree hle h
    obtain ⟨hd, _⟩ := ParseCmd_ok_inv tbl maxDepth command depth tree h
    omega
  | succ levels ih =>
    intro command depth tree hle h
    obtain ⟨hd, hinv⟩ := ParseCmd_ok_inv tbl maxDepth command depth tree h
    rcases hinv with ⟨_, hlitnode⟩ | ⟨hc, params, encodedArgs, hp, ha, hn⟩
    · intro n hn
      rw [hlitnode, nodes_mk] at hn
      simp only [nodesOfArgs, List.mem_singleton] at hn
      rw [hn]
      exact hlit
    · obtain ⟨built, hb, hf⟩ := parseArgs_ok_inv tbl _ params [] encodedArgs ha
      rw [List.nil_append] at hb
      have hne : encodedArgs ≠ [] := by
        intro hnil
        have hlen := hf.length_eq
        rw [← hb, hnil] at hlen
        exact parseParams_ne_nil _ params hp (List.length_eq_zero.mp hlen)
      intro n hnmem
      rw [hn, nodes_mk] at hnmem
      rcases List.mem_cons.mp hnmem with rfl | hsub
      · exact hcmd _ _ _ (isCommand_known tbl _ hc.1) hne
      · obtain ⟨a, ha', hna⟩ := (mem_nodesOfArgs encodedArgs n).mp hsub
        rw [hb] at ha'
        obtain ⟨param, _, hrel⟩ := forall₂_mem_right _ params built hf a ha'
        rcases hrel with ⟨_, hlitarg⟩ | ⟨_, nested, hnested, hset⟩
        · rw [hlitarg, nodes_mk] at hna
          simp only [nodesOfArgs, List.mem_singleton] at hna
          rw [hna]
          exact hlit
        · have hall := ih (TrimSpace param) (depth + 1) nested (by omega) hnested
          rw [hset, nodes_setArgValue] at hna
          rcases List.mem_cons.mp hna with rfl | hdeep
          · rw [setArgValue_Token, setArgValue_Args]
            exact hall nested (by rw [nodes_eq]; exact List.mem_cons_self _ _)
          · exact hall n (by rw [nodes_eq]; exact List.mem_cons_of_mem _ hdeep)

theorem commandTokenMap_tokens (name : Str) (token : Int)
    (h : commandTokenMap.get? name = some token) :
    token = TokenRandom ∨ token = TokenTime ∨ token = TokenURL := by
  simp only [commandTokenMap, GoMap.get?] at h
  split at h
  · cases h; exact Or.inl rfl
  · split at h
    · cases h; exact Or.inr (Or.inl rfl)
    · split at h
      · cases h; exact Or.inr (Or.inr rfl)
      · cases h

theorem commandTokenMap_no_literal_token (name : Str) (token : Int)
    (h : commandTokenMap.get? name = some token) : token ≠ -1 := by
  rcases commandTokenMap_tokens name token h with rfl | rfl | rfl <;> decide

/-- C14: in every tree `ParseCmd` returns, every node, at any nesting level, whose `Token`
is -1 has empty `Args`, and every node whose `Token` is not -1 carries the command-table
value of a known command name (no command of the table having the token -1, the mark of the
literal nodes). -/
theorem parsed_tree_nodes_well_formed (tbl : GoMap Int) (maxDepth : Int) (command : Str)
    (depth : Int) (tree : EncodedCmd)
    (htbl : ∀ name token, tbl.get? name = some token → token ≠ -1)
    (h : ParseCmd tbl maxDepth command depth = .ok tree) :
    ∀ n ∈ tree.nodes,
      (n.Token = -1 → n.Args = [])
      ∧ (n.Token ≠ -1 → ∃ name, tbl.get? name = some n.Token) := by
  refine ParseCmd_all_nodes tbl maxDepth
    (fun token args => (token = -1 → args = []) ∧ (token ≠ -1 → ∃ name, tbl.get? name = some token))
    ⟨fun _ => rfl, fun hne => absurd rfl hne⟩ ?_ _ command depth tree (Nat.le_refl _) h
  intro name token args hknown _
  exact ⟨fun htok => absurd htok (htbl name token hknown), fun _ => ⟨name, hknown⟩⟩

/-- C14 at `random(time(unix), random(1,url()))`, a tree of seven nodes. -/
theorem parsed_tree_nodes_example :
    ParseCmd commandTokenMap maxInterpreterRecursionDepth
        "random(time(unix), random(1,url()))".toList 0
      = .ok (EncodedCmd.mk TokenRandom
          [EncodedCmd.mk TokenTime [EncodedCmd.mk (-1) [] "unix".toList] "time(unix)".toList,
           EncodedCmd.mk TokenRandom
             [EncodedCmd.mk (-1) [] "1".toList,
              EncodedCmd.mk TokenURL [EncodedCmd.mk (-1) [] []] "url()".toList]
             "random(1,url())".toList] [])
    ∧ ∀ n ∈ (EncodedCmd.mk TokenRandom
          [EncodedCmd.mk TokenTime [EncodedCmd.mk (-1) [] "unix".toList] "time(unix)".toList,
           EncodedCmd.mk TokenRandom
             [EncodedCmd.mk (-1) [] "1".toList,
              EncodedCmd.mk TokenURL [EncodedCmd.mk (-1) [] []] "url()".toList]
             "random(1,url())".toList] []).nodes,
        (n.Token = -1 → n.Args = [])
        ∧ (n.Token ≠ -1 → ∃ name, commandTokenMap.get? name = some n.Token) :=
  ⟨rfl,
    parsed_tree_nodes_well_formed commandTokenMap maxInterpreterRecursionDepth
      "random(time(unix), random(1,url()))".toList 0 _ commandTokenMap_no_literal_token rfl⟩

/-! ## The evaluator -/

theorem InterpretCmd_literal (w : World) (args : List EncodedCmd) (v : Str) :
    InterpretCmd w (EncodedCmd.mk (-1) args v) = (.returned v none, w) := by
  simp [InterpretCmd]

theorem InterpretCmd_random (w : World) (args : List EncodedCmd) (v : Str) :
    InterpretCmd w (EncodedCmd.mk TokenRandom args v) = handleRandomCommand w args := by
  have h : TokenRandom ≠ -1 := by decide
  simp [InterpretCmd, h]

theorem InterpretCmd_time (w : World) (args : List EncodedCmd) (v : Str) :
    InterpretCmd w (EncodedCmd.mk TokenTime args v) = handleTimeCommand w args := by
  have h1 : TokenTime ≠ -1 := by decide
  have h2 : TokenTime ≠ TokenRandom := by decide
  simp [InterpretCmd, h1, h2]

theorem InterpretCmd_url (w : World) (args : List EncodedCmd) (v : Str) :
    InterpretCmd w (EncodedCmd.mk TokenURL args v) = (.returned "*".toList none, w) := by
  have h1 : TokenURL ≠ -1 := by decide
  have h2 : TokenURL ≠ TokenRandom := by decide
  have h3 : TokenURL ≠ TokenTime := by decide
  simp [InterpretCmd, h1, h2, h3]

theorem InterpretCmd_unknown (w : World) (token : Int) (args : List EncodedCmd) (v : Str)
    (h1 : token ≠ -1) (h2 : token ≠ TokenRandom) (h3 : token ≠ TokenTime)
    (h4 : token ≠ TokenURL) :
    InterpretCmd w (EncodedCmd.mk token args v)
      = (.returned [] (some (.unknownCommandToken token)), w) := by
  simp [InterpretCmd, h1, h2, h3, h4]

theorem handleRandomCommand_count (w : World) (args : List EncodedCmd)
    (h : args.length ≠ 2) :
    handleRandomCommand w args = (.returned [] (some (.randomArgCount args.length)), w) := by
  match args, h with
  | [], _ => simp [handleRandomCommand]
  | [_], _ => simp [handleRandomCommand]
  | [_, _], h => exact absurd rfl h
  | _ :: _ :: _ :: _, _ => simp [handleRandomCommand]

theorem handleRandomCommand_literals (w : World) (sa sb : Str) (a b : Int)
    (ha : Atoi sa = some a) (hb : Atoi sb = some b) :
    handleRandomCommand w [EncodedCmd.mk (-1) [] sa, EncodedCmd.mk (-1) [] sb]
      = if a ≥ b then (.returned [] (some .minNotLessThanMax), w)
        else if wrapInt64 (wrapInt64 (b - a) + 1) ≤ 0 then (.panicked, w)
        else
          match w.randInt (wrapInt64 (wrapInt64 (b - a) + 1)) with
          | (none, w3) => (.returned [] (some .randomSource), w3)
          | (some n, w3) => (.returned (Itoa (wrapInt64 (n + a))) none, w3) := by
  simp only [handleRandomCommand, InterpretCmd_literal, ha, hb]

theorem wrapInt64_of_range (x : Int) (h1 : -(2 ^ 63) ≤ x) (h2 : x < 2 ^ 63) :
    wrapInt64 x = x := by
  unfold wrapInt64
  omega

theorem signedValue_range (negative : Bool) (ds : Str) (v : Int)
    (h : signedValue negative ds = some v) : -(2 ^ 63) ≤ v ∧ v ≤ 2 ^ 63 - 1 := by
  unfold signedValue at h
  cases hd : digitsValue ds with
  | none => rw [hd] at h; cases h
  | some m =>
    rw [hd] at h
    simp only [] at h
    by_cases hr : -(2 ^ 63) ≤ (if negative = true then -(m : Int) else (m : Int))
        ∧ (if negative = true then -(m : Int) else (m : Int)) ≤ 2 ^ 63 - 1
    · rw [if_pos hr] at h
      cases h
      exact hr
    · rw [if_neg hr] at h
      cases h

theorem Atoi_range (s : Str) (v : Int) (h : Atoi s = some v) :
    -(2 ^ 63) ≤ v ∧ v ≤ 2 ^ 63 - 1 := by
  unfold Atoi at h
  split at h <;> exact signedValue_range _ _ v h

/-- For literal arguments `min < max` whose distance fits (`max - min + 1` is a value of
`int`), `random` returns the decimal rendering of `min + raw mod (max - min + 1)`, a value
between `min` and `max`, `raw` being what the random source delivers. -/
theorem handleRandomCommand_in_range (w : World) (sa sb : Str) (a b : Int) (raw : Nat)
    (ha : Atoi sa = some a) (hb : Atoi sb = some b) (hlt : a < b)
    (hfit : b - a + 1 < 2 ^ 63) (hraw : w.draws 0 = some raw) :
    (handleRandomCommand w [EncodedCmd.mk (-1) [] sa, EncodedCmd.mk (-1) [] sb]).1
        = .returned (Itoa (a + (raw : Int) % (b - a + 1))) none
    ∧ a ≤ a + (raw : Int) % (b - a + 1) ∧ a + (raw : Int) % (b - a + 1) ≤ b := by
  have hra := Atoi_range sa a ha
  have hrb := Atoi_range sb b hb
  have hpos : 0 < b - a + 1 := by omega
  have hm0 : 0 ≤ (raw : Int) % (b - a + 1) := Int.emod_nonneg _ (by omega)
  have hm1 : (raw : Int) % (b - a + 1) < b - a + 1 := Int.emod_lt_of_pos _ hpos
  have e1 : wrapInt64 (b - a) = b - a := wrapInt64_of_range _ (by omega) (by omega)
  have e2 : wrapInt64 (b - a + 1) = b - a + 1 := wrapInt64_of_range _ (by omega) (by omega)
  have e3 : wrapInt64 ((raw : Int) % (b - a + 1) + a) = a + (raw : Int) % (b - a + 1) := by
    rw [wrapInt64_of_range _ (by omega) (by omega)]; omega
  refine ⟨?_, by omega, by omega⟩
  rw [handleRandomCommand_literals w sa sb a b ha hb, if_neg (by omega), e1, e2,
    if_neg (by omega)]
  simp only [World.randInt, hraw, Option.map_some', Int.ofNat_eq_coe]
  rw [e3]

/-- C15 (the code at the failing input): `random(0,9223372036854775807)` parses to a
`random` node with the two literal arguments, `min < max` are both values of `int`, and its
evaluation panics, whatever the random source holds: `max - min + 1` wraps around to
`-9223372036854775808` and `rand.Int` panics on a bound that is not positive; the same
happens on `random(-9223372036854775808,9223372036854775807)`. -/
theorem random_wide_range_panics :
    ParseCmd commandTokenMap maxInterpreterRecursionDepth
        "random(0,9223372036854775807)".toList 0
      = .ok (EncodedCmd.mk TokenRandom
          [EncodedCmd.mk (-1) [] "0".toList,
           EncodedCmd.mk (-1) [] "9223372036854775807".toList] [])
    ∧ Atoi "0".toList = some 0
    ∧ Atoi "9223372036854775807".toList = some 9223372036854775807
    ∧ wrapInt64 (wrapInt64 (9223372036854775807 - 0) + 1) = -9223372036854775808
    ∧ (∀ w : World,
        InterpretCmd w (EncodedCmd.mk TokenRandom
            [EncodedCmd.mk (-1) [] "0".toList,
             EncodedCmd.mk (-1) [] "9223372036854775807".toList] [])
          = (.panicked, w))
    ∧ (∀ w : World,
        InterpretCmd w (EncodedCmd.mk TokenRandom
            [EncodedCmd.mk (-1) [] "-9223372036854775808".toList,
             EncodedCmd.mk (-1) [] "9223372036854775807".toList] [])
          = (.panicked, w)) := by
  refine ⟨rfl, rfl, rfl, by decide, ?_, ?_⟩
  · intro w
    rw [InterpretCmd_random,
      handleRandomCommand_literals w "0".toList "9223372036854775807".toList
        0 9223372036854775807 rfl rfl]
    rfl
  · intro w
    rw [InterpretCmd_random,
      handleRandomCommand_literals w "-9223372036854775808".toList
        "9223372036854775807".toList (-9223372036854775808) 9223372036854775807 rfl rfl]
    rfl

/-- C16: for decimal literal arguments whose values satisfy `min ≥ max` (equality
included), evaluating the `random` node fails: it returns the empty string with the error
"min argument must be less than max argument", and draws nothing from the random source. -/
theorem random_rejects_min_not_below_max (w : World) (sa sb v : Str) (a b : Int)
    (ha : Atoi sa = some a) (hb : Atoi sb = some b) (hge : a ≥ b) :
    InterpretCmd w (EncodedCmd.mk TokenRandom
        [EncodedCmd.mk (-1) [] sa, EncodedCmd.mk (-1) [] sb] v)
      = (.returned [] (some .minNotLessThanMax), w) := by
  rw [InterpretCmd_random, handleRandomCommand_literals w sa sb a b ha hb, if_pos hge]

/-- C16 at the parse of `random(10,1)` and at `random(5,5)`. -/
theorem random_rejects_examples :
    ParseCmd commandTokenMap maxInterpreterRecursionDepth "random(10,1)".toList 0
      = .ok (EncodedCmd.mk TokenRandom
          [EncodedCmd.mk (-1) [] "10".toList, EncodedCmd.mk (-1) [] "1".toList] [])
    ∧ InterpretCmd (constWorld 0 0) (EncodedCmd.mk TokenRandom
          [EncodedCmd.mk (-1) [] "10".toList, EncodedCmd.mk (-1) [] "1".toList] [])
        = (.returned [] (some .minNotLessThanMax), constWorld 0 0)
    ∧ InterpretCmd (constWorld 0 0) (EncodedCmd.mk TokenRandom
          [EncodedCmd.mk (-1) [] "5".toList, EncodedCmd.mk (-1) [] "5".toList] [])
        = (.returned [] (some .minNotLessThanMax), constWorld 0 0) :=
  ⟨rfl,
    random_rejects_min_not_below_max (constWorld 0 0) "10".toList "1".toList [] 10 1
      rfl rfl (by decide),
    random_rejects_min_not_below_max (constWorld 0 0) "5".toList "5".toList [] 5 5
      rfl rfl (by decide)⟩

/-- C17: a `random` node whose argument list does not have exactly 2 elements fails with
the argument-count error, carrying the count, the empty string as value, and the world
untouched: no argument is evaluated, whatever the arguments are. -/
theorem random_rejects_wrong_arity (w : World) (args : List EncodedCmd) (v : Str)
    (h : args.length ≠ 2) :
    InterpretCmd w (EncodedCmd.mk TokenRandom args v)
      = (.returned [] (some (.randomArgCount args.length)), w) := by
  rw [InterpretCmd_random, handleRandomCommand_count w args h]

/-- C17 at the parse of `random(1)`, and at three arguments the first of which would panic
if it were evaluated. -/
theorem random_rejects_wrong_arity_examples :
    ParseCmd commandTokenMap maxInterpreterRecursionDepth "random(1)".toList 0
      = .ok (EncodedCmd.mk TokenRandom [EncodedCmd.mk (-1) [] "1".toList] [])
    ∧ InterpretCmd (constWorld 0 0)
          (EncodedCmd.mk TokenRandom [EncodedCmd.mk (-1) [] "1".toList] [])
        = (.returned [] (some (.randomArgCount 1)), constWorld 0 0)
    ∧ InterpretCmd (constWorld 0 0)
          (EncodedCmd.mk TokenRandom
            [EncodedCmd.mk TokenRandom
               [EncodedCmd.mk (-1) [] "0".toList,
                EncodedCmd.mk (-1) [] "9223372036854775807".toList] [],
             EncodedCmd.mk (-1) [] "1".toList, EncodedCmd.mk (-1) [] "2".toList] [])
        = (.returned [] (some (.randomArgCount 3)), constWorld 0 0) :=
  ⟨rfl,
    random_rejects_wrong_arity (constWorld 0 0) [EncodedCmd.mk (-1) [] "1".toList] []
      (by decide),
    random_rejects_wrong_arity (constWorld 0 0) _ [] (by decide)⟩

/-- C18: a node whose `Token` is the `url` token evaluates to exactly `*`, with no error
and the world untouched, whatever its `Args` and its `ArgValue`: the arguments are not
evaluated, so arguments that would fail or panic change nothing. -/
theorem url_returns_wildcard (w : World) (args : List EncodedCmd) (v : Str) :
    InterpretCmd w (EncodedCmd.mk TokenURL args v) = (.returned "*".toList none, w) :=
  InterpretCmd_url w args v

/-- C20: a `time` node with no argument returns the rendering of the current time (the
next reading of the clock, a non-empty string) together with the argument-count error, both
at once. -/
theorem time_without_arguments (w : World) (v : Str) (hclock : (w.clock 0).text ≠ []) :
    ∃ value, InterpretCmd w (EncodedCmd.mk TokenTime [] v)
        = (.returned value (some (.timeArgCount 0)), w.now.2)
      ∧ value = (w.clock 0).text ∧ value ≠ [] := by
  refine ⟨(w.clock 0).text, ?_, rfl, hclock⟩
  rw [InterpretCmd_time]
  simp [handleTimeCommand, World.now]

/-- C20 in a world whose clock renders as `2009-11-10 23:00:00 +0000 UTC`. -/
theorem time_without_arguments_example :
    ∃ value, InterpretCmd (constWorld 0 0) (EncodedCmd.mk TokenTime [] [])
        = (.returned value (some (.timeArgCount 0)), (constWorld 0 0).now.2)
      ∧ value = ((constWorld 0 0).clock 0).text ∧ value ≠ [] :=
  time_without_arguments (constWorld 0 0) [] (by decide)

/-! ## No unknown token after a parse -/

theorem unknownToken_returned (v v' : Str) (e : Option ExprError) :
    (Outcome.returned v e).unknownToken = (Outcome.returned v' e).unknownToken := rfl

mutual
/-- A tree all of whose nodes carry a dispatched token does not evaluate to the failure
"unknown command token". -/
theorem InterpretCmd_dispatched : ∀ (tree : EncodedCmd) (w : World),
    (∀ n ∈ tree.nodes, dispatched n.Token) → (InterpretCmd w tree).1.unknownToken = false
  | .mk token args v, w, h => by
    have hroot : dispatched token := h (EncodedCmd.mk token args v) (by simp [nodes_mk])
    have hargs : ∀ n ∈ nodesOfArgs args, dispatched n.Token := fun n hn =>
      h n (by rw [nodes_mk]; exact List.mem_cons_of_mem _ hn)
    rcases hroot with rfl | rfl | rfl | rfl
    · rw [InterpretCmd_literal]; rfl
    · rw [InterpretCmd_random]; exact handleRandomCommand_dispatched args w hargs
    · rw [InterpretCmd_time]; exact handleTimeCommand_dispatched args w hargs
    · rw [InterpretCmd_url]; rfl
theorem handleRandomCommand_dispatched : ∀ (args : List EncodedCmd) (w : World),
    (∀ n ∈ nodesOfArgs args, dispatched n.Token) →
    (handleRandomCommand w args).1.unknownToken = false
  | [], w, _ => by rw [handleRandomCommand_count w [] (by decide)]; rfl
  | [a], w, _ => by rw [handleRandomCommand_count w [a] (by simp)]; rfl
  | _ :: _ :: _ :: _, w, _ => by
    rw [handleRandomCommand_count w _ (by simp)]; rfl
  | [arg0, arg1], w, h => by
    have h0 : ∀ n ∈ arg0.nodes, dispatched n.Token := fun n hn =>
      h n ((mem_nodesOfArgs _ n).mpr ⟨arg0, by simp, hn⟩)
    have h1 : ∀ n ∈ arg1.nodes, dispatched n.Token := fun n hn =>
      h n ((mem_nodesOfArgs _ n).mpr ⟨arg1, by simp, hn⟩)
    have i0 := InterpretCmd_dispatched arg0 w h0
    simp only [handleRandomCommand]
    split
    · rfl
    · rename_i heq
      rw [heq] at i0
      exact i0
    · rename_i w1 heq
      have i1 := InterpretCmd_dispatched arg1 w1 h1
      split
      · rfl
      · rename_i heq1
        rw [heq1] at i1
        exact i1
      · split
        · rfl
        · split
          · rfl
          · split
            · rfl
            · split
              · rfl
              · split <;> rfl
theorem handleTimeCommand_dispatched : ∀ (args : List EncodedCmd) (w : World),
    (∀ n ∈ nodesOfArgs args, dispatched n.Token) →
    (handleTimeCommand w args).1.unknownToken = false
  | [], w, _ => by simp [handleTimeCommand, Outcome.unknownToken, Outcome.err]
  | arg0 :: _, w, h => by
    have h0 : ∀ n ∈ arg0.nodes, dispatched n.Token := fun n hn =>
      h n ((mem_nodesOfArgs _ n).mpr ⟨arg0, by simp, hn⟩)
    have i0 := InterpretCmd_dispatched arg0 w h0
    simp only [handleTimeCommand]
    split
    · rfl
    · rename_i heq
      rw [heq] at i0
      exact i0
    · split
      · rfl
      · split
        · rfl
        · split
          · rfl
          · split
            · rfl
            · split <;> rfl
end

mutual
/-- The nodes of a node of a tree are nodes of the tree. -/
theorem nodes_subset : ∀ (tree n : EncodedCmd), n ∈ tree.nodes →
    ∀ m ∈ n.nodes, m ∈ tree.nodes
  | .mk token args v, n, hn, m, hm => by
    rw [nodes_mk] at hn ⊢
    rcases List.mem_cons.mp hn with rfl | hsub
    · rw [nodes_mk] at hm; exact hm
    · exact List.mem_cons_of_mem _ (nodesOfArgs_subset args n hsub m hm)
theorem nodesOfArgs_subset : ∀ (args : List EncodedCmd) (n : EncodedCmd),
    n ∈ nodesOfArgs args → ∀ m ∈ n.nodes, m ∈ nodesOfArgs args
  | [], n, hn, _, _ => by simp [nodesOfArgs] at hn
  | arg :: rest, n, hn, m, hm => by
    simp only [nodesOfArgs, List.mem_append] at hn ⊢
    rcases hn with h | h
    · exact Or.inl (nodes_subset arg n h m hm)
    · exact Or.inr (nodesOfArgs_subset rest n h m hm)
end

theorem ParseCmd_nodes_dispatched (tbl : GoMap Int) (maxDepth : Int) (s : Str) (depth : Int)
    (tree : EncodedCmd)
    (htbl : ∀ name token, tbl.get? name = some token →
      token = TokenRandom ∨ token = TokenTime ∨ token = TokenURL)
    (h : ParseCmd tbl maxDepth s depth = .ok tree) :
    ∀ n ∈ tree.nodes, dispatched n.Token :=
  ParseCmd_all_nodes tbl maxDepth (fun token _ => dispatched token) (Or.inl rfl)
    (fun name token _ hknown _ => Or.inr (htbl name token hknown)) _ s depth tree
    (Nat.le_refl _) h

/-- C19: after a successful `ParseCmd(s, 0)`, no node of the returned tree, the root or
any argument at any level, evaluates to the failure "unknown command token", in any world
(every token of the command table being a built-in token); and a node whose `Token` is
neither -1 nor a built-in token always evaluates to that failure. -/
theorem no_unknown_token_after_parse (tbl : GoMap Int) (maxDepth : Int) (s : Str)
    (tree : EncodedCmd)
    (htbl : ∀ name token, tbl.get? name = some token →
      token = TokenRandom ∨ token = TokenTime ∨ token = TokenURL)
    (h : ParseCmd tbl maxDepth s 0 = .ok tree) :
    (∀ n ∈ tree.nodes, ∀ w : World, (InterpretCmd w n).1.unknownToken = false)
    ∧ (∀ (w : World) (token : Int) (args : List EncodedCmd) (v : Str),
        token ≠ -1 → token ≠ TokenRandom → token ≠ TokenTime → token ≠ TokenURL →
        InterpretCmd w (EncodedCmd.mk token args v)
            = (.returned [] (some (.unknownCommandToken token)), w)
          ∧ (InterpretCmd w (EncodedCmd.mk token args v)).1.unknownToken = true) := by
  have hall := ParseCmd_nodes_dispatched tbl maxDepth s 0 tree htbl h
  constructor
  · intro n hn w
    exact InterpretCmd_dispatched n w (fun m hm => hall m (nodes_subset tree n hn m hm))
  · intro w token args v h1 h2 h3 h4
    have e := InterpretCmd_unknown w token args v h1 h2 h3 h4
    exact ⟨e, by rw [e]; rfl⟩

/-- C19 at the parse of `random(time(unix), random(1,url()))`. -/
theorem no_unknown_token_example :
    (∀ n ∈ (EncodedCmd.mk TokenRandom
          [EncodedCmd.mk TokenTime [EncodedCmd.mk (-1) [] "unix".toList] "time(unix)".toList,
           EncodedCmd.mk TokenRandom
             [EncodedCmd.mk (-1) [] "1".toList,
              EncodedCmd.mk TokenURL [EncodedCmd.mk (-1) [] []] "url()".toList]
             "random(1,url())".toList] []).nodes,
        ∀ w : World, (InterpretCmd w n).1.unknownToken = false)
    ∧ (∀ (w : World) (token : Int) (args : List EncodedCmd) (v : Str),
        token ≠ -1 → token ≠ TokenRandom → token ≠ TokenTime → token ≠ TokenURL →
        InterpretCmd w (EncodedCmd.mk token args v)
            = (.returned [] (some (.unknownCommandToken token)), w)
          ∧ (InterpretCmd w (EncodedCmd.mk token args v)).1.unknownToken = true) :=
  no_unknown_token_after_parse commandTokenMap maxInterpreterRecursionDepth
    "random(time(unix), random(1,url()))".toList _ commandTokenMap_tokens rfl

/-! ## The recursion bound -/

theorem ParseCmd_too_deep (tbl : GoMap Int) (maxDepth : Int) (command : Str) (depth : Int)
    (hd : depth > maxDepth) :
    ParseCmd tbl maxDepth command depth = .error .exceededMaxRecursionDepth := by
  rw [ParseCmd_eq, if_pos hd]

theorem parseArgs_error_of_mem (tbl : GoMap Int) (parse : Str → Except ExprError EncodedCmd)
    (params : List Str) (acc : List EncodedCmd) (param : Str) (e : ExprError)
    (hmem : param ∈ params) (hc : isCommand tbl (TrimSpace param) = true)
    (he : parse (TrimSpace param) = .error e) :
    ∃ e', parseArgs tbl parse params acc = .error e' := by
  induction params generalizing acc with
  | nil => simp at hmem
  | cons p rest ih =>
    simp only [parseArgs]
    by_cases hcp : isCommand tbl (TrimSpace p) = true
    · rw [if_pos hcp]
      cases hp : parse (TrimSpace p) with
      | error e0 => exact ⟨e0, rfl⟩
      | ok nested =>
        simp only []
        rcases List.mem_cons.mp hmem with rfl | hrest
        · rw [he] at hp; cases hp
        · exact ih _ hrest
    · rw [if_neg hcp]
      rcases List.mem_cons.mp hmem with rfl | hrest
      · exact absurd hc hcp
      · exact ih _ hrest

theorem parseArgs_error_inv (tbl : GoMap Int) (parse : Str → Except ExprError EncodedCmd)
    (params : List Str) (acc : List EncodedCmd) (e : ExprError)
    (h : parseArgs tbl parse params acc = .error e) :
    ∃ p ∈ params, isCommand tbl (TrimSpace p) = true ∧ parse (TrimSpace p) = .error e := by
  induction params generalizing acc with
  | nil => simp only [parseArgs] at h; cases h
  | cons p rest ih =>
    simp only [parseArgs] at h
    by_cases hcp : isCommand tbl (TrimSpace p) = true
    · rw [if_pos hcp] at h
      cases hp : parse (TrimSpace p) with
      | error e0 =>
        rw [hp] at h
        cases h
        exact ⟨p, List.mem_cons_self _ _, hcp, hp⟩
      | ok nested =>
        rw [hp] at h
        obtain ⟨q, hq, hres⟩ := ih _ h
        exact ⟨q, List.mem_cons_of_mem _ hq, hres⟩
    · rw [if_neg hcp] at h
      obtain ⟨q, hq, hres⟩ := ih _ h
      exact ⟨q, List.mem_cons_of_mem _ hq, hres⟩

theorem WellFormedCalls_nested (tbl : GoMap Int) (command : Str) (depth : Int)
    (params : List Str) (param : Str) (hwf : WellFormedCalls tbl command depth)
    (hshape : hasCallShape tbl (TrimSpace command))
    (hp : parseParams (paramStringOf (TrimSpace command)) = .ok params)
    (hmem : param ∈ params) (hc : isCommand tbl (TrimSpace param) = true) :
    WellFormedCalls tbl (TrimSpace param) (depth + 1) :=
  fun inner innerDepth hinv hs =>
    hwf inner innerDepth (Invokes.nested command depth params param inner innerDepth
      hshape hp hmem hc hinv) hs

/-- A well-formed input either parses or fails on the recursion bound. -/
theorem ParseCmd_ok_or_exceeded (tbl : GoMap Int) (maxDepth : Int) (levels : Nat) :
    ∀ (command : Str) (depth : Int), (maxDepth + 1 - depth).toNat ≤ levels →
      WellFormedCalls tbl command depth →
      (∃ tree, ParseCmd tbl maxDepth command depth = .ok tree)
        ∨ ParseCmd tbl maxDepth command depth = .error .exceededMaxRecursionDepth := by
  induction levels with
  | zero =>
    intro command depth hle _
    exact Or.inr (ParseCmd_too_deep tbl maxDepth command depth (by omega))
  | succ levels ih =>
    intro command depth hle hwf
    by_cases hd : depth > maxDepth
    · exact Or.inr (ParseCmd_too_deep tbl maxDepth command depth hd)
    · rw [ParseCmd_eq, if_neg hd]
      by_cases hshape : isCommand tbl (TrimSpace command) = true ∧ '(' ∈ TrimSpace command
          ∧ (TrimSpace command).getLast? = some ')'
      · rw [if_pos hshape]
        obtain ⟨params, hp⟩ := hwf command depth (Invokes.self command depth) hshape
        rw [hp]
        simp only []
        cases ha : parseArgs tbl (fun p => ParseCmd tbl maxDepth p (depth + 1)) params [] with
        | ok encodedArgs => exact Or.inl ⟨_, rfl⟩
        | error e =>
          right
          obtain ⟨p, hpm, hc, hpe⟩ := parseArgs_error_inv tbl _ params [] e ha
          have hwf' := WellFormedCalls_nested tbl command depth params p hwf hshape hp hpm hc
          rcases ih (TrimSpace p) (depth + 1) (by omega) hwf' with ⟨t, ht⟩ | hex
          · rw [ht] at hpe; cases hpe
          · rw [hex] at hpe
            cases hpe
            rfl
      · rw [if_neg hshape]
        exact Or.inl ⟨_, rfl⟩

/-- A call above the bound makes the whole parse fail. -/
theorem ParseCmd_fails_of_invokes (tbl : GoMap Int) (maxDepth : Int) (command : Str)
    (depth : Int) (inner : Str) (innerDepth : Int)
    (hinv : Invokes tbl command depth inner innerDepth) (hdeep : innerDepth > maxDepth) :
    ∃ e, ParseCmd tbl maxDepth command depth = .error e := by
  induction hinv with
  | self command depth => exact ⟨_, ParseCmd_too_deep tbl maxDepth command depth hdeep⟩
  | nested command depth params param inner innerDepth hshape hp hmem hc _ ih =>
    by_cases hd : depth > maxDepth
    · exact ⟨_, ParseCmd_too_deep tbl maxDepth command depth hd⟩
    · obtain ⟨e, he⟩ := ih hdeep
      obtain ⟨e', he'⟩ := parseArgs_error_of_mem tbl
        (fun p => ParseCmd tbl maxDepth p (depth + 1)) params [] param e hmem hc he
      refine ⟨e', ?_⟩
      have hshape' : isCommand tbl (TrimSpace command) = true ∧ '(' ∈ TrimSpace command
          ∧ (TrimSpace command).getLast? = some ')' := hshape
      rw [ParseCmd_eq, if_neg hd, if_pos hshape', hp]
      simp only []
      rw [he']

/-- A well-formed input whose calls all stay within the bound parses. -/
theorem ParseCmd_ok_of_bounded (tbl : GoMap Int) (maxDepth : Int) (command : Str)
    (depth : Int) (hwf : WellFormedCalls tbl command depth)
    (hb : ∀ inner innerDepth, Invokes tbl command depth inner innerDepth →
      innerDepth ≤ maxDepth) :
    ∃ tree, ParseCmd tbl maxDepth command depth = .ok tree := by
  have key : ∀ (levels : Nat) (command : Str) (depth : Int),
      (maxDepth + 1 - depth).toNat ≤ levels → WellFormedCalls tbl command depth →
      (∀ inner innerDepth, Invokes tbl command depth inner innerDepth →
        innerDepth ≤ maxDepth) →
      ∃ tree, ParseCmd tbl maxDepth command depth = .ok tree := by
    intro levels
    induction levels with
    | zero =>
      intro command depth hle _ hb
      have := hb command depth (Invokes.self command depth)
      omega
    | succ levels ih =>
      intro command depth hle hwf hb
      have hd := hb command depth (Invokes.self command depth)
      rw [ParseCmd_eq, if_neg (by omega)]
      by_cases hshape : isCommand tbl (TrimSpace command) = true ∧ '(' ∈ TrimSpace command
          ∧ (TrimSpace command).getLast? = some ')'
      · rw [if_pos hshape]
        obtain ⟨params, hp⟩ := hwf command depth (Invokes.self command depth) hshape
        rw [hp]
        simp only []
        cases ha : parseArgs tbl (fun p => ParseCmd tbl maxDepth p (depth + 1)) params [] with
        | ok encodedArgs => exact ⟨_, rfl⟩
        | error e =>
          obtain ⟨p, hpm, hc, hpe⟩ := parseArgs_error_inv tbl _ params [] e ha
          have hwf' := WellFormedCalls_nested tbl command depth params p hwf hshape hp hpm hc
          obtain ⟨t, ht⟩ := ih (TrimSpace p) (depth + 1) (by omega) hwf'
            (fun inner innerDepth hinv => hb inner innerDepth
              (Invokes.nested command depth params p inner innerDepth hshape hp hpm hc hinv))
          rw [ht] at hpe
          cases hpe
      · rw [if_neg hshape]
        exact ⟨_, rfl⟩
  exact key _ command depth (Nat.le_refl _) hwf hb

theorem Invokes_inv (tbl : GoMap Int) (command : Str) (depth : Int) (inner : Str)
    (innerDepth : Int) (h : Invokes tbl command depth inner innerDepth) :
    (inner = command ∧ innerDepth = depth)
    ∨ (hasCallShape tbl (TrimSpace command)
        ∧ ∃ params param, parseParams (paramStringOf (TrimSpace command)) = .ok params
            ∧ param ∈ params ∧ isCommand tbl (TrimSpace param) = true
            ∧ Invokes tbl (TrimSpace param) (depth + 1) inner innerDepth) := by
  cases h with
  | self => exact Or.inl ⟨rfl, rfl⟩
  | nested _ _ params param _ _ hshape hp hmem hc hinv =>
    exact Or.inr ⟨hshape, params, param, hp, hmem, hc, hinv⟩

/-- The only call that parsing `url(1)` leads to is the call itself. -/
theorem invokes_one_call (depth : Int) (inner : Str) (innerDepth : Int)
    (h : Invokes commandTokenMap (nestedCalls 1) depth inner innerDepth) :
    inner = nestedCalls 1 ∧ innerDepth = depth := by
  rcases Invokes_inv _ _ _ _ _ h with hself | ⟨_, params, param, hp, hmem, hc, _⟩
  · exact hself
  · have e : parseParams (paramStringOf (TrimSpace (nestedCalls 1))) = .ok ["1".toList] := rfl
    rw [e] at hp
    cases hp
    rw [List.mem_singleton] at hmem
    subst hmem
    have hfalse : isCommand commandTokenMap (TrimSpace "1".toList) = false := by decide
    rw [hfalse] at hc
    cases hc

/-- The calls that parsing `url(url(1))` leads to: itself, and `url(1)` one level deeper. -/
theorem invokes_two_calls (depth : Int) (inner : Str) (innerDepth : Int)
    (h : Invokes commandTokenMap (nestedCalls 2) depth inner innerDepth) :
    (inner = nestedCalls 2 ∧ innerDepth = depth)
    ∨ (inner = nestedCalls 1 ∧ innerDepth = depth + 1) := by
  rcases Invokes_inv _ _ _ _ _ h with hself | ⟨_, params, param, hp, hmem, _, hinv⟩
  · exact Or.inl hself
  · have e : parseParams (paramStringOf (TrimSpace (nestedCalls 2)))
        = .ok [nestedCalls 1] := rfl
    rw [e] at hp
    cases hp
    rw [List.mem_singleton] at hmem
    subst hmem
    have e2 : TrimSpace (nestedCalls 1) = nestedCalls 1 := by decide
    rw [e2] at hinv
    exact Or.inr (invokes_one_call _ _ _ hinv)

theorem wellFormed_one_call (depth : Int) :
    WellFormedCalls commandTokenMap (nestedCalls 1) depth := by
  intro inner innerDepth hinv _
  obtain ⟨rfl, _⟩ := invokes_one_call depth inner innerDepth hinv
  exact ⟨_, rfl⟩

theorem wellFormed_two_calls (depth : Int) :
    WellFormedCalls commandTokenMap (nestedCalls 2) depth := by
  intro inner innerDepth hinv _
  rcases invokes_two_calls depth inner innerDepth hinv with ⟨rfl, _⟩ | ⟨rfl, _⟩
  · exact ⟨_, rfl⟩
  · exact ⟨_, rfl⟩

theorem isCommand_of_hasCallShape (tbl : GoMap Int) (command : Str)
    (h : hasCallShape tbl command) : isCommand tbl command = true :=
  h.1

/-- A nested command as the spec words it is one of the calls of `ParseCmd`. -/
theorem Invokes_of_NestedCommand (tbl : GoMap Int) (command : Str) (depth : Int)
    (inner : Str) (innerDepth : Int) (h : NestedCommand tbl command depth inner innerDepth) :
    Invokes tbl command depth inner innerDepth := by
  induction h with
  | self command depth _ => exact Invokes.self command depth
  | nested command depth params param inner innerDepth hshape hp hmem hs _ ih =>
    exact Invokes.nested command depth params param inner innerDepth hshape hp hmem hs.1 ih

theorem Invokes_depth_le (tbl : GoMap Int) (command : Str) (depth : Int) (inner : Str)
    (innerDepth : Int) (h : Invokes tbl command depth inner innerDepth) :
    depth ≤ innerDepth := by
  induction h with
  | self command depth => exact le_refl _
  | nested command depth params param inner innerDepth _ _ _ _ _ ih => omega

theorem Invokes_same_depth (tbl : GoMap Int) (command : Str) (depth : Int) (inner : Str)
    (innerDepth : Int) (h : Invokes tbl command depth inner innerDepth)
    (hd : innerDepth = depth) : inner = command := by
  cases h with
  | self => rfl
  | nested _ _ params param _ _ _ _ _ _ hinv =>
    have := Invokes_depth_le tbl _ _ _ _ hinv
    omega

/-- When no argument is a bare command name, the calls of `ParseCmd` below the input
itself are the nested commands as the spec words them. -/
theorem NestedCommand_of_Invokes (tbl : GoMap Int) (command : Str) (depth : Int)
    (inner : Str) (innerDepth : Int) (h : Invokes tbl command depth inner innerDepth) :
    NoBareCommandName tbl command depth → innerDepth ≠ depth →
    NestedCommand tbl command depth inner innerDepth := by
  induction h with
  | self command depth => intro _ hne; exact absurd rfl hne
  | nested command depth params param inner innerDepth hshape hp hmem hc hinv ih =>
    intro hbare _
    have hparam : hasCallShape tbl (TrimSpace (TrimSpace param)) :=
      hbare (TrimSpace param) (depth + 1)
        (Invokes.nested command depth params param _ _ hshape hp hmem hc (Invokes.self _ _))
        (by omega)
    have hparam' : hasCallShape tbl (TrimSpace param) := by
      rw [TrimSpace_idempotent] at hparam
      exact hparam
    have hbare' : NoBareCommandName tbl (TrimSpace param) (depth + 1) := by
      intro inner' d' hinv' _
      have hle := Invokes_depth_le tbl _ _ _ _ hinv'
      exact hbare inner' d'
        (Invokes.nested command depth params param _ _ hshape hp hmem hc hinv') (by omega)
    by_cases hd : innerDepth = depth + 1
    · have e := Invokes_same_depth tbl _ _ _ _ hinv hd
      subst e
      subst hd
      exact NestedCommand.nested command depth params param _ _ hshape hp hmem hparam'
        (NestedCommand.self _ _ hparam)
    · exact NestedCommand.nested command depth params param _ _ hshape hp hmem hparam'
        (ih hbare' hd)

theorem NestedCommand_inv (tbl : GoMap Int) (command : Str) (depth : Int) (inner : Str)
    (innerDepth : Int) (h : NestedCommand tbl command depth inner innerDepth) :
    (inner = command ∧ innerDepth = depth)
    ∨ (∃ params param, parseParams (paramStringOf (TrimSpace command)) = .ok params
        ∧ param ∈ params ∧ hasCallShape tbl (TrimSpace param)) := by
  cases h with
  | self => exact Or.inl ⟨rfl, rfl⟩
  | nested _ _ params param _ _ _ hp hmem hs _ => exact Or.inr ⟨params, param, hp, hmem, hs⟩

/-- The only nested command of `random(url,1)` is the command itself: neither `url` nor
`1` passes the identifier and parenthesis test. -/
theorem nestedCommand_bareNameCall (depth : Int) (inner : Str) (innerDepth : Int)
    (h : NestedCommand commandTokenMap bareNameCall depth inner innerDepth) :
    inner = bareNameCall ∧ innerDepth = depth := by
  rcases NestedCommand_inv _ _ _ _ _ h with hself | ⟨params, param, hp, hmem, hs⟩
  · exact hself
  · have e : parseParams (paramStringOf (TrimSpace bareNameCall))
        = .ok ["url".toList, "1".toList] := rfl
    rw [e] at hp
    cases hp
    have hparen : '(' ∈ TrimSpace param := hs.2.1
    rcases List.mem_cons.mp hmem with rfl | hmem
    · have hno : ¬ '(' ∈ TrimSpace "url".toList := by decide
      exact absurd hparen hno
    · rw [List.mem_singleton] at hmem
      subst hmem
      have hno : ¬ '(' ∈ TrimSpace "1".toList := by decide
      exact absurd hparen hno

/-- C12 (as stated, refuted): `random(url,1)` is well formed and its deepest nested command,
the command itself, is parsed at exactly the maximum depth when `ParseCmd` is called at
depth 10; yet the parse fails with the recursion error, because `ParseCmd` is called at
depth 11 for the argument `url`, a bare command name. One level up the same input
parses, and `url` is a literal node there, not a command. -/
theorem bare_command_name_exceeds_bound :
    ParseCmd commandTokenMap maxInterpreterRecursionDepth bareNameCall 10
        = .error .exceededMaxRecursionDepth
    ∧ WellFormedCommands commandTokenMap bareNameCall 10
    ∧ NestedCommand commandTokenMap bareNameCall 10 bareNameCall 10
    ∧ (∀ inner innerDepth, NestedCommand commandTokenMap bareNameCall 10 inner innerDepth →
        innerDepth = maxInterpreterRecursionDepth)
    ∧ ParseCmd commandTokenMap maxInterpreterRecursionDepth bareNameCall 9
        = .ok (EncodedCmd.mk TokenRandom
            [EncodedCmd.mk (-1) [] "url".toList, EncodedCmd.mk (-1) [] "1".toList] []) := by
  refine ⟨rfl, ?_, NestedCommand.self _ _ ⟨by decide, by decide, by decide⟩, ?_, rfl⟩
  · intro inner innerDepth h
    obtain ⟨rfl, _⟩ := nestedCommand_bareNameCall 10 inner innerDepth h
    exact ⟨_, rfl⟩
  · intro inner innerDepth h
    obtain ⟨_, hd⟩ := nestedCommand_bareNameCall 10 inner innerDepth h
    rw [hd]
    rfl

/-- C12 (amended): `ParseCmd` called at a depth above the maximum fails, on every command
string. Parsing a call-shaped command calls `ParseCmd` at the next depth for every
parameter whose leading identifier is a known command name, whether or not the parameter
has a parameter list of its own: a well-formed input (balanced parameter text in every
call) that leads to such a call above the maximum depth fails as a whole with the recursion
error, no tree being returned, in particular when one of its nested commands is above the
maximum; a well-formed input all of whose calls are at depths up to the maximum, the
maximum included, parses, and so does a well-formed input whose nested commands are at
depths up to the maximum when it is itself parsed at a depth up to the maximum and no
argument is a bare command name. With the maximum 10 and from depth 0, eleven nested calls
(the innermost parsed at depth 10) parse and twelve fail. -/
theorem recursion_bound_fails_whole_parse (tbl : GoMap Int) (maxDepth : Int) :
    (∀ command depth, depth > maxDepth →
        ParseCmd tbl maxDepth command depth = .error .exceededMaxRecursionDepth)
    ∧ (∀ command depth inner innerDepth, WellFormedCalls tbl command depth →
        Invokes tbl command depth inner innerDepth → innerDepth > maxDepth →
        ParseCmd tbl maxDepth command depth = .error .exceededMaxRecursionDepth)
    ∧ (∀ command depth, WellFormedCalls tbl command depth →
        (∀ inner innerDepth, Invokes tbl command depth inner innerDepth →
          innerDepth ≤ maxDepth) →
        ∃ tree, ParseCmd tbl maxDepth command depth = .ok tree)
    ∧ (ParseCmd commandTokenMap maxInterpreterRecursionDepth (nestedCalls 11) 0).isOk = true
    ∧ ParseCmd commandTokenMap maxInterpreterRecursionDepth (nestedCalls 12) 0
        = .error .exceededMaxRecursionDepth
    ∧ (∀ command depth inner innerDepth, WellFormedCalls tbl command depth →
        NestedCommand tbl command depth inner innerDepth → innerDepth > maxDepth →
        ParseCmd tbl maxDepth command depth = .error .exceededMaxRecursionDepth)
    ∧ (∀ command depth, depth ≤ maxDepth → NoBareCommandName tbl command depth →
        WellFormedCommands tbl command depth →
        (∀ inner innerDepth, NestedCommand tbl command depth inner innerDepth →
          innerDepth ≤ maxDepth) →
        ∃ tree, ParseCmd tbl maxDepth command depth = .ok tree) := by
  have hfail : ∀ command depth inner innerDepth, WellFormedCalls tbl command depth →
      Invokes tbl command depth inner innerDepth → innerDepth > maxDepth →
      ParseCmd tbl maxDepth command depth = .error .exceededMaxRecursionDepth := by
    intro command depth inner innerDepth hwf hinv hdeep
    obtain ⟨e, he⟩ := ParseCmd_fails_of_invokes tbl maxDepth command depth inner innerDepth
      hinv hdeep
    rcases ParseCmd_ok_or_exceeded tbl maxDepth _ command depth (Nat.le_refl _) hwf with
      ⟨t, ht⟩ | hex
    · rw [ht] at he; cases he
    · exact hex
  refine ⟨ParseCmd_too_deep tbl maxDepth, hfail, ParseCmd_ok_of_bounded tbl maxDepth, rfl, rfl,
    ?_, ?_⟩
  · intro command depth inner innerDepth hwf hn hdeep
    exact hfail command depth inner innerDepth hwf
      (Invokes_of_NestedCommand tbl command depth inner innerDepth hn) hdeep
  · intro command depth hd hbare hwf hb
    apply ParseCmd_ok_of_bounded tbl maxDepth command depth
    · intro inner innerDepth hinv hshape
      by_cases hsame : innerDepth = depth
      · have e := Invokes_same_depth tbl _ _ _ _ hinv hsame
        subst e
        subst hsame
        exact hwf _ _ (NestedCommand.self _ _ hshape)
      · exact hwf _ _ (NestedCommand_of_Invokes tbl _ _ _ _ hinv hbare hsame)
    · intro inner innerDepth hinv
      by_cases hsame : innerDepth = depth
      · omega
      · exact hb _ _ (NestedCommand_of_Invokes tbl _ _ _ _ hinv hbare hsame)

theorem noBareCommandName_two_calls (depth : Int) :
    NoBareCommandName commandTokenMap (nestedCalls 2) depth := by
  intro inner innerDepth hinv hne
  rcases invokes_two_calls depth inner innerDepth hinv with ⟨_, hd⟩ | ⟨rfl, _⟩
  · exact absurd hd hne
  · exact ⟨by decide, by decide, by decide⟩

theorem wellFormedCommands_two_calls (depth : Int) :
    WellFormedCommands commandTokenMap (nestedCalls 2) depth := by
  intro inner innerDepth hn
  have hinv := Invokes_of_NestedCommand _ _ _ _ _ hn
  rcases invokes_two_calls depth inner innerDepth hinv with ⟨rfl, _⟩ | ⟨rfl, _⟩
  · exact ⟨_, rfl⟩
  · exact ⟨_, rfl⟩

/-- C12 (amended) with the maximum 10: `url(1)` at depth 11 fails; `url(url(1))` at depth
10, whose inner call is at depth 11, fails as a whole; `url(1)` at depth 10 parses; and
`url(url(1))` at depth 9, whose nested command `url(1)` is parsed at exactly depth 10 and
which has no bare command name as argument, parses. -/
theorem recursion_bound_examples :
    ParseCmd commandTokenMap maxInterpreterRecursionDepth (nestedCalls 1) 11
        = .error .exceededMaxRecursionDepth
    ∧ ParseCmd commandTokenMap maxInterpreterRecursionDepth (nestedCalls 2) 10
        = .error .exceededMaxRecursionDepth
    ∧ (∃ tree, ParseCmd commandTokenMap maxInterpreterRecursionDepth (nestedCalls 1) 10
        = .ok tree)
    ∧ NestedCommand commandTokenMap (nestedCalls 2) 9 (nestedCalls 1) 10
    ∧ ∃ tree, ParseCmd commandTokenMap maxInterpreterRecursionDepth (nestedCalls 2) 9
        = .ok tree :=
  ⟨(recursion_bound_fails_whole_parse commandTokenMap maxInterpreterRecursionDepth).1
      (nestedCalls 1) 11 (by decide),
    (recursion_bound_fails_whole_parse commandTokenMap maxInterpreterRecursionDepth).2.1
      (nestedCalls 2) 10 (nestedCalls 1) 11 (wellFormed_two_calls 10)
      (Invokes.nested (nestedCalls 2) 10 [nestedCalls 1] (nestedCalls 1) (nestedCalls 1) 11
        ⟨by decide, by decide, by decide⟩ rfl (by simp) (by decide) (Invokes.self _ _))
      (by decide),
    (recursion_bound_fails_whole_parse commandTokenMap maxInterpreterRecursionDepth).2.2.1
      (nestedCalls 1) 10 (wellFormed_one_call 10)
      (fun inner innerDepth hinv => by
        obtain ⟨_, hd⟩ := invokes_one_call 10 inner innerDepth hinv
        rw [hd]; decide),
    NestedCommand.nested (nestedCalls 2) 9 [nestedCalls 1] (nestedCalls 1) (nestedCalls 1) 10
      ⟨by decide, by decide, by decide⟩ rfl (by simp) ⟨by decide, by decide, by decide⟩
      (NestedCommand.self _ _ ⟨by decide, by decide, by decide⟩),
    (recursion_bound_fails_whole_parse commandTokenMap
        maxInterpreterRecursionDepth).2.2.2.2.2.2
      (nestedCalls 2) 9 (by decide) (noBareCommandName_two_calls 9)
      (wellFormedCommands_two_calls 9)
      (fun inner innerDepth hn => by
        rcases invokes_two_calls 9 inner innerDepth
          (Invokes_of_NestedCommand _ _ _ _ _ hn) with ⟨_, hd⟩ | ⟨_, hd⟩
        · rw [hd]; decide
        · rw [hd]; decide)⟩

/-! ## Page-content patterns, header values -/

theorem GetAllPageContentPatterns_eq_map (d : DetectionRule)
    (mem : Heap PageContentSignature) :
    d.GetAllPageContentPatterns mem = (mem.read d.PageContentPatterns).map trimPattern := by
  unfold DetectionRule.GetAllPageContentPatterns
  rw [foldl_append_singleton (fun p : PageContentSignature =>
    ({ Key := TrimSpace p.Key, Signature := PrepareSlice p.Signature 1,
       Text := PrepareSlice p.Text 0, Confidence := p.Confidence } : PageContentSignature))]
  simp [trimPattern, PrepareSlice]

/-- C23: `GetAllPageContentPatterns` returns a collection of the same length and order as
the rule's `PageContentPatterns`, the entry at each position having the `Key` trimmed, every
`Signature` string trimmed, the `Confidence` unchanged and the `Text` sequence verbatim. -/
theorem page_content_patterns_normalized (d : DetectionRule)
    (mem : Heap PageContentSignature) :
    (d.GetAllPageContentPatterns mem).length = (mem.read d.PageContentPatterns).length
    ∧ d.GetAllPageContentPatterns mem
        = (mem.read d.PageContentPatterns).map (fun p =>
            { Key := TrimSpace p.Key, Signature := p.Signature.map TrimSpace, Text := p.Text,
              Confidence := p.Confidence })
    ∧ (patternRule (Slice.whole 0 1 1)).GetAllPageContentPatterns
          (Heap.ofArrays
            [[{ Key := " title ".toList, Signature := [" WordPress ".toList, "wp".toList],
                Text := [" Powered by ".toList], Confidence := 0.5 }]])
        = [{ Key := "title".toList, Signature := ["WordPress".toList, "wp".toList],
             Text := [" Powered by ".toList], Confidence := 0.5 }] := by
  have h := GetAllPageContentPatterns_eq_map d mem
  refine ⟨by rw [h, List.length_map], ?_, by rfl⟩
  rw [h]
  rfl

/-- C29 (the code at the failing input): with the index -1 the bound test `index >=
len(h.Value)` does not hold, the index expression `h.Value[-1]` is reached and it panics,
for every header field (here one with two values, and one with none); so does every
negative index. For an index at or above the length the method returns the empty string,
and inside the range the trimmed value. -/
theorem GetValue_negative_index_panics :
    nginxField.GetValue (-1) = none
    ∧ (∀ (h : HTTPHeaderField) (index : Int), index < 0 → h.GetValue index = none)
    ∧ (∀ (h : HTTPHeaderField) (index : Int), index ≥ (h.Value.length : Int) →
        h.GetValue index = some [])
    ∧ (∀ (h : HTTPHeaderField) (i : Nat) (hi : i < h.Value.length),
        h.GetValue (i : Int) = some (TrimSpace (h.Value.get ⟨i, hi⟩)))
    ∧ nginxField.GetValue 0 = some "nginx".toList
    ∧ nginxField.GetValue 2 = some [] := by
  refine ⟨by rfl, ?_, ?_, ?_, by rfl, by rfl⟩
  · intro h index hneg
    have h1 : ¬ index ≥ (h.Value.length : Int) := by omega
    have h2 : ¬ 0 ≤ index := by omega
    simp [HTTPHeaderField.GetValue, indexAt, h1, h2]
  · intro h index hge
    simp [HTTPHeaderField.GetValue, hge]
  · intro h i hi
    have h1 : ¬ (i : Int) ≥ (h.Value.length : Int) := by omega
    simp [HTTPHeaderField.GetValue, indexAt, h1, hi]

/-- C24: for a string whose leading identifier (of the trimmed text) is not a known command,
`ParseCmd(s, 0)` returns the literal node of the trimmed `s`, and `InterpretCmd` on it
succeeds with exactly the trimmed `s`, in every world and without touching the clock or the
random source (the recursion bound not being negative). -/
theorem parse_then_interpret_plain_text (tbl : GoMap Int) (maxDepth : Int) (w : World)
    (s : Str) (hmax : 0 ≤ maxDepth) (h : isCommand tbl (TrimSpace s) = false) :
    ∃ tree, ParseCmd tbl maxDepth s 0 = .ok tree
      ∧ InterpretCmd w tree = (.returned (TrimSpace s) none, w) := by
  refine ⟨EncodedCmd.mk (-1) [] (TrimSpace s),
    ParseCmd_of_not_call tbl maxDepth s 0 hmax (Or.inl h), ?_⟩
  exact InterpretCmd_literal w [] (TrimSpace s)

/-- C24 at the text `  hello, world (1) `. -/
theorem parse_then_interpret_example :
    ∃ tree, ParseCmd commandTokenMap maxInterpreterRecursionDepth
          "  hello, world (1) ".toList 0 = .ok tree
      ∧ InterpretCmd (constWorld 0 0) tree
          = (.returned (TrimSpace "  hello, world (1) ".toList) none, constWorld 0 0) :=
  parse_then_interpret_plain_text commandTokenMap maxInterpreterRecursionDepth
    (constWorld 0 0) "  hello, world (1) ".toList (by decide) (by decide)

/-! ## Key sets and sizes of the indices -/

theorem hasObject_iff (d : List DetectionRule) (k : Str) :
    hasObject d k = true ↔ ∃ rule ∈ d, ToLower rule.ObjectName = k := by
  simp [hasObject]

theorem indexFold_mem_keys_iff {α : Type} [Inhabited α] (f : DetectionRule → Slice)
    (mem : Heap α) (d : List DetectionRule) (k : Str) :
    k ∈ (d.foldl (indexStep f) { slices := [], mem := mem }).keys
      ↔ ∃ rule ∈ d, ToLower rule.ObjectName = k := by
  constructor
  · exact indexFold_keys f mem d k
  · intro hex
    unfold SliceMap.keys
    rw [GoMap.mem_keys_iff]
    have hlen := indexFold_slices_len f mem d k
    rw [(hasObject_iff d k).mpr hex, if_pos rfl] at hlen
    cases hs : (d.foldl (indexStep f) { slices := [], mem := mem }).slices.get? k with
    | none => rw [hs] at hlen; cases hlen
    | some s => rfl

theorem Heap.read_of_len_zero {α : Type} (mem : Heap α) (s : Slice) (h : s.len = 0) :
    mem.read s = [] := by
  apply List.eq_nil_of_length_eq_zero
  rw [Heap.length_read, h]

/-- A name all of whose rules hold no entry is bound to the empty collection. -/
theorem indexFold_empty {α : Type} [Inhabited α] (f : DetectionRule → Slice)
    (mem : Heap α) (d : List DetectionRule) (k : Str)
    (hex : ∃ rule ∈ d, ToLower rule.ObjectName = k)
    (hempty : ∀ rule ∈ d, ToLower rule.ObjectName = k → (f rule).len = 0) :
    (d.foldl (indexStep f) { slices := [], mem := mem }).get? k = some [] := by
  have hlen := indexFold_slices_len f mem d k
  rw [(hasObject_iff d k).mpr hex, if_pos rfl] at hlen
  have hnil : entriesOf (fun r => mem.read (f r)) d k = [] := by
    unfold entriesOf
    rw [List.flatten_eq_nil_iff]
    intro l hl
    obtain ⟨rule, hrule, rfl⟩ := List.mem_map.mp hl
    rw [List.mem_filter] at hrule
    exact Heap.read_of_len_zero mem _ (hempty rule hrule.1 (by simpa using hrule.2))
  rw [hnil] at hlen
  unfold SliceMap.get?
  cases hs : (d.foldl (indexStep f) { slices := [], mem := mem }).slices.get? k with
  | none => rw [hs] at hlen; cases hlen
  | some s =>
    rw [hs] at hlen
    have h0 : s.len = 0 := by simpa using hlen
    simp [Heap.read_of_len_zero _ s h0]

theorem headersFold_mem_keys_iff (pass : HTTPHeaderField → Bool) (d : List DetectionRule)
    (k : Str) :
    k ∈ (headersFold pass d []).keys
      ↔ ∃ rule ∈ d, ToLower rule.ObjectName = k
          ∧ ∃ header ∈ rule.HTTPHeaderFields, pass header = true := by
  rw [GoMap.mem_keys_iff]
  constructor
  · intro hk
    refine headersFold_induction pass d
      (fun m => ∀ k, (m.get? k).isSome = true →
        ∃ rule ∈ d, ToLower rule.ObjectName = k
          ∧ ∃ header ∈ rule.HTTPHeaderFields, pass header = true)
      ?_ [] ?_ k hk
    · intro m rule header hr hh hp hi k hk
      by_cases ho : ToLower rule.ObjectName = k
      · exact ⟨rule, hr, ho, header, hh, hp⟩
      · rw [headerStep_get?_ne m rule header k ho] at hk
        exact hi k hk
    · intro k hk
      simp [GoMap.get?] at hk
  · rintro ⟨rule, hr, rfl, hx⟩
    exact headersFold_present pass d [] rule hr hx

/-- C27: the key set of each of the five single-level indices is exactly the set of the
lower-cased `ObjectName` of all rules, a rule whose collection of that kind is empty
included (a name all of whose rules have none is bound to the empty collection); the key
set of each of the two HTTP-header indices is exactly the set of the lower-cased
`ObjectName` of the rules that own at least one header field passing the filter. -/
theorem index_key_sets (d : List DetectionRule) (k : Str)
    (urls : Heap URLMicroSignature) (pages : Heap PageContentSignature)
    (ssl : Heap SSLSignature) (tags : Heap MetaTag) (plugins : Heap PluginCall) :
    (k ∈ (GetAllURLMicroSignaturesMap urls d).keys ↔ ∃ rule ∈ d, ToLower rule.ObjectName = k)
    ∧ (k ∈ (GetAllPageContentPatternsMap pages d).keys
        ↔ ∃ rule ∈ d, ToLower rule.ObjectName = k)
    ∧ (k ∈ (GetAllSSLSignaturesMap ssl d).keys ↔ ∃ rule ∈ d, ToLower rule.ObjectName = k)
    ∧ (k ∈ (GetAllMetaTagsMap tags d).keys ↔ ∃ rule ∈ d, ToLower rule.ObjectName = k)
    ∧ (k ∈ (GetAllPluginCallsMap plugins d).keys ↔ ∃ rule ∈ d, ToLower rule.ObjectName = k)
    ∧ ((∃ rule ∈ d, ToLower rule.ObjectName = k) →
        (∀ rule ∈ d, ToLower rule.ObjectName = k → rule.URLMicroSignatures.len = 0) →
        (GetAllURLMicroSignaturesMap urls d).get? k = some [])
    ∧ (k ∈ (GetAllHTTPHeaderFieldsMap d).keys
        ↔ ∃ rule ∈ d, ToLower rule.ObjectName = k
            ∧ ∃ header ∈ rule.HTTPHeaderFields, header.GetKey = "*".toList)
    ∧ (∀ key, k ∈ (GetHTTPHeaderFieldsMapByKey d key).keys
        ↔ ∃ rule ∈ d, ToLower rule.ObjectName = k
            ∧ ∃ header ∈ rule.HTTPHeaderFields,
                ToLower (TrimSpace header.GetKey) = ToLower (TrimSpace key))
    ∧ (GetAllURLMicroSignaturesMap urls [headerRule "Nginx".toList []]).keys
        = ["nginx".toList]
    ∧ (GetAllHTTPHeaderFieldsMap [headerRule "Nginx".toList []]).keys = [] := by
  rw [GetAllURLMicroSignaturesMap_eq, GetAllPageContentPatternsMap_eq,
    GetAllSSLSignaturesMap_eq, GetAllMetaTagsMap_eq, GetAllPluginCallsMap_eq,
    GetAllHTTPHeaderFieldsMap_eq]
  refine ⟨indexFold_mem_keys_iff _ urls d k, indexFold_mem_keys_iff _ pages d k,
    indexFold_mem_keys_iff _ ssl d k, indexFold_mem_keys_iff _ tags d k,
    indexFold_mem_keys_iff _ plugins d k, indexFold_empty _ urls d k, ?_, ?_, by rfl, by rfl⟩
  · rw [headersFold_mem_keys_iff]
    simp
  · intro key
    rw [GetHTTPHeaderFieldsMapByKey_eq, headersFold_mem_keys_iff]
    simp

theorem entriesOf_append {α : Type} (f : DetectionRule → List α) (a b : List DetectionRule)
    (k : Str) : entriesOf f (a ++ b) k = entriesOf f a k ++ entriesOf f b k := by
  simp [entriesOf, List.filter_append]

theorem SpareApart_append (n : Nat) (a b : List Slice) (h : SpareApart n (a ++ b)) :
    SpareApart n a ∧ SpareApart n b := by
  obtain ⟨hv, hp⟩ := h
  rw [List.pairwise_append] at hp
  exact ⟨⟨fun s hs => hv s (List.mem_append_left _ hs), hp.1⟩,
    ⟨fun s hs => hv s (List.mem_append_right _ hs), hp.2.1⟩⟩

theorem indexFold_getD {α : Type} [Inhabited α] (f : DetectionRule → Slice) (mem : Heap α)
    (d : List DetectionRule) (k : Str) (h : SpareApart mem.next (d.map f)) :
    ((d.foldl (indexStep f) { slices := [], mem := mem }).get? k).getD []
      = entriesOf (fun r => mem.read (f r)) d k := by
  rw [indexFold_apart f mem d k h]
  cases hk : hasObject d k with
  | true => simp
  | false => simp [entriesOf_eq_nil _ d k hk]

theorem indexFold_append {α : Type} [Inhabited α] (f : DetectionRule → Slice) (mem : Heap α)
    (a b : List DetectionRule) (k : Str) (h : SpareApart mem.next ((a ++ b).map f)) :
    (((a ++ b).foldl (indexStep f) { slices := [], mem := mem }).get? k).getD []
      = ((a.foldl (indexStep f) { slices := [], mem := mem }).get? k).getD []
        ++ ((b.foldl (indexStep f) { slices := [], mem := mem }).get? k).getD [] := by
  have hab := h
  rw [List.map_append] at hab
  obtain ⟨ha, hb⟩ := SpareApart_append _ _ _ hab
  rw [indexFold_getD f mem _ k h, indexFold_getD f mem a k ha, indexFold_getD f mem b k hb,
    entriesOf_append]

theorem totalLen_set_none (m : GoMap Slice) (k : Str) (v : Slice) (h : m.get? k = none) :
    ((m.set k v).map (fun kv => kv.2.len)).sum = (m.map (fun kv => kv.2.len)).sum + v.len := by
  induction m with
  | nil => simp [GoMap.set]
  | cons p t ih =>
    obtain ⟨k', v'⟩ := p
    by_cases hk : k' = k
    · simp [GoMap.get?, hk] at h
    · have ht : GoMap.get? t k = none := by simpa [GoMap.get?, hk] using h
      have := ih ht
      simp only [GoMap.set, hk, if_false, List.map_cons, List.sum_cons, this]
      omega

theorem totalLen_set_some (m : GoMap Slice) (k : Str) (e v : Slice)
    (h : m.get? k = some e) :
    ((m.set k v).map (fun kv => kv.2.len)).sum + e.len
      = (m.map (fun kv => kv.2.len)).sum + v.len := by
  induction m with
  | nil => simp [GoMap.get?] at h
  | cons p t ih =>
    obtain ⟨k', v'⟩ := p
    by_cases hk : k' = k
    · have he : v' = e := by simpa [GoMap.get?, hk] using h
      subst he
      simp only [GoMap.set, hk, if_true, List.map_cons, List.sum_cons]
      omega
    · have ht : GoMap.get? t k = some e := by simpa [GoMap.get?, hk] using h
      have := ih ht
      simp only [GoMap.set, hk, if_false, List.map_cons, List.sum_cons]
      omega

theorem totalEntries_indexStep {α : Type} [Inhabited α] (f : DetectionRule → Slice)
    (ix : SliceMap α) (rule : DetectionRule) :
    totalEntries (indexStep f ix rule) = totalEntries ix + (f rule).len := by
  cases h : ix.slices.get? (ToLower rule.ObjectName) with
  | none =>
    rw [indexStep_of_none f ix rule h]
    exact totalLen_set_none ix.slices _ _ h
  | some e =>
    rw [indexStep_of_some f ix rule e h]
    have := totalLen_set_some ix.slices (ToLower rule.ObjectName) e
      (ix.mem.append e (ix.mem.read (f rule))).1 h
    rw [Heap.append_len, Heap.length_read] at this
    show ((ix.slices.set (ToLower rule.ObjectName)
        (ix.mem.append e (ix.mem.read (f rule))).1).map (fun kv => kv.2.len)).sum
      = (ix.slices.map (fun kv => kv.2.len)).sum + (f rule).len
    omega

theorem totalEntries_indexFold {α : Type} [Inhabited α] (f : DetectionRule → Slice)
    (d : List DetectionRule) (ix : SliceMap α) :
    totalEntries (d.foldl (indexStep f) ix)
      = totalEntries ix + (d.map (fun rule => (f rule).len)).sum := by
  induction d generalizing ix with
  | nil => simp
  | cons rule rest ih =>
    rw [List.foldl_cons, ih, totalEntries_indexStep]
    simp only [List.map_cons, List.sum_cons]
    omega

theorem totalEntries_indexFold_nil {α : Type} [Inhabited α] (f : DetectionRule → Slice)
    (d : List DetectionRule) (mem : Heap α) :
    totalEntries (d.foldl (indexStep f) { slices := [], mem := mem })
      = (d.map (fun rule => (f rule).len)).sum := by
  rw [totalEntries_indexFold]
  simp [totalEntries]

/-- C28 (the code at the failing input, and where it is a homomorphism): for rules whose
slices of a kind share no spare capacity, each of the five single-level index builders is a
homomorphism over the concatenation of rule collections, every index being built from the
same memory: the index of `a ++ b` binds `k` to the entries the index of `a` holds for `k`
followed by those the index of `b` holds for `k` (none when `k` is not bound); whatever the
layout, the number of entries an index holds, over all its keys, is the number of entries
of that kind over all rules. For the rules `a` and `b` that hold the same slice `/base` of
capacity 4, followed by the rules `a` with `/s1` and `b` with `/s2`, the index of the four
rules binds `a` to `/base`, `/s2`, while the index of the first two binds it to `/base` and
the index of the last two to `/s1`. -/
theorem index_homomorphism_unless_shared :
    (∀ (mem : Heap URLMicroSignature) (a b : List DetectionRule) (k : Str),
        SpareApart mem.next ((a ++ b).map (fun r => r.URLMicroSignatures)) →
        ((GetAllURLMicroSignaturesMap mem (a ++ b)).get? k).getD []
          = ((GetAllURLMicroSignaturesMap mem a).get? k).getD []
            ++ ((GetAllURLMicroSignaturesMap mem b).get? k).getD [])
    ∧ (∀ (mem : Heap PageContentSignature) (a b : List DetectionRule) (k : Str),
        SpareApart mem.next ((a ++ b).map (fun r => r.PageContentPatterns)) →
        ((GetAllPageContentPatternsMap mem (a ++ b)).get? k).getD []
          = ((GetAllPageContentPatternsMap mem a).get? k).getD []
            ++ ((GetAllPageContentPatternsMap mem b).get? k).getD [])
    ∧ (∀ (mem : Heap SSLSignature) (a b : List DetectionRule) (k : Str),
        SpareApart mem.next ((a ++ b).map (fun r => r.SSLSignatures)) →
        ((GetAllSSLSignaturesMap mem (a ++ b)).get? k).getD []
          = ((GetAllSSLSignaturesMap mem a).get? k).getD []
            ++ ((GetAllSSLSignaturesMap mem b).get? k).getD [])
    ∧ (∀ (mem : Heap MetaTag) (a b : List DetectionRule) (k : Str),
        SpareApart mem.next ((a ++ b).map (fun r => r.MetaTags)) →
        ((GetAllMetaTagsMap mem (a ++ b)).get? k).getD []
          = ((GetAllMetaTagsMap mem a).get? k).getD []
            ++ ((GetAllMetaTagsMap mem b).get? k).getD [])
    ∧ (∀ (mem : Heap PluginCall) (a b : List DetectionRule) (k : Str),
        SpareApart mem.next ((a ++ b).map (fun r => r.PluginCalls)) →
        ((GetAllPluginCallsMap mem (a ++ b)).get? k).getD []
          = ((GetAllPluginCallsMap mem a).get? k).getD []
            ++ ((GetAllPluginCallsMap mem b).get? k).getD [])
    ∧ (∀ (mem : Heap URLMicroSignature) (a : List DetectionRule),
        totalEntries (GetAllURLMicroSignaturesMap mem a)
          = (a.map (fun rule => rule.URLMicroSignatures.len)).sum)
    ∧ (∀ (mem : Heap PageContentSignature) (a : List DetectionRule),
        totalEntries (GetAllPageContentPatternsMap mem a)
          = (a.map (fun rule => rule.PageContentPatterns.len)).sum)
    ∧ (∀ (mem : Heap SSLSignature) (a : List DetectionRule),
        totalEntries (GetAllSSLSignaturesMap mem a)
          = (a.map (fun rule => rule.SSLSignatures.len)).sum)
    ∧ (∀ (mem : Heap MetaTag) (a : List DetectionRule),
        totalEntries (GetAllMetaTagsMap mem a) = (a.map (fun rule => rule.MetaTags.len)).sum)
    ∧ (∀ (mem : Heap PluginCall) (a : List DetectionRule),
        totalEntries (GetAllPluginCallsMap mem a)
          = (a.map (fun rule => rule.PluginCalls.len)).sum)
    ∧ signaturesAt (GetAllURLMicroSignaturesMap sharedMemory (sharedBaseRules ++ laterRules))
          "a".toList = some ["/base".toList, "/s2".toList]
    ∧ signaturesAt (GetAllURLMicroSignaturesMap sharedMemory sharedBaseRules) "a".toList
          = some ["/base".toList]
    ∧ signaturesAt (GetAllURLMicroSignaturesMap sharedMemory laterRules) "a".toList
          = some ["/s1".toList]
    ∧ totalEntries (GetAllURLMicroSignaturesMap sharedMemory (sharedBaseRules ++ laterRules))
          = 4 := by
  simp only [GetAllURLMicroSignaturesMap_eq, GetAllPageContentPatternsMap_eq,
    GetAllSSLSignaturesMap_eq, GetAllMetaTagsMap_eq, GetAllPluginCallsMap_eq]
  exact ⟨fun mem a b k h => indexFold_append _ mem a b k h,
    fun mem a b k h => indexFold_append _ mem a b k h,
    fun mem a b k h => indexFold_append _ mem a b k h,
    fun mem a b k h => indexFold_append _ mem a b k h,
    fun mem a b k h => indexFold_append _ mem a b k h,
    fun mem a => totalEntries_indexFold_nil _ a mem,
    fun mem a => totalEntries_indexFold_nil _ a mem,
    fun mem a => totalEntries_indexFold_nil _ a mem,
    fun mem a => totalEntries_indexFold_nil _ a mem,
    fun mem a => totalEntries_indexFold_nil _ a mem,
    by decide, by decide, by decide, by decide⟩

/-- C28 where no spare capacity is shared: the two rules of the spec's example, the second
signature appended in place; the index of both binds `server` to what the index of the
first holds followed by what the index of the second holds, two entries in all. -/
theorem index_homomorphism_example :
    SpareApart serverMemory.next
        ((roomyServerRules.take 1 ++ roomyServerRules.drop 1).map
          (fun r => r.URLMicroSignatures))
    ∧ ((GetAllURLMicroSignaturesMap serverMemory
          (roomyServerRules.take 1 ++ roomyServerRules.drop 1)).get? "server".toList).getD []
        = ((GetAllURLMicroSignaturesMap serverMemory
              (roomyServerRules.take 1)).get? "server".toList).getD []
          ++ ((GetAllURLMicroSignaturesMap serverMemory
              (roomyServerRules.drop 1)).get? "server".toList).getD []
    ∧ signaturesAt (GetAllURLMicroSignaturesMap serverMemory
          (roomyServerRules.take 1 ++ roomyServerRules.drop 1)) "server".toList
        = some [" /admin ".toList, "/login".toList]
    ∧ totalEntries (GetAllURLMicroSignaturesMap serverMemory roomyServerRules) = 2 :=
  ⟨by decide,
    index_homomorphism_unless_shared.1 serverMemory (roomyServerRules.take 1)
      (roomyServerRules.drop 1) "server".toList (by decide),
    by decide, by decide⟩

/-! ## The header indices keep the last matching field -/

theorem GoMap.set_set {V : Type} (m : GoMap V) (k : Str) (a b : V) :
    (m.set k a).set k b = m.set k b := by
  induction m with
  | nil => simp [GoMap.set]
  | cons p t ih =>
    obtain ⟨k', v'⟩ := p
    by_cases h : k' = k
    · simp [GoMap.set, h]
    · simp [GoMap.set, h, ih]

theorem overwritten_overwritten (k : Str) (current : Option (GoMap HTTPHeaderField))
    (a b : Option HTTPHeaderField) :
    overwritten k (overwritten k current a) b = overwritten k current (b.or a) := by
  cases b with
  | none => cases a <;> rfl
  | some fb =>
    cases a with
    | none => rfl
    | some fa => simp [overwritten, GoMap.set_set]

theorem getLast?_cons_or {α : Type} (a : α) (l : List α) :
    (a :: l).getLast? = l.getLast?.or (some a) := by
  have : a :: l = [a] ++ l := rfl
  rw [this, List.getLast?_append]
  rfl

theorem headerStep_get?_self_eq (m : GoMap (GoMap HTTPHeaderField)) (rule : DetectionRule)
    (header : HTTPHeaderField) :
    (headerStep m rule header).get? (ToLower rule.ObjectName)
      = overwritten (ToLower header.GetKey) (m.get? (ToLower rule.ObjectName))
          (some header) := by
  unfold headerStep overwritten
  cases h : m.get? (ToLower rule.ObjectName) <;> simp [GoMap.get?_set_self]

theorem innerFold_get? (pass : HTTPHeaderField → Bool) (k : Str) (rule : DetectionRule)
    (obj : Str) (hs : List HTTPHeaderField) (m : GoMap (GoMap HTTPHeaderField))
    (hk : ∀ h ∈ hs, pass h = true → ToLower h.GetKey = k) :
    (hs.foldl (fun headers header =>
        if pass header then headerStep headers rule header else headers) m).get? obj
      = if ToLower rule.ObjectName = obj then
          overwritten k (m.get? obj) (hs.filter pass).getLast?
        else m.get? obj := by
  induction hs generalizing m with
  | nil => simp [overwritten]
  | cons h t ih =>
    rw [List.foldl_cons, ih _ (fun x hx => hk x (List.mem_cons_of_mem _ hx))]
    by_cases hp : pass h = true
    · rw [if_pos hp, List.filter_cons_of_pos hp, getLast?_cons_or]
      by_cases ho : ToLower rule.ObjectName = obj
      · subst ho
        rw [if_pos rfl, if_pos rfl, headerStep_get?_self_eq,
          hk h (List.mem_cons_self _ _) hp, overwritten_overwritten]
      · rw [if_neg ho, if_neg ho, headerStep_get?_ne m rule h obj ho]
    · rw [if_neg hp, List.filter_cons_of_neg hp]

theorem headersFold_get? (pass : HTTPHeaderField → Bool) (k : Str)
    (hk : ∀ h, pass h = true → ToLower h.GetKey = k) (obj : Str) (d : List DetectionRule)
    (m : GoMap (GoMap HTTPHeaderField)) :
    (headersFold pass d m).get? obj
      = overwritten k (m.get? obj) (matchingFields pass d obj).getLast? := by
  induction d generalizing m with
  | nil => simp [headersFold, matchingFields, entriesOf, overwritten]
  | cons rule rest ih =>
    have unfold_cons : headersFold pass (rule :: rest) m
        = headersFold pass rest (rule.HTTPHeaderFields.foldl (fun headers header =>
            if pass header then headerStep headers rule header else headers) m) := rfl
    rw [unfold_cons, ih, innerFold_get? pass k rule obj _ m (fun h _ hp => hk h hp)]
    unfold matchingFields
    rw [entriesOf_cons]
    by_cases ho : ToLower rule.ObjectName = obj
    · rw [if_pos ho, if_pos ho, overwritten_overwritten, List.getLast?_append]
    · rw [if_neg ho, if_neg ho]

/-- C26: in both HTTP-header indices, the inner map of an object has exactly one entry,
keyed by the lower-cased trimmed header key (`*`, or the normalised supplied key), and its
value is the last header field passing the filter, in rule order and then within-rule order,
among the rules with that lower-cased `ObjectName`; an object without such a field is not
bound. Earlier fields are overwritten: of the three wildcard fields of `nginx` only the
third remains. -/
theorem header_index_keeps_last_field (d : List DetectionRule) (obj : Str) :
    (GetAllHTTPHeaderFieldsMap d).get? obj
        = ((matchingFields (fun h => decide (h.GetKey = "*".toList)) d obj).getLast?).map
            (fun field => [("*".toList, field)])
    ∧ (∀ key, (GetHTTPHeaderFieldsMapByKey d key).get? obj
        = ((matchingFields
              (fun h => decide (ToLower (TrimSpace h.GetKey) = ToLower (TrimSpace key)))
              d obj).getLast?).map
            (fun field => [(ToLower (TrimSpace key), field)]))
    ∧ GetAllHTTPHeaderFieldsMap wildcardRules
        = [("nginx".toList,
            [("*".toList,
              { Key := "*".toList, Value := ["third".toList], Confidence := 0.4 })])] := by
  refine ⟨?_, ?_, by rfl⟩
  · rw [GetAllHTTPHeaderFieldsMap_eq,
      headersFold_get? _ "*".toList (fun h hp => by
        have e : h.GetKey = "*".toList := by simpa using hp
        rw [e]; decide)]
    cases (matchingFields (fun h => decide (h.GetKey = "*".toList)) d obj).getLast? <;>
      simp [overwritten, GoMap.get?, GoMap.set]
  · intro key
    rw [GetHTTPHeaderFieldsMapByKey_eq,
      headersFold_get? _ (ToLower (TrimSpace key)) (fun h hp => by
        have e : ToLower (TrimSpace h.GetKey) = ToLower (TrimSpace key) := by simpa using hp
        rw [HTTPHeaderField.GetKey, TrimSpace_idempotent] at e
        exact e)]
    cases (matchingFields
        (fun h => decide (ToLower (TrimSpace h.GetKey) = ToLower (TrimSpace key)))
        d obj).getLast? <;>
      simp [overwritten, GoMap.get?, GoMap.set]

/-! ## Command nodes have arguments -/

theorem TrimSpace_call (name rest : Str) (hname : ∀ c ∈ name, isSpace c = false) :
    TrimSpace (name ++ '(' :: (rest ++ [')'])) = name ++ '(' :: (rest ++ [')']) := by
  apply TrimSpace_eq_self
  · intro c hc
    cases name with
    | nil =>
      simp only [List.nil_append, List.head?_cons, Option.some.injEq] at hc
      subst hc; decide
    | cons x t =>
      simp only [List.cons_append, List.head?_cons, Option.some.injEq] at hc
      subst hc
      exact hname _ (List.mem_cons_self _ _)
  · intro c hc
    have e : name ++ '(' :: (rest ++ [')']) = (name ++ '(' :: rest) ++ [')'] := by simp
    rw [e, List.getLast?_concat] at hc
    cases hc; decide

theorem ParseCmd_empty_params (tbl : GoMap Int) (maxDepth : Int) (name : Str) (token : Int)
    (hmax : 1 ≤ maxDepth) (hknown : tbl.get? name = some token)
    (hname : ∀ c ∈ name, c ≠ '(' ∧ isSpace c = false) :
    ParseCmd tbl maxDepth (name ++ '(' :: ([] ++ [')'])) 0
      = .ok (EncodedCmd.mk token [EncodedCmd.mk (-1) [] []] []) := by
  have hT := TrimSpace_call name [] (fun c hc => (hname c hc).2)
  have hg := getCommandToken_call tbl name ([] ++ [')']) token hknown
    (fun c hc => (hname c hc).1)
  have hk : isCommand tbl (name ++ '(' :: ([] ++ [')'])) = true := by
    rw [isCommand, hg]
  have hp : '(' ∈ name ++ '(' :: ([] ++ [')']) := by simp
  have hs : (name ++ '(' :: ([] ++ [')'])).getLast? = some ')' := by
    have e : name ++ '(' :: ([] ++ [')']) = (name ++ ['(']) ++ [')'] := by simp
    rw [e, List.getLast?_concat]
  have hpp : parseParams ([] : Str) = .ok [[]] := rfl
  rw [ParseCmd_eq, if_neg (by omega), hT, if_pos ⟨hk, hp, hs⟩,
    paramStringOf_call name [] (fun c hc => (hname c hc).1), hpp]
  simp only []
  rw [parseArgs_cons_literal tbl maxDepth 0 _ _ _ (by omega) (by simp), hg]
  rfl

theorem timeArgCountError_returned (v v' : Str) (e : Option ExprError) :
    (Outcome.returned v e).timeArgCountError = (Outcome.returned v' e).timeArgCountError := rfl

mutual
/-- A tree in which every `time` node has an argument does not evaluate to the failure of
the zero-argument branch of `handleTimeCommand`. -/
theorem InterpretCmd_timeArgs : ∀ (tree : EncodedCmd) (w : World),
    (∀ n ∈ tree.nodes, n.Token = TokenTime → n.Args ≠ []) →
    (InterpretCmd w tree).1.timeArgCountError = false
  | .mk token args v, w, h => by
    have hargs : ∀ n ∈ nodesOfArgs args, n.Token = TokenTime → n.Args ≠ [] := fun n hn =>
      h n (by rw [nodes_mk]; exact List.mem_cons_of_mem _ hn)
    by_cases h1 : token = -1
    · subst h1; rw [InterpretCmd_literal]; rfl
    · by_cases h2 : token = TokenRandom
      · subst h2; rw [InterpretCmd_random]; exact handleRandomCommand_timeArgs args w hargs
      · by_cases h3 : token = TokenTime
        · subst h3
          have hne : args ≠ [] :=
            h (EncodedCmd.mk TokenTime args v) (by simp [nodes_mk]) rfl
          rw [InterpretCmd_time]
          exact handleTimeCommand_timeArgs args w hne hargs
        · by_cases h4 : token = TokenURL
          · subst h4; rw [InterpretCmd_url]; rfl
          · rw [InterpretCmd_unknown w token args v h1 h2 h3 h4]; rfl
theorem handleRandomCommand_timeArgs : ∀ (args : List EncodedCmd) (w : World),
    (∀ n ∈ nodesOfArgs args, n.Token = TokenTime → n.Args ≠ []) →
    (handleRandomCommand w args).1.timeArgCountError = false
  | [], w, _ => by rw [handleRandomCommand_count w [] (by decide)]; rfl
  | [a], w, _ => by rw [handleRandomCommand_count w [a] (by simp)]; rfl
  | _ :: _ :: _ :: _, w, _ => by
    rw [handleRandomCommand_count w _ (by simp)]; rfl
  | [arg0, arg1], w, h => by
    have h0 : ∀ n ∈ arg0.nodes, n.Token = TokenTime → n.Args ≠ [] := fun n hn =>
      h n ((mem_nodesOfArgs _ n).mpr ⟨arg0, by simp, hn⟩)
    have h1 : ∀ n ∈ arg1.nodes, n.Token = TokenTime → n.Args ≠ [] := fun n hn =>
      h n ((mem_nodesOfArgs _ n).mpr ⟨arg1, by simp, hn⟩)
    have i0 := InterpretCmd_timeArgs arg0 w h0
    simp only [handleRandomCommand]
    split
    · rfl
    · rename_i heq
      rw [heq] at i0
      exact i0
    · rename_i w1 heq
      have i1 := InterpretCmd_timeArgs arg1 w1 h1
      split
      · rfl
      · rename_i heq1
        rw [heq1] at i1
        exact i1
      · split
        · rfl
        · split
          · rfl
          · split
            · rfl
            · split
              · rfl
              · split <;> rfl
theorem handleTimeCommand_timeArgs : ∀ (args : List EncodedCmd) (w : World),
    args ≠ [] → (∀ n ∈ nodesOfArgs args, n.Token = TokenTime → n.Args ≠ []) →
    (handleTimeCommand w args).1.timeArgCountError = false
  | [], _, hne, _ => absurd rfl hne
  | arg0 :: _, w, _, h => by
    have h0 : ∀ n ∈ arg0.nodes, n.Token = TokenTime → n.Args ≠ [] := fun n hn =>
      h n ((mem_nodesOfArgs _ n).mpr ⟨arg0, by simp, hn⟩)
    have i0 := InterpretCmd_timeArgs arg0 w h0
    simp only [handleTimeCommand]
    split
    · rfl
    · rename_i heq
      rw [heq] at i0
      exact i0
    · split
      · rfl
      · split
        · rfl
        · split
          · rfl
          · split
            · rfl
            · split <;> rfl
end

theorem ParseCmd_command_nodes_have_args (tbl : GoMap Int) (maxDepth : Int) (command : Str)
    (depth : Int) (tree : EncodedCmd) (h : ParseCmd tbl maxDepth command depth = .ok tree) :
    ∀ n ∈ tree.nodes, n.Token ≠ -1 → n.Args ≠ [] :=
  ParseCmd_all_nodes tbl maxDepth (fun token args => token ≠ -1 → args ≠ [])
    (fun hne => absurd rfl hne) (fun _ _ _ _ hargs _ => hargs) _ command depth tree
    (Nat.le_refl _) h

/-- C25: every command node (`Token` other than -1) anywhere in a tree `ParseCmd` returns
has at least one argument; a known command followed by an empty parameter list parses to
the command node with exactly one argument, the literal node of the empty string (the
recursion bound being at least 1); and no node of a returned tree, in any world, evaluates
to the failure of the zero-argument branch of the `time` command. -/
theorem command_nodes_have_arguments (tbl : GoMap Int) (maxDepth : Int) (command : Str)
    (depth : Int) (tree : EncodedCmd) (h : ParseCmd tbl maxDepth command depth = .ok tree) :
    (∀ n ∈ tree.nodes, n.Token ≠ -1 → 1 ≤ n.Args.length)
    ∧ (∀ name token, 1 ≤ maxDepth → tbl.get? name = some token →
        (∀ c ∈ name, c ≠ '(' ∧ isSpace c = false) →
        ParseCmd tbl maxDepth (name ++ "()".toList) 0
          = .ok (EncodedCmd.mk token [EncodedCmd.mk (-1) [] []] []))
    ∧ (∀ n ∈ tree.nodes, ∀ w : World, (InterpretCmd w n).1.timeArgCountError = false) := by
  have hargs := ParseCmd_command_nodes_have_args tbl maxDepth command depth tree h
  refine ⟨?_, ?_, ?_⟩
  · intro n hn htok
    have := hargs n hn htok
    cases hl : n.Args with
    | nil => exact absurd hl this
    | cons a t => simp
  · intro name token hmax hknown hname
    exact ParseCmd_empty_params tbl maxDepth name token hmax hknown hname
  · intro n hn w
    apply InterpretCmd_timeArgs n w
    intro m hm htime
    exact hargs m (nodes_subset tree n hn m hm) (by rw [htime]; decide)

/-- C25 at `time()`, `url()` and `random()`, each a command node with the single literal
argument of the empty string, and at the evaluation of the tree of `time()`, which takes
the one-argument branch and fails on the time format, not on the argument count. -/
theorem command_nodes_have_arguments_example :
    ((∀ n ∈ (EncodedCmd.mk TokenTime [EncodedCmd.mk (-1) [] []] []).nodes,
        n.Token ≠ -1 → 1 ≤ n.Args.length)
      ∧ (∀ name token, 1 ≤ maxInterpreterRecursionDepth →
          commandTokenMap.get? name = some token →
          (∀ c ∈ name, c ≠ '(' ∧ isSpace c = false) →
          ParseCmd commandTokenMap maxInterpreterRecursionDepth (name ++ "()".toList) 0
            = .ok (EncodedCmd.mk token [EncodedCmd.mk (-1) [] []] []))
      ∧ (∀ n ∈ (EncodedCmd.mk TokenTime [EncodedCmd.mk (-1) [] []] []).nodes,
          ∀ w : World, (InterpretCmd w n).1.timeArgCountError = false))
    ∧ ParseCmd commandTokenMap maxInterpreterRecursionDepth "url()".toList 0
        = .ok (EncodedCmd.mk TokenURL [EncodedCmd.mk (-1) [] []] [])
    ∧ ParseCmd commandTokenMap maxInterpreterRecursionDepth "random()".toList 0
        = .ok (EncodedCmd.mk TokenRandom [EncodedCmd.mk (-1) [] []] [])
    ∧ (InterpretCmd (constWorld 0 0) (EncodedCmd.mk TokenTime [EncodedCmd.mk (-1) [] []] [])).1
        = .returned "2009-11-10 23:00:00 +0000 UTC".toList (some (.invalidTimeFormat [])) :=
  ⟨command_nodes_have_arguments commandTokenMap maxInterpreterRecursionDepth
      "time()".toList 0 _ rfl, rfl, rfl, rfl⟩

/-! ## Termination of the parser -/

theorem height_mk (token : Int) (args : List EncodedCmd) (v : Str) :
    (EncodedCmd.mk token args v).height = (if token = -1 then 0 else 1) + heightOfArgs args := by
  simp [EncodedCmd.height]

theorem height_setArgValue (t : EncodedCmd) (v : Str) : (t.setArgValue v).height = t.height := by
  cases t with
  | mk token args v' => simp [EncodedCmd.setArgValue, height_mk]

theorem heightOfArgs_le (args : List EncodedCmd) (b : Nat) (h : ∀ a ∈ args, a.height ≤ b) :
    heightOfArgs args ≤ b := by
  induction args with
  | nil => simp [heightOfArgs]
  | cons a rest ih =>
    simp only [heightOfArgs]
    exact Nat.max_le.mpr ⟨h a (List.mem_cons_self _ _),
      ih (fun x hx => h x (List.mem_cons_of_mem _ hx))⟩

theorem TrimSpace_length_le (s : Str) : (TrimSpace s).length ≤ s.length := by
  have e : TrimSpace s = (s.dropWhile isSpace).rdropWhile isSpace := rfl
  rw [e]
  exact Nat.le_trans (List.rdropWhile_prefix isSpace (l := s.dropWhile isSpace)).length_le
    (List.dropWhile_suffix isSpace).length_le

theorem cutAt_length_le (s : Str) (start : Nat) (cuts : List Nat) :
    ∀ p ∈ cutAt s start cuts, p.length ≤ s.length := by
  induction cuts generalizing start with
  | nil =>
    intro p hp
    simp only [cutAt, List.mem_singleton] at hp
    rw [hp, List.length_drop]
    omega
  | cons i cuts ih =>
    intro p hp
    simp only [cutAt, List.mem_cons] at hp
    rcases hp with rfl | hp
    · rw [List.length_drop, List.length_take]
      omega
    · exact ih _ p hp

theorem parseParams_length_le (s : Str) (params : List Str) (h : parseParams s = .ok params) :
    ∀ p ∈ params, p.length ≤ s.length := by
  rw [parseParams_eq] at h
  split at h
  · cases h
  · cases h
    intro p hp
    obtain ⟨q, hq, rfl⟩ := List.mem_map.mp hp
    exact Nat.le_trans (TrimSpace_length_le q) (cutAt_length_le s 0 _ q hq)

theorem paramStringOf_length_lt (c : Str) (hc : c ≠ []) : (paramStringOf c).length < c.length := by
  unfold paramStringOf slice
  rw [List.length_drop, List.length_take]
  have : 0 < c.length := List.length_pos.mpr hc
  omega

/-- Every recursive call of `ParseCmd` is made on a text strictly shorter than the command
being parsed. -/
theorem nested_param_shorter (tbl : GoMap Int) (command : Str) (params : List Str)
    (param : Str) (hshape : hasCallShape tbl (TrimSpace command))
    (hp : parseParams (paramStringOf (TrimSpace command)) = .ok params)
    (hmem : param ∈ params) : (TrimSpace param).length < command.length := by
  have hne : TrimSpace command ≠ [] := fun h => by
    have := hshape.2.1
    rw [h] at this
    simp at this
  have h1 := TrimSpace_length_le param
  have h2 := parseParams_length_le _ params hp param hmem
  have h3 := paramStringOf_length_lt (TrimSpace command) hne
  have h4 := TrimSpace_length_le command
  omega

theorem Invokes_length (tbl : GoMap Int) (command : Str) (depth : Int) (inner : Str)
    (innerDepth : Int) (h : Invokes tbl command depth inner innerDepth) :
    depth ≤ innerDepth ∧ inner.length + (innerDepth - depth).toNat ≤ command.length := by
  induction h with
  | self command depth => simp
  | nested command depth params param inner innerDepth hshape hp hmem _ _ ih =>
    have hlt := nested_param_shorter tbl command params param hshape hp hmem
    omega

theorem ParseCmd_height (tbl : GoMap Int) (maxDepth : Int) (levels : Nat) :
    ∀ (command : Str) (depth : Int) (tree : EncodedCmd),
      (maxDepth + 1 - depth).toNat ≤ levels →
      ParseCmd tbl maxDepth command depth = .ok tree →
      tree.height ≤ (maxDepth + 1 - depth).toNat := by
  induction levels with
  | zero =>
    intro command depth tree hle h
    obtain ⟨hd, _⟩ := ParseCmd_ok_inv tbl maxDepth command depth tree h
    omega
  | succ levels ih =>
    intro command depth tree hle h
    obtain ⟨hd, hinv⟩ := ParseCmd_ok_inv tbl maxDepth command depth tree h
    rcases hinv with ⟨_, hlit⟩ | ⟨_, params, encodedArgs, _, ha, hn⟩
    · rw [hlit, height_mk]
      simp [heightOfArgs]
    · obtain ⟨built, hb, hf⟩ := parseArgs_ok_inv tbl _ params [] encodedArgs ha
      rw [List.nil_append] at hb
      have hargs : heightOfArgs encodedArgs ≤ (maxDepth + 1 - (depth + 1)).toNat := by
        apply heightOfArgs_le
        intro a ha'
        rw [hb] at ha'
        obtain ⟨param, _, hrel⟩ := forall₂_mem_right _ params built hf a ha'
        rcases hrel with ⟨_, hlitarg⟩ | ⟨_, nested, hnested, hset⟩
        · rw [hlitarg, height_mk]
          simp [heightOfArgs]
        · rw [hset, height_setArgValue]
          exact ih (TrimSpace param) (depth + 1) nested (by omega) hnested
      rw [hn, height_mk]
      have hone : (if (getCommandToken tbl (TrimSpace command)).1 = -1 then 0 else 1) ≤ 1 := by
        split <;> omega
      omega

/-- C30: `ParseCmd` returns on every input string and every starting depth; each recursive
call is made on a parameter strictly shorter than the command being parsed and at the next
depth, so that the depth a parse can reach is bounded by the length of the input, whatever
the recursion bound; and the nesting height of the command nodes of a returned tree is at
most the maximum recursion depth minus the starting depth, plus one. -/
theorem ParseCmd_terminates (tbl : GoMap Int) (maxDepth : Int) (command : Str) (depth : Int) :
    ((∃ tree, ParseCmd tbl maxDepth command depth = .ok tree)
        ∨ (∃ e, ParseCmd tbl maxDepth command depth = .error e))
    ∧ (∀ params param, hasCallShape tbl (TrimSpace command) →
        parseParams (paramStringOf (TrimSpace command)) = .ok params → param ∈ params →
        (TrimSpace param).length < command.length)
    ∧ (∀ inner innerDepth, Invokes tbl command depth inner innerDepth →
        depth ≤ innerDepth ∧ inner.length + (innerDepth - depth).toNat ≤ command.length)
    ∧ (∀ tree, ParseCmd tbl maxDepth command depth = .ok tree →
        (tree.height : Int) ≤ maxDepth - depth + 1) := by
  refine ⟨?_, ?_, ?_, ?_⟩
  · cases h : ParseCmd tbl maxDepth command depth with
    | ok tree => exact Or.inl ⟨tree, rfl⟩
    | error e => exact Or.inr ⟨e, rfl⟩
  · intro params param hshape hp hmem
    exact nested_param_shorter tbl command params param hshape hp hmem
  · intro inner innerDepth hinv
    exact Invokes_length tbl command depth inner innerDepth hinv
  · intro tree h
    have hh := ParseCmd_height tbl maxDepth _ command depth tree (Nat.le_refl _) h
    obtain ⟨hd, _⟩ := ParseCmd_ok_inv tbl maxDepth command depth tree h
    omega

/-- C30 at eleven nested calls from depth 0 with the maximum 10: the returned tree has the
height 11, the bound itself. -/
theorem ParseCmd_height_example :
    (ParseCmd commandTokenMap maxInterpreterRecursionDepth (nestedCalls 11) 0).toOption.map
        EncodedCmd.height = some 11
    ∧ (ParseCmd commandTokenMap maxInterpreterRecursionDepth "random(time(unix), 2)".toList
        9).toOption.map EncodedCmd.height = some 2 := by
  exact ⟨rfl, rfl⟩

/-! ## Decimal renderings parse back -/

theorem digitChar_step (a k : Nat) (hk : k < 10) :
    (some a : Option Nat).bind
        (fun a => if (Nat.digitChar k).isDigit then
            some (a * 10 + ((Nat.digitChar k).toNat - 48)) else none)
      = some (a * 10 + k) := by
  interval_cases k <;> rfl

theorem digitChar_isDigit (k : Nat) (hk : k < 10) : (Nat.digitChar k).isDigit = true := by
  interval_cases k <;> rfl

theorem foldl_toDigitsCore (fuel : Nat) :
    ∀ (n : Nat) (ds : Str), n < fuel →
      (Nat.toDigitsCore 10 fuel n ds).foldl
          (fun acc c => acc.bind (fun a =>
            if c.isDigit then some (a * 10 + (c.toNat - 48)) else none)) (some 0)
        = ds.foldl
          (fun acc c => acc.bind (fun a =>
            if c.isDigit then some (a * 10 + (c.toNat - 48)) else none)) (some n) := by
  induction fuel with
  | zero => intro n ds h; omega
  | succ fuel ih =>
    intro n ds h
    simp only [Nat.toDigitsCore]
    by_cases h0 : n / 10 = 0
    · rw [if_pos h0, List.foldl_cons, digitChar_step 0 (n % 10) (Nat.mod_lt _ (by decide))]
      have : 0 * 10 + n % 10 = n := by omega
      rw [this]
    · rw [if_neg h0, ih (n / 10) _ (by omega), List.foldl_cons,
        digitChar_step (n / 10) (n % 10) (Nat.mod_lt _ (by decide))]
      have : n / 10 * 10 + n % 10 = n := by omega
      rw [this]

theorem toDigitsCore_prefix (fuel : Nat) :
    ∀ (n : Nat) (ds : Str), 0 < fuel →
      ∃ pre : Str, pre ≠ [] ∧ (∀ c ∈ pre, c.isDigit = true)
        ∧ Nat.toDigitsCore 10 fuel n ds = pre ++ ds := by
  induction fuel with
  | zero => intro n ds h; omega
  | succ fuel ih =>
    intro n ds _
    have hd := digitChar_isDigit (n % 10) (Nat.mod_lt _ (by decide))
    simp only [Nat.toDigitsCore]
    by_cases h0 : n / 10 = 0
    · rw [if_pos h0]
      exact ⟨[Nat.digitChar (n % 10)], by simp, by simpa using hd, rfl⟩
    · rw [if_neg h0]
      by_cases hf : fuel = 0
      · subst hf
        exact ⟨[Nat.digitChar (n % 10)], by simp, by simpa using hd, rfl⟩
      · obtain ⟨pre, hne, hall, he⟩ := ih (n / 10) (Nat.digitChar (n % 10) :: ds) (by omega)
        refine ⟨pre ++ [Nat.digitChar (n % 10)], by simp, ?_, by rw [he]; simp⟩
        intro c hc
        rcases List.mem_append.mp hc with h | h
        · exact hall c h
        · rw [List.mem_singleton] at h
          rw [h]; exact hd

theorem digitsValue_toDigits (n : Nat) : digitsValue (Nat.toDigits 10 n) = some n := by
  obtain ⟨pre, hne, _, he⟩ := toDigitsCore_prefix (n + 1) n [] (by omega)
  have hnil : Nat.toDigits 10 n ≠ [] := by
    unfold Nat.toDigits
    rw [he, List.append_nil]
    exact hne
  unfold digitsValue
  rw [if_neg hnil]
  unfold Nat.toDigits
  rw [foldl_toDigitsCore (n + 1) n [] (by omega)]
  rfl

theorem Atoi_of_digit_head (c : Char) (t : Str) (hc : c.isDigit = true) :
    Atoi (c :: t) = signedValue false (c :: t) := by
  unfold Atoi
  split
  · rename_i heq
    cases heq
    exact absurd hc (by decide)
  · rename_i heq
    cases heq
    exact absurd hc (by decide)
  · rfl

/-- The decimal rendering of a non-negative value of `int` parses back to that value. -/
theorem Atoi_Itoa (n : Int) (h0 : 0 ≤ n) (h1 : n < 2 ^ 63) : Atoi (Itoa n) = some n := by
  have hit : Itoa n = Nat.toDigits 10 n.toNat := by
    unfold Itoa
    rw [if_neg (by omega)]
  obtain ⟨pre, hne, hall, he⟩ := toDigitsCore_prefix (n.toNat + 1) n.toNat [] (by omega)
  rw [List.append_nil] at he
  have hd : Nat.toDigits 10 n.toNat = pre := he
  rw [hit]
  cases hp : pre with
  | nil => exact absurd hp hne
  | cons c t =>
    have hcd : c.isDigit = true := hall c (by rw [hp]; exact List.mem_cons_self _ _)
    have hv := digitsValue_toDigits n.toNat
    rw [hd, hp] at hv
    rw [hd, hp, Atoi_of_digit_head c t hcd]
    unfold signedValue
    rw [hv]
    have hr : -(2 ^ 63) ≤ ((n.toNat : Nat) : Int) ∧ ((n.toNat : Nat) : Int) ≤ 2 ^ 63 - 1 := by
      omega
    simp only [Bool.false_eq_true, if_false]
    rw [if_pos hr]
    congr 1
    omega

theorem handleTimeCommand_unix (w w1 : World) (arg0 : EncodedCmd) (rest : List EncodedCmd)
    (timeFormat : Str) (harg : InterpretCmd w arg0 = (.returned timeFormat none, w1))
    (hkey : ToLower (TrimSpace timeFormat) = "unix".toList) :
    handleTimeCommand w (arg0 :: rest) = (.returned (Itoa (w1.clock 0).unix) none, w1.now.2) := by
  simp only [handleTimeCommand, harg, hkey]
  rfl

/-- C21: when the first argument of a `time` node evaluates without error to a string that
is `unix` once trimmed and lower-cased, the node evaluates without error to the decimal
rendering of the seconds since the epoch of the next clock reading, whatever the further
arguments are; and when the clock is not before the epoch (its seconds being a non-negative
64-bit value) that string parses back, with `Atoi`, to this non-negative integer. -/
theorem time_unix_keyword (w w1 : World) (arg0 : EncodedCmd) (rest : List EncodedCmd)
    (v timeFormat : Str) (harg : InterpretCmd w arg0 = (.returned timeFormat none, w1))
    (hkey : ToLower (TrimSpace timeFormat) = "unix".toList) :
    InterpretCmd w (EncodedCmd.mk TokenTime (arg0 :: rest) v)
        = (.returned (Itoa (w1.clock 0).unix) none, w1.now.2)
    ∧ (0 ≤ (w1.clock 0).unix → (w1.clock 0).unix < 2 ^ 63 →
        Atoi (Itoa (w1.clock 0).unix) = some (w1.clock 0).unix) := by
  refine ⟨?_, fun h0 h1 => Atoi_Itoa _ h0 h1⟩
  rw [InterpretCmd_time]
  exact handleTimeCommand_unix w w1 arg0 rest timeFormat harg hkey

/-- C21 at ` UNIX ` followed by a second argument that is ignored, the clock standing at
1257894000 seconds; `unix` and `Unix` are the keyword as well. -/
theorem time_unix_keyword_example :
    (InterpretCmd (constWorld 0 1257894000)
          (EncodedCmd.mk TokenTime
            [EncodedCmd.mk (-1) [] " UNIX ".toList, EncodedCmd.mk TokenRandom [] []] [])
        = (.returned (Itoa (((constWorld 0 1257894000)).clock 0).unix) none,
            (constWorld 0 1257894000).now.2)
      ∧ (0 ≤ ((constWorld 0 1257894000).clock 0).unix →
          ((constWorld 0 1257894000).clock 0).unix < 2 ^ 63 →
          Atoi (Itoa ((constWorld 0 1257894000).clock 0).unix)
            = some ((constWorld 0 1257894000).clock 0).unix))
    ∧ Itoa ((constWorld 0 1257894000).clock 0).unix = "1257894000".toList
    ∧ ToLower (TrimSpace "unix".toList) = "unix".toList
    ∧ ToLower (TrimSpace "Unix".toList) = "unix".toList :=
  ⟨time_unix_keyword (constWorld 0 1257894000) (constWorld 0 1257894000)
      (EncodedCmd.mk (-1) [] " UNIX ".toList) [EncodedCmd.mk TokenRandom [] []] []
      " UNIX ".toList rfl (by decide),
    by rfl, by decide, by decide⟩

/-! ## The convenience evaluators -/

theorem GetFloat_of_returned {F : Type} (fl : Float64Ops F) (tbl : GoMap Int)
    (maxDepth : Int) (w w1 : World) (iExpr rvalStr : Str) (err : Option ExprError)
    (cmd : EncodedCmd) (hnum : fl.ParseFloat iExpr = none)
    (hcmd : cmd = (match ParseCmd tbl maxDepth iExpr 0 with
      | .ok cmd => cmd
      | .error _ => EncodedCmd.mk 0 [] []))
    (hev : InterpretCmd w cmd = (.returned rvalStr err, w1))
    (hstr : fl.ParseFloat rvalStr = none) :
    GetFloat fl tbl maxDepth w iExpr = (some fl.one, w1) := by
  unfold GetFloat IsNumber
  rw [hnum]
  simp only [Option.isSome_none, Bool.false_eq_true, if_false]
  rw [← hcmd, hev]
  simp only [hstr]

theorem GetFloat_of_panicked {F : Type} (fl : Float64Ops F) (tbl : GoMap Int)
    (maxDepth : Int) (w w1 : World) (iExpr : Str) (cmd : EncodedCmd)
    (hnum : fl.ParseFloat iExpr = none)
    (hparse : ParseCmd tbl maxDepth iExpr 0 = .ok cmd)
    (hev : InterpretCmd w cmd = (.panicked, w1)) :
    GetFloat fl tbl maxDepth w iExpr = (none, w1) := by
  unfold GetFloat IsNumber
  rw [hnum]
  simp only [Option.isSome_none, Bool.false_eq_true, if_false]
  rw [hparse]
  simp only []
  rw [hev]

/-- C22 (the code at the failing input): on `random(0,9223372036854775807)`, which is not a
number, `GetFloat` and `GetInt` return nothing: the evaluation panics, in every world and
whatever `ParseFloat` is. On the expressions whose evaluation returns, the claim holds: when
the expression is not a number and the evaluated string does not parse as a float, `GetFloat`
is 1 and `GetInt` is `int(1)`, as on `abc` and on `random(10,1)`, and `GetInt` is always the
conversion of `GetFloat`. -/
theorem GetFloat_panics_on_wide_random :
    (∀ (F : Type) (fl : Float64Ops F) (w : World), fl.ParseFloat wideRandom = none →
        (GetFloat fl commandTokenMap maxInterpreterRecursionDepth w wideRandom).1 = none
        ∧ (GetInt fl commandTokenMap maxInterpreterRecursionDepth w wideRandom).1 = none)
    ∧ (GetFloat integerFloats commandTokenMap maxInterpreterRecursionDepth (constWorld 0 0)
        wideRandom).1 = none
    ∧ (∀ (F : Type) (fl : Float64Ops F) (tbl : GoMap Int) (maxDepth : Int) (w w1 : World)
        (iExpr rvalStr : Str) (err : Option ExprError),
        fl.ParseFloat iExpr = none →
        InterpretCmd w (match ParseCmd tbl maxDepth iExpr 0 with
          | .ok cmd => cmd
          | .error _ => EncodedCmd.mk 0 [] []) = (.returned rvalStr err, w1) →
        fl.ParseFloat rvalStr = none →
        (GetFloat fl tbl maxDepth w iExpr).1 = some fl.one
        ∧ (GetInt fl tbl maxDepth w iExpr).1 = some (fl.toInt fl.one))
    ∧ (∀ (F : Type) (fl : Float64Ops F) (tbl : GoMap Int) (maxDepth : Int) (w : World)
        (iExpr : Str),
        (GetInt fl tbl maxDepth w iExpr).1
          = (GetFloat fl tbl maxDepth w iExpr).1.map fl.toInt)
    ∧ (GetFloat integerFloats commandTokenMap maxInterpreterRecursionDepth (constWorld 0 0)
        "abc".toList).1 = some 1
    ∧ (GetFloat integerFloats commandTokenMap maxInterpreterRecursionDepth (constWorld 0 0)
        "random(10,1)".toList).1 = some 1 := by
  refine ⟨?_, by rfl, ?_, ?_, by rfl, by rfl⟩
  · intro F fl w hnum
    have hparse : ParseCmd commandTokenMap maxInterpreterRecursionDepth wideRandom 0
        = .ok (EncodedCmd.mk TokenRandom
            [EncodedCmd.mk (-1) [] "0".toList,
             EncodedCmd.mk (-1) [] "9223372036854775807".toList] []) := rfl
    have hev : InterpretCmd w (EncodedCmd.mk TokenRandom
            [EncodedCmd.mk (-1) [] "0".toList,
             EncodedCmd.mk (-1) [] "9223372036854775807".toList] []) = (.panicked, w) := by
      rw [InterpretCmd_random,
        handleRandomCommand_literals w "0".toList "9223372036854775807".toList
          0 9223372036854775807 rfl rfl]
      rfl
    have hg := GetFloat_of_panicked fl commandTokenMap maxInterpreterRecursionDepth w w
      wideRandom _ hnum hparse hev
    exact ⟨by rw [hg], by rw [GetInt, hg]; rfl⟩
  · intro F fl tbl maxDepth w w1 iExpr rvalStr err hnum hev hstr
    have hg := GetFloat_of_returned fl tbl maxDepth w w1 iExpr rvalStr err _ hnum rfl hev hstr
    exact ⟨by rw [hg], by rw [GetInt, hg]; rfl⟩
  · intro F fl tbl maxDepth w iExpr
    rfl

end TheCrowler
